import Mathlib

/-!
ReCpp: thread pool range partitioning, close_sync and the binary writer sinks

A shallow embedding of `rpp/thread_pool.cpp`, `rpp/close_sync.h` and
`rpp/binary_writer.h`, followed by the properties proved about it.

Conventions of the embedding.

* `int` is a mathematical integer wrapped into `[-2^31, 2^31)` after every
  arithmetic step (`wrap_int`); `uint` is a natural number reduced modulo `2^32`
  (`wrap_uint`). Conversions between the two are the usual modular ones.
* A failed `assert` and an access outside an allocation end the run with a
  `Fault`; every operation that can fail returns `Except Fault _`.
* A worker thread that receives a range task calls the callback with the very
  `(start, end)` pair stored by `run_range`; the embedding of `parallel_for`
  records these pairs in dispatch order.
-/

namespace rpp

/-- How a run can end abnormally: a failed `assert`, or an access outside the
addressed allocation (including a store through a null pointer). -/
inductive Fault where
  | assertion
  | memory
  deriving DecidableEq, Repr

deriving instance DecidableEq for Except

/-- Two's-complement wrap of an integer into the range of a 32-bit `int`. -/
def wrap_int (x : Int) : Int := (x + 2147483648) % 4294967296 - 2147483648

/-- Reduction of an integer into the range of a 32-bit `uint`. -/
def wrap_uint (x : Int) : Nat := (x % 4294967296).toNat

/-! ## thread_pool::parallel_for -/

/-- The fields of `thread_pool` that `parallel_for` reads and writes besides the
worker list. -/
structure thread_pool where
  coreCount : Int
  rangeRunning : Bool
  deriving DecidableEq, Repr

/-- The `(start, end)` pair handed to `start_range_task` in iteration `i` of the
dispatch loop of `parallel_for`. -/
def thread_pool.partition (cores len rangeEnd : Int) (i : Nat) : Int × Int :=
  let start := wrap_int ((i : Int) * len)
  let stop := if (i : Int) = cores - 1 then rangeEnd else wrap_int (start + len)
  (start, stop)

/-- Embedding of `thread_pool::parallel_for(rangeStart, rangeEnd, rangeTask)`:
the pool afterwards and the argument pairs with which `rangeTask` is invoked. -/
def thread_pool.parallel_for (pool : thread_pool) (rangeStart rangeEnd : Int) :
    Except Fault (thread_pool × List (Int × Int)) :=
  if pool.rangeRunning then .error .assertion
  else if ¬ (pool.coreCount > 0) then .error .assertion
  else
    let range := wrap_int (rangeEnd - rangeStart)
    if range ≤ 0 then .ok (pool, [])
    else
      let cores := if range < pool.coreCount then range else pool.coreCount
      let len := wrap_int (Int.tdiv range cores)
      if cores ≤ 1 then .ok (pool, [(0, len)])
      else
        let active := (List.range cores.toNat).map (thread_pool.partition cores len rangeEnd)
        .ok ({ pool with rangeRunning := false }, active)

/-- Total number of indices covered by a list of `[start, end)` ranges, as the
callback `atomic += (end - start)` accumulates it. -/
def range_total (calls : List (Int × Int)) : Int :=
  (calls.map fun p => p.2 - p.1).sum

/-- Boundaries of the partitions when `rangeStart = 0`: partition `i` runs from
`chunk_bound i` to `chunk_bound (i + 1)`. -/
def chunk_bound (cores len rangeEnd : Int) (j : Nat) : Int :=
  if (j : Int) = cores then rangeEnd else (j : Int) * len

/-! ## binary_writer.h: memory and the in-memory sinks -/

/-- The source's `typedef unsigned char byte`. -/
abbrev byte := Fin 256

/-- `memcpy(mem + pos, data, numBytes)` into an allocation `mem`, where
`numBytes = data.length`: a fault when the copy leaves the allocation. -/
def memcpy (mem : List byte) (pos : Nat) (data : List byte) : Except Fault (List byte) :=
  if pos + data.length ≤ mem.length then
    .ok (mem.take pos ++ data ++ mem.drop (pos + data.length))
  else .error .memory

/-- The call `memcpy` through a pointer that may be null (`none`); copying zero
bytes through a null pointer touches nothing. -/
def memcpy_ptr (buf : Option (List byte)) (pos : Nat) (data : List byte) :
    Except Fault (Option (List byte)) :=
  match buf with
  | some mem => (memcpy mem pos data).map some
  | none => if data.length = 0 then .ok none else .error .memory

/-- The store `*buf = 0` performed by `clear()`. -/
def store_zero (buf : Option (List byte)) : Except Fault (Option (List byte)) :=
  match buf with
  | some mem => if 0 < mem.length then .ok (some (mem.set 0 0)) else .error .memory
  | none => .error .memory

/-- The call `realloc(buf, size)`, assumed to succeed: the old contents are kept
up to the smaller of both sizes; fresh bytes are indeterminate in C and are zero
here (no property below reads them). -/
def realloc (buf : Option (List byte)) (size : Nat) : Option (List byte) :=
  match buf with
  | some mem => some (mem.take size ++ List.replicate (size - mem.length) 0)
  | none => some (List.replicate size 0)

/-- The bytes `p[0, n)` behind a data pointer `p`. -/
def region (p : Option (List byte)) (n : Nat) : List byte := (p.getD []).take n

/-- The sink interface every `write_impl` template argument provides
(`data`, `size`, `available`, `clear`, `flush`, `write`). The typed overload
`template<class T> void write(const T& data)` is `write_pod`; its argument is the
object representation of `data`, `sizeof(T)` bytes long. -/
class write_impl (σ : Type) where
  data : σ → Option (List byte)
  size : σ → Nat
  available : σ → Nat
  clear : σ → Except Fault σ
  flush : σ → Except Fault σ
  write : σ → List byte → Except Fault σ
  write_pod : σ → List byte → Except Fault σ

/-- `struct array_write<Max>`: `uint Pos; byte Buf[Max]`. -/
structure array_write (Max : Nat) where
  Pos : Nat
  Buf : List byte
  deriving DecidableEq, Repr

namespace array_write

/-- The constructor `array_write() : Pos(0) {}`; the array starts zero-filled here. -/
def new (Max : Nat) : array_write Max := ⟨0, List.replicate Max 0⟩

def data {Max : Nat} (s : array_write Max) : Option (List byte) := some s.Buf
def size {Max : Nat} (s : array_write Max) : Nat := s.Pos
def available {Max : Nat} (s : array_write Max) : Nat := wrap_uint ((Max : Int) - s.Pos)

def clear {Max : Nat} (s : array_write Max) : Except Fault (array_write Max) :=
  if 0 < s.Buf.length then .ok ⟨0, s.Buf.set 0 0⟩ else .error .memory

def flush {Max : Nat} (s : array_write Max) : array_write Max := s

/-- `write(const void* data, uint numBytes)`: `assert(Pos + numBytes <= Max)` in
`uint` arithmetic, then `memcpy(Buf + Pos, data, numBytes), Pos += numBytes`. -/
def write {Max : Nat} (s : array_write Max) (data : List byte) :
    Except Fault (array_write Max) :=
  if wrap_uint ((s.Pos : Int) + data.length) ≤ Max then
    (memcpy s.Buf s.Pos data).map fun buf => ⟨wrap_uint ((s.Pos : Int) + data.length), buf⟩
  else .error .assertion

/-- `write(const T& data)`: `assert(Pos + sizeof(T) <= Max)`, where the sum is
formed in `size_t` and does not wrap, then `*(T*)&Buf[Pos] = data, Pos += sizeof(T)`. -/
def write_pod {Max : Nat} (s : array_write Max) (data : List byte) :
    Except Fault (array_write Max) :=
  if s.Pos + data.length ≤ Max then
    (memcpy s.Buf s.Pos data).map fun buf => ⟨wrap_uint ((s.Pos : Int) + data.length), buf⟩
  else .error .assertion

end array_write

instance (Max : Nat) : write_impl (array_write Max) where
  data := array_write.data
  size := array_write.size
  available := array_write.available
  clear := array_write.clear
  flush := fun s => .ok s.flush
  write := array_write.write
  write_pod := array_write.write_pod

/-- `struct view_write`: `char* Buf; uint Pos; uint Max`. -/
structure view_write where
  Buf : Option (List byte)
  Pos : Nat
  Max : Nat
  deriving DecidableEq, Repr

namespace view_write

/-- The constructor `view_write() : Buf(0), Pos(0), Max(0) {}`. -/
def new : view_write := ⟨none, 0, 0⟩

/-- The constructor `view_write(void* buf, uint len)` over the caller's region `buf`. -/
def of_region (buf : List byte) (len : Nat) : view_write := ⟨some buf, 0, len⟩

def data (s : view_write) : Option (List byte) := s.Buf
def size (s : view_write) : Nat := s.Pos
def available (s : view_write) : Nat := wrap_uint ((s.Max : Int) - s.Pos)

def clear (s : view_write) : Except Fault view_write :=
  (store_zero s.Buf).map fun buf => { s with Pos := 0, Buf := buf }

def flush (s : view_write) : view_write := s

/-- `write(const void* data, uint numBytes)`: `assert(Pos + numBytes <= Max)` in
`uint` arithmetic, then `memcpy(Buf + Pos, data, numBytes), Pos += numBytes`. -/
def write (s : view_write) (data : List byte) : Except Fault view_write :=
  if wrap_uint ((s.Pos : Int) + data.length) ≤ s.Max then
    (memcpy_ptr s.Buf s.Pos data).map fun buf =>
      { s with Buf := buf, Pos := wrap_uint ((s.Pos : Int) + data.length) }
  else .error .assertion

/-- `write(const T& data)`: `assert(Pos + sizeof(T) <= Max)`, where the sum is
formed in `size_t` and does not wrap, then `*(T*)&Buf[Pos] = data, Pos += sizeof(T)`. -/
def write_pod (s : view_write) (data : List byte) : Except Fault view_write :=
  if s.Pos + data.length ≤ s.Max then
    (memcpy_ptr s.Buf s.Pos data).map fun buf =>
      { s with Buf := buf, Pos := wrap_uint ((s.Pos : Int) + data.length) }
  else .error .assertion

end view_write

instance : write_impl view_write where
  data := view_write.data
  size := view_write.size
  available := view_write.available
  clear := view_write.clear
  flush := fun s => .ok s.flush
  write := view_write.write
  write_pod := view_write.write_pod

/-- `struct buffer_write`: `char* Buf; uint Pos; uint Cap`. -/
structure buffer_write where
  Buf : Option (List byte)
  Pos : Nat
  Cap : Nat
  deriving DecidableEq, Repr

namespace buffer_write

/-- The constructor `buffer_write() : Buf(0), Pos(0), Cap(0) {}`. -/
def new : buffer_write := ⟨none, 0, 0⟩

/-- The constructor `explicit buffer_write(uint capacity)`, which allocates exactly
`capacity` bytes. -/
def with_capacity (capacity : Nat) : buffer_write :=
  ⟨some (List.replicate capacity 0), 0, capacity⟩

def data (s : buffer_write) : Option (List byte) := s.Buf
def size (s : buffer_write) : Nat := s.Pos
def available (_s : buffer_write) : Nat := 4294967295

def clear (s : buffer_write) : Except Fault buffer_write :=
  (store_zero s.Buf).map fun buf => { s with Pos := 0, Buf := buf }

def flush (s : buffer_write) : buffer_write := s

/-- The capacity computed by `reserve` when it grows the buffer:
`int cap = Cap + numBytes; if (int rem = cap % 512) cap += 512 - rem; Cap = cap`. -/
def grown_cap (Cap numBytes : Nat) : Nat :=
  let cap : Int := wrap_int (wrap_uint ((Cap : Int) + numBytes))
  let rem : Int := Int.tmod cap 512
  let cap : Int := if rem ≠ 0 then wrap_int (cap + (512 - rem)) else cap
  wrap_uint cap

/-- `reserve(uint numBytes)`: grow when `numBytes > (Cap - Pos)` in `uint` arithmetic. -/
def reserve (s : buffer_write) (numBytes : Nat) : buffer_write :=
  if numBytes > wrap_uint ((s.Cap : Int) - s.Pos) then
    { s with Buf := realloc s.Buf (grown_cap s.Cap numBytes), Cap := grown_cap s.Cap numBytes }
  else s

/-- `write(const void* data, uint numBytes)`:
`reserve(numBytes); memcpy(&Buf[Pos], data, numBytes), Pos += numBytes`. -/
def write (s : buffer_write) (data : List byte) : Except Fault buffer_write :=
  let s := s.reserve data.length
  (memcpy_ptr s.Buf s.Pos data).map fun buf =>
    { s with Buf := buf, Pos := wrap_uint ((s.Pos : Int) + data.length) }

/-- `write(const T& data)`:
`reserve(sizeof(T)); *(T*)&Buf[Pos] = data, Pos += sizeof(T)`. -/
def write_pod (s : buffer_write) (data : List byte) : Except Fault buffer_write :=
  let s := s.reserve data.length
  (memcpy_ptr s.Buf s.Pos data).map fun buf =>
    { s with Buf := buf, Pos := wrap_uint ((s.Pos : Int) + data.length) }

end buffer_write

instance : write_impl buffer_write where
  data := buffer_write.data
  size := buffer_write.size
  available := buffer_write.available
  clear := buffer_write.clear
  flush := fun s => .ok s.flush
  write := buffer_write.write
  write_pod := buffer_write.write_pod

/-- The bytes `data()[0, size())` of a sink. -/
def contents {σ : Type} [write_impl σ] (s : σ) : List byte :=
  region (write_impl.data s) (write_impl.size s)

/-- A sequence of `write` calls, in call order; a fault ends the sequence. -/
def write_all {σ : Type} [write_impl σ] (s : σ) : List (List byte) → Except Fault σ
  | [] => .ok s
  | d :: ds => (write_impl.write s d).bind fun s1 => write_all s1 ds

/-- Total number of bytes in a sequence of write inputs. -/
def total_bytes (ws : List (List byte)) : Nat := (ws.map List.length).sum

/-- Representation invariant of a Growing sink: the write position is inside the
capacity and the allocation behind `Buf` is `Cap` bytes long (a null `Buf` has
capacity zero). -/
def buffer_write.wf (s : buffer_write) : Prop :=
  s.Pos ≤ s.Cap ∧ (s.Buf.getD []).length = s.Cap

/-- Representation invariant of a FixedArray sink: the write position is inside
the array of `Max` bytes. -/
def array_write.wf {Max : Nat} (s : array_write Max) : Prop :=
  s.Pos ≤ Max ∧ s.Buf.length = Max

/-- Representation invariant of a View sink: the write position is inside the
viewed region, which really has `Max` bytes. -/
def view_write.wf (s : view_write) : Prop :=
  s.Pos ≤ s.Max ∧ s.Max ≤ (s.Buf.getD []).length

/-! ## binary_writer.h: the typed writer and the composite sink -/

/-- Object representation of an unsigned integer of `width` bytes in little-endian
byte order (the order the spec fixes for the wire format). -/
def le_bytes (width value : Nat) : List byte :=
  (List.range width).map fun i => Fin.ofNat (value / 256 ^ i % 256)

/-- `binary_writer::write_ushort(ushort value) { return write(value); }`. -/
def binary_writer.write_ushort {σ : Type} [write_impl σ] (w : σ) (value : Nat) :
    Except Fault σ :=
  write_impl.write_pod w (le_bytes 2 value)

/-- `binary_writer::write_nstr(const Char* str, int len)`:
`write_ushort(len).write(str, len * sizeof(Char))`. The `int` length is converted to
`ushort` for the prefix and `len * sizeof(Char)` is converted to `uint`; `str` is the
memory behind the character pointer, of which the first `numBytes` bytes are copied. -/
def binary_writer.write_nstr {σ : Type} [write_impl σ] (w : σ) (sizeofChar : Nat)
    (str : List byte) (len : Int) : Except Fault σ :=
  (binary_writer.write_ushort w (len % 65536).toNat).bind fun w1 =>
    write_impl.write w1 (str.take (wrap_uint (len * sizeofChar)))

/-- Modelled from the spec: the reader of a length-prefixed string, which the
repository does not contain. It reads a little-endian u16 count and then
`count * char_size` bytes, and returns the character bytes and the unread rest. -/
def read_nstr (sizeofChar : Nat) (bytes : List byte) : Option (List byte × List byte) :=
  match bytes with
  | b0 :: b1 :: rest =>
    let count := b0.val + 256 * b1.val
    if count * sizeofChar ≤ rest.length then
      some (rest.take (count * sizeofChar), rest.drop (count * sizeofChar))
    else none
  | _ => none

/-- `struct composite_write<buffer, storage> : public storage, private buffer`. -/
structure composite_write (buffer storage : Type) where
  toStorage : storage
  toBuffer : buffer

namespace composite_write

def data {B S : Type} [write_impl B] (c : composite_write B S) : Option (List byte) :=
  write_impl.data c.toBuffer

def size {B S : Type} [write_impl B] (c : composite_write B S) : Nat :=
  write_impl.size c.toBuffer

def available {B S : Type} [write_impl B] (c : composite_write B S) : Nat :=
  write_impl.available c.toBuffer

/-- `clear() { buffer::clear(); }`. -/
def clear {B S : Type} [write_impl B] (c : composite_write B S) :
    Except Fault (composite_write B S) :=
  (write_impl.clear c.toBuffer).map fun b => { c with toBuffer := b }

/-- `flush() { storage::write(data(), size()); clear(); }`. -/
def flush {B S : Type} [write_impl B] [write_impl S] (c : composite_write B S) :
    Except Fault (composite_write B S) :=
  (write_impl.write c.toStorage (region c.data c.size)).bind fun st =>
    clear { c with toStorage := st }

/-- `write(const void* data, uint numBytes)`:
`if (available() < numBytes) flush(); storage::write(data, numBytes);`. -/
def write {B S : Type} [write_impl B] [write_impl S] (c : composite_write B S)
    (d : List byte) : Except Fault (composite_write B S) :=
  (if c.available < d.length then c.flush else .ok c).bind fun c1 =>
    (write_impl.write c1.toStorage d).map fun st => { c1 with toStorage := st }

/-- `write(const T& data)`:
`if (available() < sizeof(T)) flush(); storage::write(data);`. -/
def write_pod {B S : Type} [write_impl B] [write_impl S] (c : composite_write B S)
    (d : List byte) : Except Fault (composite_write B S) :=
  (if c.available < d.length then c.flush else .ok c).bind fun c1 =>
    (write_impl.write_pod c1.toStorage d).map fun st => { c1 with toStorage := st }

/-- The destructor `~composite_write() { flush(); }`; what remains observable is
the storage. -/
def drop {B S : Type} [write_impl B] [write_impl S] (c : composite_write B S) :
    Except Fault S :=
  c.flush.map fun c1 => c1.toStorage

end composite_write

instance (B S : Type) [write_impl B] [write_impl S] : write_impl (composite_write B S) where
  data := composite_write.data
  size := composite_write.size
  available := composite_write.available
  clear := composite_write.clear
  flush := composite_write.flush
  write := composite_write.write
  write_pod := composite_write.write_pod

/-- The payloads of the `storage::write` calls that a `FixedArray<Max>`-buffered
composite issues for the write inputs `ws`: an input longer than the buffer is
preceded by the forced flush of the (empty) buffer. -/
def storage_calls (Max : Nat) (ws : List (List byte)) : List (List byte) :=
  ws.flatMap fun d => if Max < d.length then [[], d] else [d]

/-- The front buffer of a `FixedArray<Max>`-buffered composite holds no data. -/
def composite_write.idle {Max : Nat} {S : Type} (c : composite_write (array_write Max) S) :
    Prop :=
  c.toBuffer.Pos = 0 ∧ c.toBuffer.Buf.length = Max

/-! ## close_sync.h

`close_sync` wraps a `std::shared_mutex mut` and the flag `explicitLock`. The
embedding is a transition system over the mutex state, one atomic step per mutex
operation. `mut.try_lock_shared()` never succeeds while `mut` is owned exclusively;
otherwise the implementation decides: it may grant shared ownership (a thread
blocked in `mut.lock()` does not own the mutex yet), and it may refuse, spuriously
or because a thread waits in `mut.lock()`. Each `try_lock` step carries that
decision. -/

/-- State of a `close_sync` object: the shared owners of `mut` (live owning
`readonly_lock` guards), whether `mut` is owned exclusively, the member
`explicitLock`, whether a thread is blocked inside `lock_for_close` waiting in
`mut.lock()`, and whether the destructor has run. -/
structure close_sync where
  readers : Nat
  exclusive : Bool
  explicitLock : Bool
  closing : Bool
  destroyed : Bool
  deriving DecidableEq, Repr

namespace close_sync

/-- A freshly constructed `close_sync`. -/
def new : close_sync := ⟨0, false, false, false, false⟩

/-- The atomic steps threads perform on a `close_sync`: a call of `try_lock()`
(`granted` is what the implementation decides if nobody owns `mut` exclusively), the
destruction of an owning guard, the entry into `lock_for_close()` (assertion and
`explicitLock = true`), the acquisition in `mut.lock()` with which
`lock_for_close()` returns, and the destructor. -/
inductive event where
  | try_lock (granted : Bool)
  | unlock_shared
  | lock_for_close_enter
  | lock_for_close_return
  | destroy
  deriving DecidableEq, Repr

/-- `try_lock()`: `return { mut, std::try_to_lock }`, which calls
`mut.try_lock_shared()`: refused while `mut` is owned exclusively, and otherwise
granted or refused as the implementation decides (`granted`). The flag tells whether
the returned guard owns the lock. -/
def try_lock (s : close_sync) (granted : Bool) : close_sync × Bool :=
  if s.exclusive || !granted then (s, false)
  else ({ s with readers := s.readers + 1 }, true)

/-- One step of the transition system; `none` when the step cannot be taken in
this state (the thread stays blocked, the assertion fails, or the object no longer
exists). A `try_lock` step also yields the ownership flag of its guard. -/
def step (s : close_sync) : event → Option (close_sync × Option Bool)
  | .try_lock granted =>
    if s.destroyed then none
    else some ((s.try_lock granted).1, some (s.try_lock granted).2)
  | .unlock_shared =>
    if s.destroyed || s.readers == 0 then none
    else some ({ s with readers := s.readers - 1 }, none)
  | .lock_for_close_enter =>
    if s.destroyed || s.explicitLock then none
    else some ({ s with explicitLock := true, closing := true }, none)
  | .lock_for_close_return =>
    if !s.destroyed && s.closing && s.readers == 0 && !s.exclusive then
      some ({ s with exclusive := true, closing := false }, none)
    else none
  | .destroy =>
    if s.destroyed then none
    else if s.explicitLock then
      if s.exclusive then some ({ s with exclusive := false, destroyed := true }, none)
      else none
    else if s.readers == 0 && !s.exclusive then some ({ s with destroyed := true }, none)
    else none

/-- Run a sequence of steps; the result lists the ownership flags of the guards
returned by the `try_lock` calls, in order. -/
def run (s : close_sync) : List event → Option (close_sync × List Bool)
  | [] => some (s, [])
  | e :: es =>
    match s.step e with
    | none => none
    | some (s1, r) => (run s1 es).map fun p => (p.1, r.toList ++ p.2)

end close_sync

/-! ## thread_pool.h: parallel_foreach -/

/-- The indices visited by `for (int i = start; i < end; ++i)`. -/
def range_loop (start stop : Int) : List Int :=
  (List.range (stop - start).toNat).map fun (k : Nat) => start + (k : Int)

/-- Embedding of `parallel_foreach(items, foreach)` for a container of `size` items:
`parallel_for(0, (int)items.size(), ...)` with the callback that runs
`foreach(items[i])` for `i` in `[start, end)`. The result lists the indices on which
`foreach` is invoked, partition by partition in dispatch order; `foreach` is taken
not to throw. -/
def parallel_foreach (pool : thread_pool) (size : Nat) :
    Except Fault (thread_pool × List Int) :=
  (thread_pool.parallel_for pool 0 (wrap_int size)).map fun r =>
    (r.1, r.2.flatMap fun p => range_loop p.1 p.2)

/-! ## thread_pool.cpp: pool_task

A worker is the record of the members of `pool_task`. The callables are data: one
invocation of a callable either returns or throws, and `throws` says which. The
thread behind `th` is represented by `joinable` (`th.joinable()`); the waits on the
condition variable are represented by what the waiting thread decides each time it
holds the mutex. Log output of `unhandled_exception` is left out. -/

/-- An exception object: one derived from `std::exception`, a thrown `const char*`,
or anything else (caught by `catch (...)`). -/
inductive exception where
  | std_exception (what : String)
  | c_string (what : String)
  | other (tag : Nat)
  deriving DecidableEq, Repr

/-- `task_delegate<void()>`: an owning callable, named by `id`. -/
structure task_delegate where
  id : Nat
  throws : Option exception
  deriving DecidableEq, Repr

/-- `action<int, int>`: a non-owning range callback, named by `id`; `throws start end`
is what the call `rangeTask(start, end)` throws, if anything. -/
structure action where
  id : Nat
  throws : Int → Int → Option exception

/-- `enum wait_result { finished, timeout }`. -/
inductive wait_result where
  | finished
  | timeout
  deriving DecidableEq, Repr

/-- What `join_or_detach` did to the thread handle. -/
inductive thread_op where
  | nothing
  | detached
  | joined
  deriving DecidableEq, Repr

/-- A call made by the worker loop: `range(rangeStart, rangeEnd)` or `generic()`. -/
inductive invocation where
  | range (id : Nat) (start stop : Int)
  | generic (id : Nat)
  deriving DecidableEq, Repr

/-- The members of `class pool_task`; `maxIdleTime` is a `float` number of seconds,
kept as a rational. -/
structure pool_task where
  genericTask : Option task_delegate
  rangeTask : Option action
  rangeStart : Int
  rangeEnd : Int
  maxIdleTime : Rat
  trace : String
  error : Option exception
  taskRunning : Bool
  killed : Bool
  joinable : Bool

namespace pool_task

/-- The constructor `pool_task()`: the member initialisers of the class, and
`th = thread{[this] { run(); }}`. -/
def new : pool_task :=
  { genericTask := none, rangeTask := none, rangeStart := 0, rangeEnd := 0,
    maxIdleTime := 15, trace := "", error := none, taskRunning := false,
    killed := false, joinable := true }

/-- `running()`. -/
def running (t : pool_task) : Bool := t.taskRunning

/-- `max_idle_time(maxIdleSeconds)`. -/
def max_idle_time (t : pool_task) (maxIdleSeconds : Rat) : pool_task :=
  { t with maxIdleTime := maxIdleSeconds }

/-- `join_or_detach(result)`: a joinable handle is detached when `result` is
`timeout` or the caller is the worker's own thread, and joined otherwise.
`th.join()` returns when the worker thread has left `run()`, which it does only
through the block that stores `taskRunning = false`. -/
def join_or_detach (t : pool_task) (result : wait_result) (on_worker_thread : Bool) :
    pool_task × wait_result × thread_op :=
  if t.joinable then
    if result = .timeout then ({ t with joinable := false }, result, .detached)
    else if on_worker_thread then ({ t with joinable := false }, result, .detached)
    else ({ t with joinable := false, taskRunning := false }, result, .joined)
  else (t, result, .nothing)

/-- The block `if (killed) { killed = false; (void)join_or_detach(finished);
th = thread{...}; }` of `run_range` and `run_generic`. -/
def resurrect (t : pool_task) : pool_task :=
  if t.killed then
    { (join_or_detach { t with killed := false } .finished false).1 with joinable := true }
  else t

/-- `run_range(start, end, newTask)`; `tracer` is the string `TraceProvider()` returns
when a trace provider is installed. -/
def run_range (t : pool_task) (start stop : Int) (newTask : action)
    (tracer : Option String) : Except Fault pool_task :=
  if t.taskRunning then .error .assertion
  else
    .ok { resurrect { t with trace := tracer.getD "", error := none, genericTask := none,
                             rangeTask := some newTask, rangeStart := start,
                             rangeEnd := stop }
          with taskRunning := true }

/-- `run_generic(newTask)`. -/
def run_generic (t : pool_task) (newTask : task_delegate) (tracer : Option String) :
    Except Fault pool_task :=
  if t.taskRunning then .error .assertion
  else
    .ok { resurrect { t with trace := tracer.getD "", error := none,
                             genericTask := some newTask, rangeTask := none,
                             rangeStart := 0, rangeEnd := 0 }
          with taskRunning := true }

/-- One turn of the `while (taskRunning && !killed)` loop of
`wait(timeoutMillis, nothrow)` on the worker state the caller sees under the mutex;
`timed_out` tells whether `cv.wait_for` ran into its timeout. `none`: the caller
stays blocked on this state. -/
def wait_nothrow (t : pool_task) (timeoutMillis : Int) (timed_out : Bool) :
    Option (pool_task × wait_result) :=
  if t.taskRunning && !t.killed then
    if timeoutMillis ≠ 0 && timed_out then some (t, .timeout) else none
  else some (t, .finished)

/-- `wait(timeoutMillis)`: `result = wait(timeoutMillis, nothrow);
if (error) rethrow_exception(error); return result;`. -/
def wait (t : pool_task) (timeoutMillis : Int) (timed_out : Bool) :
    Option (pool_task × Except exception wait_result) :=
  (t.wait_nothrow timeoutMillis timed_out).map fun r =>
    match r.1.error with
    | some e => (r.1, .error e)
    | none => (r.1, .ok r.2)

/-- `got_task()`. -/
def got_task (t : pool_task) : Bool := t.rangeTask.isSome || t.genericTask.isSome

/-- What one turn of the loop in `wait_for_task` decides: return `false`, return
`true`, or block in `cv.wait_for(maxIdleTime)` or in `cv.wait`. -/
inductive wait_decision where
  | give_up
  | take
  | sleep_timed
  | sleep
  deriving DecidableEq, Repr

/-- The test `maxIdleTime > 0.000001f`; the `float` constant is exactly
`8796093 / 2^43`, and the comparison is made on numerator and denominator. -/
def idle_time_set (t : pool_task) : Bool :=
  decide (t.maxIdleTime.num * 8796093022208 > 8796093 * (t.maxIdleTime.den : Int))

/-- One turn of the `for (;;)` of `wait_for_task`, up to the blocking call. -/
def wait_for_task (t : pool_task) : wait_decision :=
  if t.killed then .give_up
  else if t.got_task then .take
  else if t.idle_time_set then .sleep_timed
  else .sleep

/-- `unhandled_exception(what)`: `error = std::current_exception()`. -/
def unhandled_exception (t : pool_task) (e : exception) : pool_task :=
  { t with error := some e }

/-- The result of one pass of the worker loop: the worker afterwards, the call it
made, and whether the thread left `run()`. -/
structure pass where
  task : pool_task
  invoked : Option invocation
  exited : Bool

/-- The pass of the `for (;;)` body of `run()` after `wait_for_task` returned `true`:
the task is moved out of the slots under the mutex, invoked outside of it, a thrown
exception is caught into `error`, and `taskRunning` is reset. -/
def run_task (t : pool_task) : Except Fault pass :=
  let t1 := { t with rangeTask := none, genericTask := none, taskRunning := true }
  match t.rangeTask, t.genericTask with
  | some range, _ =>
    let t2 := match range.throws t1.rangeStart t1.rangeEnd with
      | some e => t1.unhandled_exception e
      | none => t1
    .ok ⟨{ t2 with taskRunning := false }, some (.range range.id t1.rangeStart t1.rangeEnd),
      false⟩
  | none, some generic =>
    let t2 := match generic.throws with
      | some e => t1.unhandled_exception e
      | none => t1
    .ok ⟨{ t2 with taskRunning := false }, some (.generic generic.id), false⟩
  | none, none => .error .memory

/-- One pass of the `for (;;)` of `run()` from the decision of `wait_for_task`;
`none` while the thread is blocked waiting for a task. -/
def run (t : pool_task) : Option (Except Fault pass) :=
  match t.wait_for_task with
  | .give_up => some (.ok ⟨{ t with killed := true, taskRunning := false }, none, true⟩)
  | .take => some t.run_task
  | .sleep_timed => none
  | .sleep => none

end pool_task

/-! ## thread_pool.cpp: the pool with its workers -/

/-- The whole `thread_pool` object: the fields `coreCount` and `rangeRunning`
together with the worker list `tasks` and `taskMaxIdleTime`. -/
structure task_pool extends thread_pool where
  tasks : List pool_task
  taskMaxIdleTime : Rat

/-- The scan `for (t : tasks) { if (!t->running()) { submit(t); return t; } }`:
the first worker in list order that is not running receives the submission. The
result is the updated list and the position of that worker, or `none` when every
worker is running. -/
def submit_first_idle (submit : pool_task → Except Fault pool_task) :
    List pool_task → Option (Except Fault (List pool_task × Nat))
  | [] => none
  | t :: ts =>
    if !t.running then some ((submit t).map fun t1 => (t1 :: ts, 0))
    else (submit_first_idle submit ts).map fun r => r.map fun q => (t :: q.1, q.2 + 1)

/-- The tail of `parallel_task` and `start_range_task`:
`make_unique<pool_task>()`, `max_idle_time(taskMaxIdleTime)`, the submission, and
`tasks.emplace_back`. The result is the pool and the position of the new worker. -/
def task_pool.grow (p : task_pool) (submit : pool_task → Except Fault pool_task) :
    Except Fault (task_pool × Nat) :=
  (submit (pool_task.new.max_idle_time p.taskMaxIdleTime)).map fun t1 =>
    ({ p with tasks := p.tasks ++ [t1] }, p.tasks.length)

/-- `thread_pool::parallel_task(genericTask)`: the pool afterwards and the position
in `tasks` of the worker whose pointer is returned. -/
def task_pool.parallel_task (p : task_pool) (genericTask : task_delegate)
    (tracer : Option String) : Except Fault (task_pool × Nat) :=
  match submit_first_idle (fun t => t.run_generic genericTask tracer) p.tasks with
  | some r => r.map fun q => ({ p with tasks := q.1 }, q.2)
  | none => p.grow fun t => t.run_generic genericTask tracer

/-- `thread_pool::start_range_task(poolIndex, rangeStart, rangeEnd, rangeTask)`: the
scan starts at `poolIndex`; the result is the pool, the new `poolIndex` and the
position of the worker whose pointer is returned. -/
def task_pool.start_range_task (p : task_pool) (poolIndex : Nat) (rangeStart rangeEnd : Int)
    (rangeTask : action) (tracer : Option String) : Except Fault (task_pool × Nat × Nat) :=
  match submit_first_idle (fun t => t.run_range rangeStart rangeEnd rangeTask tracer)
      (p.tasks.drop poolIndex) with
  | some r => r.map fun q =>
      ({ p with tasks := p.tasks.take poolIndex ++ q.1 }, poolIndex + q.2 + 1, poolIndex + q.2)
  | none =>
    (p.grow fun t => t.run_range rangeStart rangeEnd rangeTask tracer).map fun q =>
      (q.1, max poolIndex p.tasks.length, q.2)

/-- `swap(tasks[i], tasks.back()); tasks.pop_back();`. -/
def erase_swap_last (tasks : List pool_task) (i : Nat) : List pool_task :=
  match tasks.getLast? with
  | some last => (tasks.set i last).dropLast
  | none => tasks

/-- The loop `for (int i = 0; i < (int)tasks.size();)` of `clear_idle_tasks`, from
the index `i` with `cleared` workers removed so far; `fuel` bounds the number of
iterations. -/
def clear_idle_loop : Nat → List pool_task → Nat → Int → Int × List pool_task
  | 0, tasks, _, cleared => (cleared, tasks)
  | fuel + 1, tasks, i, cleared =>
    if (i : Int) < wrap_int tasks.length then
      match tasks[i]? with
      | some t =>
        if !t.running then
          clear_idle_loop fuel (erase_swap_last tasks i) i (wrap_int (cleared + 1))
        else clear_idle_loop fuel tasks (i + 1) cleared
      | none => (cleared, tasks)
    else (cleared, tasks)

/-- `thread_pool::clear_idle_tasks()`: the pool afterwards and the returned count.
Every iteration removes a worker or advances `i`, so `tasks.size() + 1` iterations
are enough; destroying a removed worker joins its thread and touches no other. -/
def task_pool.clear_idle_tasks (p : task_pool) : task_pool × Int :=
  let r := clear_idle_loop (p.tasks.length + 1) p.tasks 0 0
  ({ p with tasks := r.2 }, r.1)

/-- How a call of `parallel_for` ends: it returns, an exception leaves the `noexcept`
function so that `std::terminate` is called, or the caller stays blocked in a wait. -/
inductive pool_exit where
  | returned
  | terminated (e : exception)
  | blocked
  deriving DecidableEq, Repr

/-- The worker at position `w` performs one pass of its loop if a submitted task is
waiting in its slots. -/
def task_pool.run_worker (p : task_pool) (w : Nat) : Except Fault task_pool :=
  match p.tasks[w]? with
  | some t =>
    if t.got_task then
      match t.run with
      | some r => r.map fun q => { p with tasks := p.tasks.set w q.task }
      | none => .ok p
    else .ok p
  | none => .ok p

/-- The dispatch loop `for (int i = 0; i < cores; ++i)` of `parallel_for` over the
partition numbers `is`: `active[i] = start_range_task(poolIndex, start, end, rangeTask)`.
When `early i` holds, the worker finishes partition `i` before the next dispatch. The
state is the pool, `poolIndex` and the list `active`. -/
def task_pool.dispatch (cores len rangeEnd : Int) (rangeTask : action)
    (tracer : Option String) (early : Nat → Bool) :
    List Nat → task_pool × Nat × List Nat → Except Fault (task_pool × Nat × List Nat)
  | [], st => .ok st
  | i :: is, (p, poolIndex, active) =>
    let range := thread_pool.partition cores len rangeEnd i
    (p.start_range_task poolIndex range.1 range.2 rangeTask tracer).bind fun r =>
      ((if early i then r.1.run_worker r.2.2 else .ok r.1)).bind fun p1 =>
        task_pool.dispatch cores len rangeEnd rangeTask tracer early is
          (p1, r.2.1, active ++ [r.2.2])

/-- Every dispatched worker that has not run its partition yet does so. -/
def task_pool.run_workers : List Nat → task_pool → Except Fault task_pool
  | [], p => .ok p
  | w :: ws, p => (p.run_worker w).bind fun p1 => task_pool.run_workers ws p1

/-- The loop `for (int i = 0; i < cores; ++i) active[i]->wait();`: an exception
rethrown by `wait()` leaves the `noexcept` function. -/
def task_pool.wait_all (p : task_pool) : List Nat → pool_exit
  | [] => .returned
  | w :: ws =>
    match p.tasks[w]? with
    | some t =>
      match t.wait 0 false with
      | some (_, .ok _) => p.wait_all ws
      | some (_, .error e) => .terminated e
      | none => .blocked
    | none => .blocked

/-- `thread_pool::parallel_for(rangeStart, rangeEnd, rangeTask)` on the pool with its
workers: the pool at the moment the call ends, and how it ends. `early` fixes the
interleaving of the workers with the dispatch loop (see `dispatch`). -/
def task_pool.parallel_for (p : task_pool) (rangeStart rangeEnd : Int) (rangeTask : action)
    (tracer : Option String) (early : Nat → Bool) : Except Fault (task_pool × pool_exit) :=
  if p.rangeRunning then .error .assertion
  else if ¬ (p.coreCount > 0) then .error .assertion
  else
    let range := wrap_int (rangeEnd - rangeStart)
    if range ≤ 0 then .ok (p, .returned)
    else
      let cores := if range < p.coreCount then range else p.coreCount
      let len := wrap_int (Int.tdiv range cores)
      if cores ≤ 1 then
        match rangeTask.throws 0 len with
        | some e => .ok (p, .terminated e)
        | none => .ok (p, .returned)
      else
        let p1 : task_pool := { p with rangeRunning := true }
        (task_pool.dispatch cores len rangeEnd rangeTask tracer early
            (List.range cores.toNat) (p1, 0, [])).bind fun st =>
          (task_pool.run_workers st.2.2 st.1).map fun p2 =>
            match p2.wait_all st.2.2 with
            | .returned => ({ p2 with rangeRunning := false }, .returned)
            | other => (p2, other)

/-! ## thread_pool.cpp: kill, the idle wait and the operations on one worker -/

namespace pool_task

/-- `kill(timeoutMillis)`: an already killed worker is only joined or detached;
otherwise `killed = true` is stored, the waiters are notified, and the result of
`wait(timeoutMillis, nothrow)` is handed to `join_or_detach`. `timed_out` is the
outcome of `cv.wait_for` inside that wait, `on_worker_thread` tells whether the
caller is the worker's own thread; `none` while the caller is blocked in the wait. -/
def kill (t : pool_task) (timeoutMillis : Int) (timed_out on_worker_thread : Bool) :
    Option (pool_task × wait_result × thread_op) :=
  if t.killed then some (t.join_or_detach .finished on_worker_thread)
  else
    (wait_nothrow { t with killed := true } timeoutMillis timed_out).map fun r =>
      r.1.join_or_detach r.2 on_worker_thread

/-- What the worker finds when a wait on `cv` ends: the worker state at that moment
(other threads may have changed it while the mutex was released) and whether
`cv.wait_for` ran into its timeout. -/
structure wakeup where
  seen : pool_task
  timed_out : Bool

/-- The `for (;;)` of `wait_for_task(lock)` along the wake-ups of its waits: the
worker state at the return and the returned flag, or `none` when the thread is
still blocked after the last wake-up. A wake-up of the untimed `cv.wait` only
repeats the loop. -/
def wait_for_task_loop : List wakeup → pool_task → Option (pool_task × Bool)
  | wakes, t =>
    match t.wait_for_task with
    | .give_up => some (t, false)
    | .take => some (t, true)
    | .sleep_timed =>
      match wakes with
      | [] => none
      | w :: rest =>
        if w.timed_out then some (w.seen, w.seen.got_task)
        else wait_for_task_loop rest w.seen
    | .sleep =>
      match wakes with
      | [] => none
      | w :: rest => wait_for_task_loop rest w.seen

/-- One pass of the `for (;;)` of `run()` along the wake-ups of `wait_for_task`:
when it returns `false` the thread stores `killed = true; taskRunning = false` and
leaves `run()`, when it returns `true` the task is consumed and invoked. -/
def run_waking (t : pool_task) (wakes : List wakeup) : Option (Except Fault pass) :=
  match wait_for_task_loop wakes t with
  | none => none
  | some (t1, false) => some (.ok ⟨{ t1 with killed := true, taskRunning := false }, none, true⟩)
  | some (t1, true) => some t1.run_task

/-- The operations threads perform on one worker: the two submissions, a pass of
the worker thread (`idle_timeout` tells whether a timed wait of that pass ran into
its timeout), `kill`, and `max_idle_time`. -/
inductive event where
  | run_range (start stop : Int) (newTask : action) (tracer : Option String)
  | run_generic (newTask : task_delegate) (tracer : Option String)
  | worker_pass (idle_timeout : Bool)
  | kill (timeoutMillis : Int) (timed_out on_worker_thread : Bool)
  | max_idle_time (maxIdleSeconds : Rat)

/-- One operation on a worker; `none` when it cannot be completed in this state
(a failed assertion, a fault, or a blocked thread). -/
def step (t : pool_task) : event → Option pool_task
  | .run_range start stop newTask tracer =>
    match t.run_range start stop newTask tracer with
    | .ok t1 => some t1
    | .error _ => none
  | .run_generic newTask tracer =>
    match t.run_generic newTask tracer with
    | .ok t1 => some t1
    | .error _ => none
  | .worker_pass idle_timeout =>
    match t.run_waking (if idle_timeout then [⟨t, true⟩] else []) with
    | some (.ok r) => some r.task
    | _ => none
  | .kill timeoutMillis timed_out on_worker_thread =>
    (t.kill timeoutMillis timed_out on_worker_thread).map fun r => r.1
  | .max_idle_time maxIdleSeconds => some (t.max_idle_time maxIdleSeconds)

/-- A sequence of operations on a worker, in order. -/
def exec (t : pool_task) : List event → Option pool_task
  | [] => some t
  | e :: es =>
    match t.step e with
    | some t1 => exec t1 es
    | none => none

end pool_task

/-! ## thread_pool.cpp: the counters of the pool -/

/-- `active_tasks()`: `for (auto& task : tasks) if (task->running()) ++active;`. -/
def task_pool.active_tasks (p : task_pool) : Int :=
  p.tasks.foldl (fun active task => if task.running then wrap_int (active + 1) else active) 0

/-- `idle_tasks()`: `for (auto& task : tasks) if (!task->running()) ++idle;`. -/
def task_pool.idle_tasks (p : task_pool) : Int :=
  p.tasks.foldl (fun idle task => if !task.running then wrap_int (idle + 1) else idle) 0

/-- `total_tasks()`: `(int)tasks.size()`. -/
def task_pool.total_tasks (p : task_pool) : Int := wrap_int p.tasks.length

/-! ## binary_writer.h: the typed integer writers, strings and vectors -/

/-- `write_byte(byte value) { return write(value); }`. -/
def binary_writer.write_byte {σ : Type} [write_impl σ] (w : σ) (value : Nat) :
    Except Fault σ :=
  write_impl.write_pod w (le_bytes 1 value)

/-- `write_short(short value) { return write(value); }`; the object representation
of a signed value is that of its two's-complement bit pattern. -/
def binary_writer.write_short {σ : Type} [write_impl σ] (w : σ) (value : Int) :
    Except Fault σ :=
  write_impl.write_pod w (le_bytes 2 (value % 65536).toNat)

/-- `write_int(int value) { return write(value); }`. -/
def binary_writer.write_int {σ : Type} [write_impl σ] (w : σ) (value : Int) :
    Except Fault σ :=
  write_impl.write_pod w (le_bytes 4 (value % 4294967296).toNat)

/-- `write_uint(uint value) { return write(value); }`. -/
def binary_writer.write_uint {σ : Type} [write_impl σ] (w : σ) (value : Nat) :
    Except Fault σ :=
  write_impl.write_pod w (le_bytes 4 value)

/-- `write_int64(int64 value) { return write(value); }`. -/
def binary_writer.write_int64 {σ : Type} [write_impl σ] (w : σ) (value : Int) :
    Except Fault σ :=
  write_impl.write_pod w (le_bytes 8 (value % 18446744073709551616).toNat)

/-- `write_uint64(uint64 value) { return write(value); }`. -/
def binary_writer.write_uint64 {σ : Type} [write_impl σ] (w : σ) (value : Nat) :
    Except Fault σ :=
  write_impl.write_pod w (le_bytes 8 value)

/-- The integer types that have a typed writer. -/
inductive int_type where
  | byte
  | short
  | ushort
  | int
  | uint
  | int64
  | uint64
  deriving DecidableEq, Repr

namespace int_type

/-- `sizeof` of the type. -/
def sizeof : int_type → Nat
  | .byte => 1
  | .short => 2
  | .ushort => 2
  | .int => 4
  | .uint => 4
  | .int64 => 8
  | .uint64 => 8

/-- Whether the type is signed. -/
def signed : int_type → Bool
  | .short => true
  | .int => true
  | .int64 => true
  | _ => false

/-- The values of the type. -/
def holds (ty : int_type) (value : Int) : Prop :=
  if ty.signed then
    -(2 ^ (8 * ty.sizeof - 1) : Int) ≤ value ∧ value < 2 ^ (8 * ty.sizeof - 1)
  else 0 ≤ value ∧ value < 2 ^ (8 * ty.sizeof)

/-- The typed writer of the type, applied to one of its values. -/
def write {σ : Type} [write_impl σ] (ty : int_type) (w : σ) (value : Int) : Except Fault σ :=
  match ty with
  | .byte => binary_writer.write_byte w value.toNat
  | .short => binary_writer.write_short w value
  | .ushort => binary_writer.write_ushort w value.toNat
  | .int => binary_writer.write_int w value
  | .uint => binary_writer.write_uint w value.toNat
  | .int64 => binary_writer.write_int64 w value
  | .uint64 => binary_writer.write_uint64 w value.toNat

end int_type

/-- The number that a byte sequence denotes in little-endian order. -/
def le_value : List byte → Nat
  | [] => 0
  | b :: bs => b.val + 256 * le_value bs

/-- The bit pattern, as a number below `2 ^ bits`, of the two's-complement
representation of `value` in `bits` bits. -/
def twos_complement (bits : Nat) (value : Int) : Nat :=
  if value < 0 then (value + 2 ^ bits).toNat else value.toNat

/-- `write(const std::string& str) { return write_nstr(str.c_str(), (int)str.length()); }`
and its `std::wstring` twin: `str` is the character data, `length` the number of
characters. -/
def binary_writer.write_string {σ : Type} [write_impl σ] (w : σ) (sizeofChar : Nat)
    (str : List byte) (length : Nat) : Except Fault σ :=
  binary_writer.write_nstr w sizeofChar str (wrap_int length)

/-- How `write(const std::vector<T, U>&)` treats the element type: for a POD type
(`std::is_pod<T>::value`) it copies the object representations, `sizeofT` bytes per
element as given by `repr`; otherwise it calls the element's `operator<<`. -/
inductive element_writer (σ T : Type) where
  | pod (sizeofT : Nat) (repr : T → List byte)
  | shift (put : σ → T → Except Fault σ)

/-- The loop `for (int i = 0; i < count; ++i) *this << data[i];` over the indices `is`;
an index outside the vector is a fault. -/
def binary_writer.shift_each {σ T : Type} (put : σ → T → Except Fault σ) (vec : List T) :
    List Int → σ → Except Fault σ
  | [], w => .ok w
  | i :: is, w =>
    match vec[i.toNat]? with
    | some x => (put w x).bind fun w1 => binary_writer.shift_each put vec is w1
    | none => .error .memory

/-- `write(const std::vector<T, U>& vec)`: `int count = (int)vec.size();
write_ushort(count);` and then either `write(data, sizeof(T) * count)` on the
memory of the vector or the loop over `operator<<`. -/
def binary_writer.write_vector {σ T : Type} [write_impl σ] (w : σ)
    (elem : element_writer σ T) (vec : List T) : Except Fault σ :=
  let count := wrap_int vec.length
  (binary_writer.write_ushort w (count % 65536).toNat).bind fun w1 =>
    match elem with
    | .pod sizeofT repr =>
      write_impl.write w1 ((vec.map repr).flatten.take (wrap_uint (sizeofT * count)))
    | .shift put => binary_writer.shift_each put vec (range_loop 0 count) w1

/-! ## Arithmetic helpers -/

theorem wrap_int_of_mem (x : Int) (h1 : -2147483648 ≤ x) (h2 : x < 2147483648) :
    wrap_int x = x := by
  unfold wrap_int
  omega

theorem tmod_512 (x : Int) :
    Int.tmod x 512 = if 0 ≤ x then x % 512 else -((-x) % 512) := by
  split
  · next h => exact Int.tmod_eq_emod h (by decide)
  · next h =>
    obtain ⟨m, rfl⟩ := Int.eq_negSucc_of_lt_zero (by omega : x < 0)
    have h2 : Int.tmod (Int.negSucc m) 512 = -(((m + 1) % 512 : Nat) : Int) := rfl
    rw [h2, Int.neg_negSucc]
    push_cast
    rfl

/-- Below the top kilobyte of the `uint` range a grown capacity is 512-aligned and
holds the request. -/
theorem grown_cap_spec (Cap n : Nat) (h : Cap + n ≤ 4294966272) :
    buffer_write.grown_cap Cap n % 512 = 0 ∧ Cap + n ≤ buffer_write.grown_cap Cap n ∧
      buffer_write.grown_cap Cap n ≤ Cap + n + 1023 := by
  unfold buffer_write.grown_cap wrap_int wrap_uint
  simp only [tmod_512]
  split_ifs <;> omega

/-- While no signed value leaves the `int` range, a grown capacity is the
smallest multiple of 512 that holds `Cap + numBytes`. -/
theorem grown_cap_small (Cap n : Nat) (h : Cap + n ≤ 2147483136) :
    buffer_write.grown_cap Cap n = (Cap + n + 511) / 512 * 512 := by
  unfold buffer_write.grown_cap wrap_int wrap_uint
  simp only [tmod_512]
  split_ifs <;> omega

theorem range_total_chain (a : Nat → Int) (k : Nat) :
    range_total ((List.range k).map fun i => (a i, a (i + 1))) = a k - a 0 := by
  induction k with
  | zero => simp [range_total]
  | succ n ih =>
    unfold range_total at ih ⊢
    rw [List.range_succ, List.map_append, List.map_append, List.sum_append, ih]
    simp

theorem mul_tdiv_le (e c : Int) (j : Int) (he : 0 ≤ e) (hc : 0 < c) (hj : j ≤ c) :
    j * Int.tdiv e c ≤ e := by
  have hq : Int.tdiv e c = e / c := Int.tdiv_eq_ediv he (le_of_lt hc)
  rw [hq]
  have h1 : e / c * c ≤ e := Int.ediv_mul_le e (ne_of_gt hc)
  have h2 : 0 ≤ e / c := Int.ediv_nonneg he (le_of_lt hc)
  have h3 : j * (e / c) ≤ c * (e / c) := mul_le_mul_of_nonneg_right hj h2
  linarith [mul_comm c (e / c)]

theorem partition_eq_chunk (e c : Int) (i : Nat) (he : 0 ≤ e) (he2 : e < 2147483648)
    (hc : 0 < c) (hi : (i : Int) < c) :
    thread_pool.partition c (Int.tdiv e c) e i
      = (chunk_bound c (Int.tdiv e c) e i, chunk_bound c (Int.tdiv e c) e (i + 1)) := by
  have hq0 : 0 ≤ Int.tdiv e c := by
    rw [Int.tdiv_eq_ediv he (le_of_lt hc)]; exact Int.ediv_nonneg he (le_of_lt hc)
  have hi0 : (0 : Int) ≤ i := Int.ofNat_nonneg i
  have h1 : (i : Int) * Int.tdiv e c ≤ e := mul_tdiv_le e c i he hc (le_of_lt hi)
  have h2 : ((i : Int) + 1) * Int.tdiv e c ≤ e :=
    mul_tdiv_le e c (i + 1) he hc (by omega)
  have h3 : 0 ≤ (i : Int) * Int.tdiv e c := mul_nonneg hi0 hq0
  have w1 : wrap_int ((i : Int) * Int.tdiv e c) = (i : Int) * Int.tdiv e c :=
    wrap_int_of_mem _ (by omega) (by omega)
  have w2 : wrap_int ((i : Int) * Int.tdiv e c + Int.tdiv e c)
      = ((i : Int) + 1) * Int.tdiv e c := by
    rw [wrap_int_of_mem _ (by omega) (by linarith)]; ring
  unfold thread_pool.partition chunk_bound
  simp only [w1, w2]
  have hne : ¬ ((i : Int) = c) := by omega
  by_cases hl : (i : Int) = c - 1
  · have hs : (i : Int) + 1 = c := by omega
    simp [hl, hs]
  · have hs : ¬ ((i : Int) + 1 = c) := by omega
    simp [hl, hne, hs]

/-- With `rangeStart = 0` the dispatched ranges form a chain from `0` to
`rangeEnd`: range `i` is `[a i, a (i + 1))` for boundaries `a 0 = 0`, `a k = rangeEnd`. -/
theorem parallel_for_from_zero (pool : thread_pool) (e : Int)
    (hrun : pool.rangeRunning = false) (hc : 1 ≤ pool.coreCount)
    (he : 1 ≤ e) (he2 : e < 2147483648) :
    ∃ (k : Nat) (a : Nat → Int), a 0 = 0 ∧ a k = e ∧
      thread_pool.parallel_for pool 0 e
        = .ok (pool, (List.range k).map fun i => (a i, a (i + 1))) := by
  have hw : wrap_int (e - 0) = e := by
    rw [wrap_int_of_mem _ (by omega) (by omega)]; omega
  have hpool : ({ pool with rangeRunning := false } : thread_pool) = pool := by
    cases pool; simp_all
  unfold thread_pool.parallel_for
  simp only [hrun, hw, hpool]
  generalize hcores : (if e < pool.coreCount then e else pool.coreCount) = c
  have hc1 : 1 ≤ c := by rw [← hcores]; split <;> omega
  have hc2 : c ≤ e := by rw [← hcores]; split <;> omega
  have hq0 : 0 ≤ Int.tdiv e c := by
    rw [Int.tdiv_eq_ediv (by omega) (by omega)]; exact Int.ediv_nonneg (by omega) (by omega)
  have hq1 : Int.tdiv e c ≤ e := by
    have := mul_tdiv_le e c 1 (by omega) (by omega) hc1
    omega
  have hlen : wrap_int (Int.tdiv e c) = Int.tdiv e c :=
    wrap_int_of_mem _ (by omega) (by omega)
  simp only [hlen]
  by_cases h1 : c ≤ 1
  · have hc' : c = 1 := by omega
    subst hc'
    refine ⟨1, fun j => if j = 0 then 0 else e, by simp, by simp, ?_⟩
    have hgt : pool.coreCount > 0 := by omega
    have hne : ¬ (e ≤ 0) := by omega
    simp [hgt, hne, List.range_succ]
  · refine ⟨c.toNat, chunk_bound c (Int.tdiv e c) e, ?_, ?_, ?_⟩
    · have : ¬ ((0 : Int) = c) := by omega
      simp [chunk_bound, this]
    · have : ((c.toNat : Nat) : Int) = c := Int.toNat_of_nonneg (by omega)
      simp [chunk_bound, this]
    · have hgt : pool.coreCount > 0 := by omega
      have hne : ¬ (e ≤ 0) := by omega
      simp only [hgt, hne, h1, not_true_eq_false, not_false_eq_true, if_false, if_true,
        Bool.false_eq_true]
      congr 2
      apply List.map_congr_left
      intro i hi
      have hi' : (i : Int) < c := by
        have := List.mem_range.mp hi
        omega
      exact partition_eq_chunk e c i (by omega) he2 (by omega) hi'

/-! ## Properties of parallel_for -/

/-- C1 (evaluation at the failing input): with two cores, `parallel_for(10, 20, cb)`
invokes the callback on `[0, 5)` and `[5, 20)`, whose union is `[0, 20)` and not
`[10, 20)`; with one core it invokes `cb(0, 10)`, whose end is not `rangeEnd`. -/
theorem parallel_for_ignores_rangeStart :
    thread_pool.parallel_for ⟨2, false⟩ 10 20 = .ok (⟨2, false⟩, [(0, 5), (5, 20)]) ∧
    thread_pool.parallel_for ⟨1, false⟩ 10 20 = .ok (⟨1, false⟩, [(0, 10)]) := by
  decide

/-- C10: for every `end >= 1` and every physical core count `>= 1`,
`parallel_for(0, end, cb)` returns and the lengths `e - s` of the ranges on which
`cb` was invoked sum to exactly `end`. -/
theorem parallel_for_lengths_sum (pool : thread_pool) (e : Int)
    (hrun : pool.rangeRunning = false) (hc : 1 ≤ pool.coreCount)
    (he : 1 ≤ e) (he2 : e < 2147483648) :
    (thread_pool.parallel_for pool 0 e).map (fun r => range_total r.2) = .ok e := by
  obtain ⟨k, a, h0, hk, hrun⟩ := parallel_for_from_zero pool e hrun hc he he2
  rw [hrun]
  show Except.ok (range_total _) = Except.ok e
  rw [range_total_chain, h0, hk]
  simp

/-- C10 at the scenario of the spec: four cores, `parallel_for(0, 1000, cb)`. -/
theorem parallel_for_lengths_sum_witness :
    (thread_pool.parallel_for ⟨4, false⟩ 0 1000).map (fun r => range_total r.2) = .ok 1000 :=
  parallel_for_lengths_sum ⟨4, false⟩ 1000 rfl (by decide) (by decide) (by decide)

/-! ## Memory helpers -/

theorem memcpy_ok (mem : List byte) (pos : Nat) (data : List byte)
    (h : pos + data.length ≤ mem.length) :
    ∃ m, memcpy mem pos data = .ok m ∧ m.length = mem.length ∧
      m.take (pos + data.length) = mem.take pos ++ data := by
  refine ⟨mem.take pos ++ data ++ mem.drop (pos + data.length), ?_, ?_, ?_⟩
  · simp [memcpy, h]
  · simp only [List.length_append, List.length_take, List.length_drop]
    omega
  · apply List.take_left'
    simp only [List.length_append, List.length_take]
    omega

theorem realloc_ok (buf : Option (List byte)) (size : Nat) :
    ∃ m, realloc buf size = some m ∧ m.length = size ∧
      ∀ p, p ≤ (buf.getD []).length → p ≤ size → m.take p = (buf.getD []).take p := by
  cases buf with
  | none =>
    refine ⟨List.replicate size 0, rfl, by simp, ?_⟩
    intro p hp _
    simp only [Option.getD_none, List.length_nil] at hp
    have : p = 0 := by omega
    subst this
    simp
  | some mem =>
    refine ⟨mem.take size ++ List.replicate (size - mem.length) 0, rfl, ?_, ?_⟩
    · simp only [List.length_append, List.length_take, List.length_replicate]
      omega
    · intro p hp hs
      simp only [Option.getD_some] at hp ⊢
      rw [List.take_append_of_le_length (by simp only [List.length_take]; omega),
        List.take_take]
      congr 1
      omega

theorem wrap_uint_of_lt (x : Nat) (h : x < 4294967296) : wrap_uint (x : Int) = x := by
  unfold wrap_uint
  omega

theorem wrap_uint_add (x y : Nat) (h : x + y < 4294967296) :
    wrap_uint ((x : Int) + y) = x + y := by
  unfold wrap_uint
  omega

theorem wrap_uint_sub (x y : Nat) (h : y ≤ x) (hx : x < 4294967296) :
    wrap_uint ((x : Int) - y) = x - y := by
  unfold wrap_uint
  omega

/-- A write to a well-formed Growing sink below the top kilobyte of the `uint`
range returns, keeps the sink well-formed and appends exactly the data. -/
theorem buffer_write.growing_write_ok (s : buffer_write) (data : List byte)
    (hwf : s.wf) (h : s.Cap + data.length ≤ 4294966272) :
    ∃ s', s.write data = .ok s' ∧ s'.wf ∧ s'.Pos = s.Pos + data.length ∧
      region s'.Buf s'.Pos = region s.Buf s.Pos ++ data ∧
      ((s'.Cap = s.Cap ∧ data.length ≤ s.Cap - s.Pos) ∨
        (s'.Cap = buffer_write.grown_cap s.Cap data.length ∧
          s.Cap - s.Pos < data.length)) := by
  obtain ⟨hpos, hlen⟩ := hwf
  have hsub : wrap_uint ((s.Cap : Int) - s.Pos) = s.Cap - s.Pos :=
    wrap_uint_sub _ _ hpos (by omega)
  have hadd : wrap_uint ((s.Pos : Int) + data.length) = s.Pos + data.length :=
    wrap_uint_add _ _ (by omega)
  by_cases hg : data.length > s.Cap - s.Pos
  · obtain ⟨hal, hge, _⟩ := grown_cap_spec s.Cap data.length h
    obtain ⟨m, hm, hml, hmt⟩ := realloc_ok s.Buf (buffer_write.grown_cap s.Cap data.length)
    obtain ⟨m2, hm2, hm2l, hm2t⟩ := memcpy_ok m s.Pos data (by omega)
    refine ⟨⟨some m2, s.Pos + data.length, buffer_write.grown_cap s.Cap data.length⟩,
      ?_, ?_, ?_, ?_, ?_⟩
    · simp [buffer_write.write, buffer_write.reserve, hsub, hg, hm, memcpy_ptr, hm2, hadd,
        Except.map]
    · unfold buffer_write.wf
      simp only [Option.getD_some]
      exact ⟨by omega, by omega⟩
    · simp only
    · show region (some m2) (s.Pos + data.length) = region s.Buf s.Pos ++ data
      simp only [region, Option.getD_some, hm2t]
      rw [hmt s.Pos (by omega) (by omega)]
    · exact Or.inr ⟨by simp only, hg⟩
  · have hroom : s.Pos + data.length ≤ s.Cap := by omega
    cases hb : s.Buf with
    | none =>
      have hc0 : s.Cap = 0 := by rw [hb] at hlen; simpa using hlen.symm
      have hn0 : data.length = 0 := by omega
      have hd : data = [] := List.length_eq_zero.mp hn0
      refine ⟨s, ?_, ⟨hpos, hlen⟩, by omega, ?_, Or.inl ⟨rfl, by omega⟩⟩
      · have hp0 : s.Pos = 0 := by omega
        cases s
        simp_all [buffer_write.write, buffer_write.reserve, memcpy_ptr, Except.map, wrap_uint]
      · simp [hd, hb]
    | some mem =>
      have hml : mem.length = s.Cap := by rw [hb] at hlen; simpa using hlen
      obtain ⟨m2, hm2, hm2l, hm2t⟩ := memcpy_ok mem s.Pos data (by omega)
      refine ⟨⟨some m2, s.Pos + data.length, s.Cap⟩, ?_, ?_, rfl, ?_, Or.inl ⟨rfl, by omega⟩⟩
      · simp [buffer_write.write, buffer_write.reserve, hsub, hg, hb, memcpy_ptr, hm2, hadd,
          Except.map]
      · unfold buffer_write.wf
        simp only [Option.getD_some]
        exact ⟨by omega, by omega⟩
      · show region (some m2) (s.Pos + data.length) = region (some mem) s.Pos ++ data
        simp only [region, Option.getD_some, hm2t]

/-- A write to a well-formed Growing sink whose capacity is at most twice its size
(plus 1024) keeps that relation: growth is triggered only by requests that do not
fit. -/
theorem buffer_write.growing_write_all (ws : List (List byte)) :
    ∀ s : buffer_write, s.wf → s.Cap ≤ 2 * s.Pos + 1024 →
      s.Pos + total_bytes ws ≤ 2147482624 →
      ∃ s', write_all s ws = .ok s' ∧ s'.wf ∧ s'.Pos = s.Pos + total_bytes ws ∧
        region s'.Buf s'.Pos = region s.Buf s.Pos ++ ws.flatten := by
  induction ws with
  | nil =>
    intro s hwf _ _
    exact ⟨s, rfl, hwf, by simp [total_bytes], by simp⟩
  | cons d ds ih =>
    intro s hwf hslack hT
    have htot : total_bytes (d :: ds) = d.length + total_bytes ds := by
      simp [total_bytes]
    rw [htot] at hT
    obtain ⟨s1, hw, hwf1, hpos1, hreg1, hcap1⟩ :=
      buffer_write.growing_write_ok s d hwf (by omega)
    have hslack1 : s1.Cap ≤ 2 * s1.Pos + 1024 := by
      rcases hcap1 with ⟨hc, _⟩ | ⟨hc, hlt⟩
      · omega
      · obtain ⟨_, _, hub⟩ := grown_cap_spec s.Cap d.length (by omega)
        have := hwf.1
        omega
    obtain ⟨s2, hw2, hwf2, hpos2, hreg2⟩ := ih s1 hwf1 hslack1 (by omega)
    refine ⟨s2, ?_, hwf2, by omega, ?_⟩
    · show (buffer_write.write s d).bind (fun s1 => write_all s1 ds) = .ok s2
      rw [hw]
      exact hw2
    · rw [hreg2, hreg1, List.flatten_cons, List.append_assoc]

theorem array_write.fixed_write_ok {Max : Nat} (s : array_write Max) (data : List byte)
    (hwf : s.wf) (hM : Max < 4294967296) (h : s.Pos + data.length ≤ Max) :
    ∃ s', s.write data = .ok s' ∧ s'.wf ∧ s'.Pos = s.Pos + data.length ∧
      s'.Buf.take s'.Pos = s.Buf.take s.Pos ++ data := by
  obtain ⟨hpos, hlen⟩ := hwf
  have hadd : wrap_uint ((s.Pos : Int) + data.length) = s.Pos + data.length :=
    wrap_uint_add _ _ (by omega)
  obtain ⟨m2, hm2, hm2l, hm2t⟩ := memcpy_ok s.Buf s.Pos data (by omega)
  refine ⟨⟨s.Pos + data.length, m2⟩, ?_, ?_, ?_, ?_⟩
  · simp [array_write.write, hadd, h, hm2, Except.map]
  · unfold array_write.wf
    dsimp only
    exact ⟨by omega, by omega⟩
  · simp only
  · exact hm2t

theorem array_write.fixed_write_all {Max : Nat} (hM : Max < 4294967296)
    (ws : List (List byte)) :
    ∀ s : array_write Max, s.wf → s.Pos + total_bytes ws ≤ Max →
      ∃ s', write_all s ws = .ok s' ∧ s'.wf ∧ s'.Pos = s.Pos + total_bytes ws ∧
        s'.Buf.take s'.Pos = s.Buf.take s.Pos ++ ws.flatten := by
  induction ws with
  | nil =>
    intro s hwf _
    exact ⟨s, rfl, hwf, by simp [total_bytes], by simp⟩
  | cons d ds ih =>
    intro s hwf hT
    have htot : total_bytes (d :: ds) = d.length + total_bytes ds := by
      simp [total_bytes]
    rw [htot] at hT
    obtain ⟨s1, hw, hwf1, hpos1, hreg1⟩ := array_write.fixed_write_ok s d hwf hM (by omega)
    obtain ⟨s2, hw2, hwf2, hpos2, hreg2⟩ := ih s1 hwf1 (by omega)
    refine ⟨s2, ?_, hwf2, by omega, ?_⟩
    · show (array_write.write s d).bind (fun s1 => write_all s1 ds) = .ok s2
      rw [hw]
      exact hw2
    · rw [hreg2, hreg1, List.flatten_cons, List.append_assoc]

theorem view_write.view_write_ok (s : view_write) (data : List byte)
    (hwf : s.wf) (hM : s.Max < 4294967296) (h : s.Pos + data.length ≤ s.Max) :
    ∃ s', s.write data = .ok s' ∧ s'.wf ∧ s'.Max = s.Max ∧ s'.Pos = s.Pos + data.length ∧
      region s'.Buf s'.Pos = region s.Buf s.Pos ++ data := by
  obtain ⟨hpos, hlen⟩ := hwf
  have hadd : wrap_uint ((s.Pos : Int) + data.length) = s.Pos + data.length :=
    wrap_uint_add _ _ (by omega)
  cases hb : s.Buf with
  | none =>
    rw [hb] at hlen
    simp only [Option.getD_none, List.length_nil] at hlen
    have hd : data = [] := List.length_eq_zero.mp (by omega)
    refine ⟨s, ?_, ⟨hpos, by rw [hb]; simpa using hlen⟩, rfl, by simp [hd], by simp [hd, hb]⟩
    have hp0 : s.Pos = 0 := by omega
    cases s
    simp_all [view_write.write, memcpy_ptr, Except.map, wrap_uint]
  | some mem =>
    rw [hb] at hlen
    simp only [Option.getD_some] at hlen
    obtain ⟨m2, hm2, hm2l, hm2t⟩ := memcpy_ok mem s.Pos data (by omega)
    refine ⟨⟨some m2, s.Pos + data.length, s.Max⟩, ?_, ?_, ?_, ?_, ?_⟩
    · simp [view_write.write, hadd, h, hb, memcpy_ptr, hm2, Except.map]
    · unfold view_write.wf
      simp only [Option.getD_some]
      exact ⟨by omega, by omega⟩
    · simp only
    · simp only
    · show region (some m2) (s.Pos + data.length) = region (some mem) s.Pos ++ data
      simp only [region, Option.getD_some, hm2t]

theorem view_write.view_write_all (ws : List (List byte)) :
    ∀ s : view_write, s.wf → s.Max < 4294967296 → s.Pos + total_bytes ws ≤ s.Max →
      ∃ s', write_all s ws = .ok s' ∧ s'.wf ∧ s'.Pos = s.Pos + total_bytes ws ∧
        region s'.Buf s'.Pos = region s.Buf s.Pos ++ ws.flatten := by
  induction ws with
  | nil =>
    intro s hwf _ _
    exact ⟨s, rfl, hwf, by simp [total_bytes], by simp⟩
  | cons d ds ih =>
    intro s hwf hM hT
    have htot : total_bytes (d :: ds) = d.length + total_bytes ds := by
      simp [total_bytes]
    rw [htot] at hT
    obtain ⟨s1, hw, hwf1, hmax1, hpos1, hreg1⟩ := view_write.view_write_ok s d hwf hM (by omega)
    obtain ⟨s2, hw2, hwf2, hpos2, hreg2⟩ := ih s1 hwf1 (by omega) (by omega)
    refine ⟨s2, ?_, hwf2, by omega, ?_⟩
    · show (view_write.write s d).bind (fun s1 => write_all s1 ds) = .ok s2
      rw [hw]
      exact hw2
    · rw [hreg2, hreg1, List.flatten_cons, List.append_assoc]

theorem buffer_write.growing_wf_new : buffer_write.new.wf := ⟨Nat.le_refl 0, rfl⟩

theorem array_write.fixed_wf_new (Max : Nat) : (array_write.new Max).wf :=
  ⟨Nat.zero_le Max, List.length_replicate Max 0⟩

theorem view_write.wf_of_region (buf : List byte) (len : Nat) (h : len ≤ buf.length) :
    (view_write.of_region buf len).wf := ⟨Nat.zero_le len, h⟩

/-- A write faults when, after `reserve`, the copy does not fit the allocation. -/
theorem buffer_write.write_fault (s : buffer_write) (data m : List byte)
    (hb : (s.reserve data.length).Buf = some m)
    (hlt : m.length < (s.reserve data.length).Pos + data.length) :
    s.write data = .error .memory := by
  have hn : ¬ ((s.reserve data.length).Pos + data.length ≤ m.length) := by omega
  simp [buffer_write.write, hb, memcpy_ptr, memcpy, hn, Except.map]

theorem buffer_write.reserve_grow (s : buffer_write) (n : Nat)
    (h : n > wrap_uint ((s.Cap : Int) - s.Pos)) :
    s.reserve n = { s with Buf := realloc s.Buf (buffer_write.grown_cap s.Cap n),
                           Cap := buffer_write.grown_cap s.Cap n } := by
  simp [buffer_write.reserve, h]

/-- Two writes of `2^31` bytes each into a default-constructed Growing sink: the
second `reserve` computes `Cap + numBytes = 2^32`, which is `0` as a `uint`, so the
buffer is reallocated to zero bytes and the copy leaves it. -/
theorem buffer_write.write_two_halves (d1 d2 : List byte)
    (h1 : d1.length = 2147483648) (h2 : d2.length = 2147483648) :
    write_all buffer_write.new [d1, d2] = .error .memory := by
  have hn0 : buffer_write.new.Pos = 0 := rfl
  have hn1 : buffer_write.new.Cap = 0 := rfl
  obtain ⟨s1, hw, hwf1, hpos1, _, hcap1⟩ :=
    buffer_write.growing_write_ok buffer_write.new d1 buffer_write.growing_wf_new (by omega)
  have hg1 : buffer_write.grown_cap 0 2147483648 = 2147483648 := by decide
  have hp : s1.Pos = 2147483648 := by omega
  have hc : s1.Cap = 2147483648 := by
    rcases hcap1 with ⟨_, hle⟩ | ⟨hc, _⟩
    · omega
    · rw [hc, hn1, h1, hg1]
  have hg : buffer_write.grown_cap s1.Cap d2.length = 0 := by
    rw [hc, h2]; decide
  have hcond : d2.length > wrap_uint ((s1.Cap : Int) - s1.Pos) := by
    rw [wrap_uint_sub _ _ (by omega) (by omega)]; omega
  obtain ⟨m, hm, hml, _⟩ := realloc_ok s1.Buf 0
  have hw2 : buffer_write.write s1 d2 = .error .memory := by
    apply buffer_write.write_fault s1 d2 m
    · rw [buffer_write.reserve_grow s1 _ hcond, hg]; exact hm
    · rw [buffer_write.reserve_grow s1 _ hcond]
      show m.length < s1.Pos + d2.length
      omega
  show (buffer_write.write buffer_write.new d1).bind
      (fun s => (buffer_write.write s d2).bind fun s' => write_all s' []) = .error .memory
  rw [hw]
  show (buffer_write.write s1 d2).bind (fun s' => write_all s' []) = .error .memory
  rw [hw2]
  rfl

/-! ## Properties of the in-memory sinks -/

/-- C2 (amended): for every sequence of writes on a default-constructed Growing
sink whose total is at most `2^31 - 1024` bytes, on a `FixedArray<Max>` whose
capacity is not exceeded, or on a View over a region of `len` bytes whose capacity
is not exceeded, every write returns, `data()[0, size())` is the concatenation of
the written inputs in call order, `size()` is the total number of bytes written,
and `flush()` changes nothing. -/
theorem write_all_concatenates :
    (∀ ws : List (List byte), total_bytes ws ≤ 2147482624 →
      ∃ s, write_all buffer_write.new ws = .ok s ∧ contents s = ws.flatten ∧
        write_impl.size s = total_bytes ws ∧ write_impl.flush s = .ok s) ∧
    (∀ (Max : Nat) (ws : List (List byte)), Max < 4294967296 → total_bytes ws ≤ Max →
      ∃ s, write_all (array_write.new Max) ws = .ok s ∧ contents s = ws.flatten ∧
        write_impl.size s = total_bytes ws ∧ write_impl.flush s = .ok s) ∧
    (∀ (buf : List byte) (len : Nat) (ws : List (List byte)),
      len ≤ buf.length → len < 4294967296 → total_bytes ws ≤ len →
      ∃ s, write_all (view_write.of_region buf len) ws = .ok s ∧ contents s = ws.flatten ∧
        write_impl.size s = total_bytes ws ∧ write_impl.flush s = .ok s) := by
  refine ⟨?_, ?_, ?_⟩
  · intro ws h
    obtain ⟨s, hw, _, hpos, hreg⟩ :=
      buffer_write.growing_write_all ws buffer_write.new buffer_write.growing_wf_new
        (by show 0 ≤ 2 * 0 + 1024; omega) (by show 0 + total_bytes ws ≤ 2147482624; omega)
    refine ⟨s, hw, ?_, ?_, rfl⟩
    · show region s.Buf s.Pos = ws.flatten
      rw [hreg]; simp [region, buffer_write.new]
    · show s.Pos = total_bytes ws
      rw [hpos]; simp [buffer_write.new]
  · intro Max ws hM h
    obtain ⟨s, hw, _, hpos, hreg⟩ :=
      array_write.fixed_write_all hM ws (array_write.new Max) (array_write.fixed_wf_new Max)
        (by show 0 + total_bytes ws ≤ Max; omega)
    refine ⟨s, hw, ?_, ?_, rfl⟩
    · show (s.Buf).take s.Pos = ws.flatten
      rw [hreg]; simp [array_write.new]
    · show s.Pos = total_bytes ws
      rw [hpos]; simp [array_write.new]
  · intro buf len ws hl hM h
    obtain ⟨s, hw, _, hpos, hreg⟩ :=
      view_write.view_write_all ws (view_write.of_region buf len)
        (view_write.wf_of_region buf len hl) hM
        (by show 0 + total_bytes ws ≤ len; omega)
    refine ⟨s, hw, ?_, ?_, rfl⟩
    · show region s.Buf s.Pos = ws.flatten
      rw [hreg]; simp [region, view_write.of_region]
    · show s.Pos = total_bytes ws
      rw [hpos]; simp [view_write.of_region]

/-- C2 at the writes `[1, 2]`, `[]`, `[3]` on each of the three in-memory sinks. -/
theorem write_all_concatenates_witness :
    (∃ s, write_all buffer_write.new [[1, 2], [], [3]] = .ok s ∧
      contents s = [[1, 2], [], [3]].flatten ∧
      write_impl.size s = total_bytes [[1, 2], [], [3]] ∧ write_impl.flush s = .ok s) ∧
    (∃ s, write_all (array_write.new 4) [[1, 2], [], [3]] = .ok s ∧
      contents s = [[1, 2], [], [3]].flatten ∧
      write_impl.size s = total_bytes [[1, 2], [], [3]] ∧ write_impl.flush s = .ok s) ∧
    (∃ s, write_all (view_write.of_region [9, 9, 9, 9, 9] 4) [[1, 2], [], [3]] = .ok s ∧
      contents s = [[1, 2], [], [3]].flatten ∧
      write_impl.size s = total_bytes [[1, 2], [], [3]] ∧ write_impl.flush s = .ok s) :=
  ⟨write_all_concatenates.1 [[1, 2], [], [3]] (by decide),
   write_all_concatenates.2.1 4 [[1, 2], [], [3]] (by decide) (by decide),
   write_all_concatenates.2.2 [9, 9, 9, 9, 9] 4 [[1, 2], [], [3]]
     (by decide) (by decide) (by decide)⟩

/-- C2 (counterexample): two writes of `2^31` zero bytes each into a Growing sink
that was default-constructed do not end in a state holding the `2^32` written
bytes: the second write faults, because `Cap + numBytes` wraps to `0`. -/
theorem write_all_growing_wraps :
    write_all buffer_write.new
        [List.replicate 2147483648 (0 : byte), List.replicate 2147483648 (0 : byte)]
      = .error .memory ∧
    ¬ ∃ s, write_all buffer_write.new
        [List.replicate 2147483648 (0 : byte), List.replicate 2147483648 (0 : byte)] = .ok s ∧
      write_impl.size s = 4294967296 := by
  have h := buffer_write.write_two_halves (List.replicate 2147483648 (0 : byte))
    (List.replicate 2147483648 (0 : byte)) (List.length_replicate _ _)
    (List.length_replicate _ _)
  refine ⟨h, ?_⟩
  rintro ⟨s, hs, _⟩
  rw [h] at hs
  cases hs

/-- C3 (counterexample): a Growing sink constructed with the explicit initial
capacity 100 still has capacity 100, which is not a multiple of 512, after a write
of three bytes. -/
theorem buffer_write.explicit_capacity_kept :
    ((buffer_write.with_capacity 100).write [1, 2, 3]).map
        (fun s => (s.size, s.Cap, s.Cap % 512)) = .ok (3, 100, 100) := by
  decide

/-- C3 (amended): for every Growing sink with `size() <= Cap` whose buffer holds
`Cap` bytes, however constructed, and every write of `n` bytes with
`Cap + n <= 2^32 - 1024`: the write returns and afterwards `Cap >= size()`; `Cap` is
a multiple of 512 if it was one before the write (as for a default-constructed
sink) or if the write had to grow the buffer (`n > Cap - size()`); and a write that
fits leaves `Cap` unchanged, so an explicit initial capacity is kept exactly until
a write exceeds it. -/
theorem buffer_write.capacity_after_write (s : buffer_write) (data : List byte)
    (hwf : s.wf) (h : s.Cap + data.length ≤ 4294966272) :
    ∃ s', s.write data = .ok s' ∧ s'.size ≤ s'.Cap ∧
      (s.Cap % 512 = 0 ∨ data.length > s.Cap - s.size → s'.Cap % 512 = 0) ∧
      (data.length ≤ s.Cap - s.size → s'.Cap = s.Cap) := by
  obtain ⟨s', hw, hwf', _, _, hcap⟩ := buffer_write.growing_write_ok s data hwf h
  obtain ⟨hal, _, _⟩ := grown_cap_spec s.Cap data.length h
  refine ⟨s', hw, hwf'.1, ?_, ?_⟩
  · intro hor
    simp only [buffer_write.size] at hor
    rcases hcap with ⟨hc, hfit⟩ | ⟨hc, _⟩
    · rcases hor with h0 | hgt
      · rw [hc]; exact h0
      · omega
    · rw [hc]; exact hal
  · intro hfit
    simp only [buffer_write.size] at hfit
    rcases hcap with ⟨hc, _⟩ | ⟨_, hgt⟩
    · exact hc
    · omega

/-- C3 at a write of three bytes into a default-constructed Growing sink. -/
theorem buffer_write.capacity_after_write_witness :
    ∃ s', buffer_write.new.write [1, 2, 3] = .ok s' ∧ s'.size ≤ s'.Cap ∧
      (buffer_write.new.Cap % 512 = 0 ∨
        [(1 : byte), 2, 3].length > buffer_write.new.Cap - buffer_write.new.size →
          s'.Cap % 512 = 0) ∧
      ([(1 : byte), 2, 3].length ≤ buffer_write.new.Cap - buffer_write.new.size →
        s'.Cap = buffer_write.new.Cap) :=
  buffer_write.capacity_after_write buffer_write.new [1, 2, 3] buffer_write.growing_wf_new
    (by decide)

/-- A single write of `1 <= n <= 2^31 - 512` bytes into a default-constructed
Growing sink leaves `size() == n` and the capacity at the smallest multiple of 512
that is `>= n`. -/
theorem buffer_write.single_write_small (data : List byte)
    (h1 : 1 ≤ data.length) (h2 : data.length ≤ 2147483136) :
    ∃ s, buffer_write.new.write data = .ok s ∧ s.size = data.length ∧
      s.Cap = (data.length + 511) / 512 * 512 := by
  have hn0 : buffer_write.new.Pos = 0 := rfl
  have hn1 : buffer_write.new.Cap = 0 := rfl
  obtain ⟨s, hw, _, hpos, _, hcap⟩ :=
    buffer_write.growing_write_ok buffer_write.new data buffer_write.growing_wf_new (by omega)
  refine ⟨s, hw, by show s.Pos = data.length; omega, ?_⟩
  rcases hcap with ⟨_, hfit⟩ | ⟨hc, _⟩
  · omega
  · rw [hc, hn1, grown_cap_small 0 data.length (by omega)]
    simp

/-- The size and capacity left by a single write into a default-constructed
Growing sink, for requests below the top kilobyte of the `uint` range. -/
theorem buffer_write.single_write_cap (data : List byte)
    (h1 : 1 ≤ data.length) (h2 : data.length ≤ 4294966272) :
    (buffer_write.new.write data).map (fun s => (s.size, s.Cap))
      = .ok (data.length, buffer_write.grown_cap 0 data.length) := by
  have hn0 : buffer_write.new.Pos = 0 := rfl
  have hn1 : buffer_write.new.Cap = 0 := rfl
  obtain ⟨s, hw, _, hpos, _, hcap⟩ :=
    buffer_write.growing_write_ok buffer_write.new data buffer_write.growing_wf_new (by omega)
  rw [hw]
  show Except.ok (s.Pos, s.Cap) = _
  rcases hcap with ⟨_, hfit⟩ | ⟨hc, _⟩
  · omega
  · rw [hc, hpos, hn0, hn1, Nat.zero_add]

/-- C9 (evaluation at the failing input): a single write of `2^31 + 5` bytes into
a default-constructed Growing sink leaves the capacity at `2^31 + 1024`, although
the smallest multiple of 512 that holds the request is `2^31 + 512`; and a single
write of `2^32 - 100` bytes reserves only 512 bytes, so the copy leaves the buffer. -/
theorem buffer_write.single_write_overshoots :
    (buffer_write.new.write (List.replicate 2147483653 (0 : byte))).map
        (fun s => (s.size, s.Cap)) = .ok (2147483653, 2147484672) ∧
    (2147483653 + 511) / 512 * 512 = 2147484160 ∧
    buffer_write.new.write (List.replicate 4294967196 (0 : byte)) = .error .memory := by
  refine ⟨?_, by decide, ?_⟩
  · have hl : (List.replicate 2147483653 (0 : byte)).length = 2147483653 :=
      List.length_replicate _ _
    have hg : buffer_write.grown_cap 0 2147483653 = 2147484672 := by decide
    have h := buffer_write.single_write_cap (List.replicate 2147483653 (0 : byte))
      (by omega) (by omega)
    rw [h, hl, hg]
  · have hl : (List.replicate 4294967196 (0 : byte)).length = 4294967196 :=
      List.length_replicate _ _
    have hg : buffer_write.grown_cap buffer_write.new.Cap 4294967196 = 512 := by decide
    have hcond : (List.replicate 4294967196 (0 : byte)).length
        > wrap_uint ((buffer_write.new.Cap : Int) - buffer_write.new.Pos) := by
      rw [hl]; decide
    obtain ⟨m, hm, hml, _⟩ := realloc_ok buffer_write.new.Buf 512
    apply buffer_write.write_fault _ _ m
    · rw [buffer_write.reserve_grow _ _ hcond, hl, hg]; exact hm
    · rw [buffer_write.reserve_grow _ _ hcond, hl]
      show m.length < 0 + 4294967196
      omega

/-! ## The typed writer -/

theorem le_bytes_two (v : Nat) :
    le_bytes 2 v = [Fin.ofNat (v % 256), Fin.ofNat (v / 256 % 256)] := by
  simp [le_bytes, List.range_succ]

/-- Where the `uint` sum `Pos + numBytes` does not wrap, the typed write of a
FixedArray sink is its raw write of the object representation. -/
theorem array_write.write_pod_eq {Max : Nat} (s : array_write Max) (data : List byte)
    (h : s.Pos + data.length < 4294967296) : s.write_pod data = s.write data := by
  have hw : wrap_uint ((s.Pos : Int) + data.length) = s.Pos + data.length :=
    wrap_uint_add _ _ h
  unfold array_write.write_pod array_write.write
  rw [hw]

/-- Where the `uint` sum `Pos + numBytes` does not wrap, the typed write of a View
sink is its raw write of the object representation. -/
theorem view_write.view_write_pod_eq (s : view_write) (data : List byte)
    (h : s.Pos + data.length < 4294967296) : s.write_pod data = s.write data := by
  have hw : wrap_uint ((s.Pos : Int) + data.length) = s.Pos + data.length :=
    wrap_uint_add _ _ h
  unfold view_write.write_pod view_write.write
  rw [hw]

/-- Under the stated bounds the conversions in `write_nstr` lose nothing: it is
the write of the two prefix bytes followed by the write of the character bytes. -/
theorem binary_writer.write_nstr_steps {σ : Type} [write_impl σ] (w w1 w2 : σ) (c : Nat)
    (str : List byte) (len : Nat) (hlen : len ≤ 65535) (hc : len * c < 4294967296)
    (hstr : str.length = len * c)
    (h1 : write_impl.write_pod w [Fin.ofNat (len % 256), Fin.ofNat (len / 256)] = .ok w1)
    (h2 : write_impl.write w1 str = .ok w2) :
    binary_writer.write_nstr w c str (len : Int) = .ok w2 := by
  have e1 : ((len : Int) % 65536).toNat = len := by omega
  have e2 : wrap_uint ((len : Int) * (c : Int)) = len * c := by
    rw [← Nat.cast_mul]; exact wrap_uint_of_lt _ hc
  have e3 : str.take (len * c) = str := List.take_of_length_le (by omega)
  have e4 : len / 256 % 256 = len / 256 := Nat.mod_eq_of_lt (by omega)
  unfold binary_writer.write_nstr binary_writer.write_ushort
  rw [e1, e2, e3, le_bytes_two, e4, h1]
  exact h2

theorem binary_writer.write_nstr_growing (s : buffer_write) (c : Nat) (str : List byte)
    (len : Nat) (hlen : len ≤ 65535) (hstr : str.length = len * c)
    (hwf : s.wf) (hroom : s.Cap + (2 + len * c) ≤ 4294965248) :
    ∃ s', binary_writer.write_nstr s c str (len : Int) = .ok s' ∧
      contents s' = contents s ++ [Fin.ofNat (len % 256), Fin.ofNat (len / 256)] ++ str ∧
      write_impl.size s' = write_impl.size s + (2 + len * c) := by
  obtain ⟨s1, hw1, hwf1, hpos1, hreg1, hcap1⟩ := buffer_write.growing_write_ok s
    [Fin.ofNat (len % 256), Fin.ofNat (len / 256)] hwf
    (by simp only [List.length_cons, List.length_nil]; omega)
  simp only [List.length_cons, List.length_nil] at hpos1 hcap1
  have hc1 : s1.Cap ≤ s.Cap + 2 + 1023 := by
    rcases hcap1 with ⟨hc, _⟩ | ⟨hc, _⟩
    · omega
    · obtain ⟨_, _, hub⟩ := grown_cap_spec s.Cap 2 (by omega)
      simp only [Nat.zero_add, Nat.reduceAdd] at hc
      omega
  obtain ⟨s2, hw2, _, hpos2, hreg2, _⟩ := buffer_write.growing_write_ok s1 str hwf1 (by omega)
  refine ⟨s2, ?_, ?_, ?_⟩
  · exact binary_writer.write_nstr_steps s s1 s2 c str len hlen (by omega) hstr hw1 hw2
  · show region s2.Buf s2.Pos = region s.Buf s.Pos ++ _ ++ str
    rw [hreg2, hreg1]
  · show s2.Pos = s.Pos + (2 + len * c)
    omega

theorem binary_writer.write_nstr_fixed {Max : Nat} (s : array_write Max) (c : Nat)
    (str : List byte) (len : Nat) (hlen : len ≤ 65535) (hstr : str.length = len * c)
    (hwf : s.wf) (hM : Max < 4294967296) (hroom : s.Pos + (2 + len * c) ≤ Max) :
    ∃ s', binary_writer.write_nstr s c str (len : Int) = .ok s' ∧
      contents s' = contents s ++ [Fin.ofNat (len % 256), Fin.ofNat (len / 256)] ++ str ∧
      write_impl.size s' = write_impl.size s + (2 + len * c) := by
  obtain ⟨s1, hw1, hwf1, hpos1, hreg1⟩ := array_write.fixed_write_ok s
    [Fin.ofNat (len % 256), Fin.ofNat (len / 256)] hwf hM
    (by simp only [List.length_cons, List.length_nil]; omega)
  simp only [List.length_cons, List.length_nil] at hpos1
  obtain ⟨s2, hw2, _, hpos2, hreg2⟩ := array_write.fixed_write_ok s1 str hwf1 hM (by omega)
  have hw1p : write_impl.write_pod s [Fin.ofNat (len % 256), Fin.ofNat (len / 256)]
      = .ok s1 := by
    show s.write_pod _ = .ok s1
    rw [array_write.write_pod_eq s _
      (by simp only [List.length_cons, List.length_nil]; omega)]
    exact hw1
  refine ⟨s2, ?_, ?_, ?_⟩
  · exact binary_writer.write_nstr_steps s s1 s2 c str len hlen (by omega) hstr hw1p hw2
  · show s2.Buf.take s2.Pos = s.Buf.take s.Pos ++ _ ++ str
    rw [hreg2, hreg1]
  · show s2.Pos = s.Pos + (2 + len * c)
    omega

theorem binary_writer.write_nstr_view (s : view_write) (c : Nat)
    (str : List byte) (len : Nat) (hlen : len ≤ 65535) (hstr : str.length = len * c)
    (hwf : s.wf) (hM : s.Max < 4294967296) (hroom : s.Pos + (2 + len * c) ≤ s.Max) :
    ∃ s', binary_writer.write_nstr s c str (len : Int) = .ok s' ∧
      contents s' = contents s ++ [Fin.ofNat (len % 256), Fin.ofNat (len / 256)] ++ str ∧
      write_impl.size s' = write_impl.size s + (2 + len * c) := by
  obtain ⟨s1, hw1, hwf1, hmax1, hpos1, hreg1⟩ := view_write.view_write_ok s
    [Fin.ofNat (len % 256), Fin.ofNat (len / 256)] hwf hM
    (by simp only [List.length_cons, List.length_nil]; omega)
  simp only [List.length_cons, List.length_nil] at hpos1
  obtain ⟨s2, hw2, _, _, hpos2, hreg2⟩ :=
    view_write.view_write_ok s1 str hwf1 (by omega) (by omega)
  have hw1p : write_impl.write_pod s [Fin.ofNat (len % 256), Fin.ofNat (len / 256)]
      = .ok s1 := by
    show s.write_pod _ = .ok s1
    rw [view_write.view_write_pod_eq s _
      (by simp only [List.length_cons, List.length_nil]; omega)]
    exact hw1
  refine ⟨s2, ?_, ?_, ?_⟩
  · exact binary_writer.write_nstr_steps s s1 s2 c str len hlen (by omega) hstr hw1p hw2
  · show region s2.Buf s2.Pos = region s.Buf s.Pos ++ _ ++ str
    rw [hreg2, hreg1]
  · show s2.Pos = s.Pos + (2 + len * c)
    omega

/-- C8: for every character array of `len` characters of size `c`, with
`0 <= len <= 65535`, `write_nstr` on an in-memory sink with room for the request
(a Growing sink below its size limit, a FixedArray or a View with `2 + len * c`
bytes available) returns and appends exactly the two little-endian bytes of `len`
followed by the `len * c` bytes of character data, so `size()` grows by
`2 + len * c`. -/
theorem binary_writer.write_nstr_appends (c : Nat) (str : List byte) (len : Nat)
    (hlen : len ≤ 65535) (hstr : str.length = len * c) :
    (∀ s : buffer_write, s.wf → s.Cap + (2 + len * c) ≤ 4294965248 →
      ∃ s', binary_writer.write_nstr s c str (len : Int) = .ok s' ∧
        contents s' = contents s ++ [Fin.ofNat (len % 256), Fin.ofNat (len / 256)] ++ str ∧
        write_impl.size s' = write_impl.size s + (2 + len * c)) ∧
    (∀ (Max : Nat) (s : array_write Max), s.wf → Max < 4294967296 →
      s.Pos + (2 + len * c) ≤ Max →
      ∃ s', binary_writer.write_nstr s c str (len : Int) = .ok s' ∧
        contents s' = contents s ++ [Fin.ofNat (len % 256), Fin.ofNat (len / 256)] ++ str ∧
        write_impl.size s' = write_impl.size s + (2 + len * c)) ∧
    (∀ s : view_write, s.wf → s.Max < 4294967296 → s.Pos + (2 + len * c) ≤ s.Max →
      ∃ s', binary_writer.write_nstr s c str (len : Int) = .ok s' ∧
        contents s' = contents s ++ [Fin.ofNat (len % 256), Fin.ofNat (len / 256)] ++ str ∧
        write_impl.size s' = write_impl.size s + (2 + len * c)) :=
  ⟨fun s hwf hroom => binary_writer.write_nstr_growing s c str len hlen hstr hwf hroom,
   fun _ s hwf hM hroom => binary_writer.write_nstr_fixed s c str len hlen hstr hwf hM hroom,
   fun s hwf hM hroom => binary_writer.write_nstr_view s c str len hlen hstr hwf hM hroom⟩

/-- C8 at the string "hello" on a Growing sink and at "abcd" on a `FixedArray<16>`. -/
theorem binary_writer.write_nstr_appends_witness :
    (∃ s', binary_writer.write_nstr buffer_write.new 1 [104, 101, 108, 108, 111] 5 = .ok s' ∧
      contents s' = [5, 0, 104, 101, 108, 108, 111] ∧ write_impl.size s' = 7) ∧
    (∃ s', binary_writer.write_nstr (array_write.new 16) 1 [97, 98, 99, 100] 4 = .ok s' ∧
      contents s' = [4, 0, 97, 98, 99, 100] ∧ write_impl.size s' = 6) :=
  ⟨(binary_writer.write_nstr_appends 1 [104, 101, 108, 108, 111] 5 (by decide) (by decide)).1
      buffer_write.new buffer_write.growing_wf_new (by decide),
   (binary_writer.write_nstr_appends 1 [97, 98, 99, 100] 4 (by decide) (by decide)).2.1
      16 (array_write.new 16) (array_write.fixed_wf_new 16) (by decide) (by decide)⟩

/-- C4: for every string of at most 65535 characters of size `c` (up to 32768
bytes per character), the bytes that `write_nstr` produces on a fresh Growing sink
decode, under the reader that reads a little-endian u16 count and then
`count * c` bytes, back to exactly the original character bytes, with nothing left
over. -/
theorem binary_writer.write_nstr_roundtrip (c : Nat) (str : List byte) (len : Nat)
    (hlen : len ≤ 65535) (hc : c ≤ 32768) (hstr : str.length = len * c) :
    ∃ w, binary_writer.write_nstr buffer_write.new c str (len : Int) = .ok w ∧
      read_nstr c (contents w) = some (str, []) := by
  have hmul : len * c ≤ 65535 * 32768 := Nat.mul_le_mul hlen hc
  obtain ⟨w, hw, hcont, _⟩ := binary_writer.write_nstr_growing buffer_write.new c str len
    hlen hstr buffer_write.growing_wf_new (by show 0 + (2 + len * c) ≤ 4294965248; omega)
  refine ⟨w, hw, ?_⟩
  have h0 : contents buffer_write.new = [] := rfl
  rw [hcont, h0]
  have hv0 : (Fin.ofNat (len % 256) : byte).val = len % 256 :=
    Nat.mod_eq_of_lt (Nat.mod_lt _ (by decide))
  have hv1 : (Fin.ofNat (len / 256) : byte).val = len / 256 :=
    Nat.mod_eq_of_lt (by omega)
  have hcount : (Fin.ofNat (len % 256) : byte).val + 256 * (Fin.ofNat (len / 256) : byte).val
      = len := by
    rw [hv0, hv1]; omega
  simp only [List.nil_append, List.cons_append, read_nstr, hcount, hstr, le_refl, if_true,
    List.take_of_length_le (le_of_eq hstr), List.drop_of_length_le (le_of_eq hstr)]

/-- C4 at a string of two 2-byte characters. -/
theorem binary_writer.write_nstr_roundtrip_witness :
    ∃ w, binary_writer.write_nstr buffer_write.new 2 [104, 0, 105, 0] (2 : Nat) = .ok w ∧
      read_nstr 2 (contents w) = some ([104, 0, 105, 0], []) :=
  binary_writer.write_nstr_roundtrip 2 [104, 0, 105, 0] 2 (by decide) (by decide) (by decide)

/-! ## The composite sink -/

theorem write_all_append {σ : Type} [write_impl σ] (xs ys : List (List byte)) :
    ∀ s : σ, write_all s (xs ++ ys) = (write_all s xs).bind fun s1 => write_all s1 ys := by
  induction xs with
  | nil => intro s; rfl
  | cons d ds ih =>
    intro s
    show (write_impl.write s d).bind (fun s1 => write_all s1 (ds ++ ys)) = _
    cases h : write_impl.write s d with
    | error e => simp [write_all, h, Except.bind]
    | ok s1 => simp [write_all, h, Except.bind, ih]

theorem composite_write.flush_idle {Max : Nat} {S : Type} [write_impl S] (hN : 1 ≤ Max)
    (c : composite_write (array_write Max) S) (hi : c.idle) :
    c.flush.map (fun c1 => c1.toStorage) = write_impl.write c.toStorage [] ∧
      ∀ c1, c.flush = .ok c1 → c1.idle := by
  obtain ⟨hp, hl⟩ := hi
  have hreg : region c.data c.size = [] := by
    show region (some c.toBuffer.Buf) c.toBuffer.Pos = []
    rw [hp]; simp [region]
  have hpos : 0 < c.toBuffer.Buf.length := by omega
  unfold composite_write.flush
  rw [hreg]
  cases h : write_impl.write c.toStorage [] with
  | error e =>
    refine ⟨rfl, ?_⟩
    intro c1 hc1
    simp [Except.bind] at hc1
  | ok st =>
    have hcl : composite_write.clear ({ c with toStorage := st } :
        composite_write (array_write Max) S)
        = .ok ⟨st, ⟨0, c.toBuffer.Buf.set 0 0⟩⟩ := by
      show (array_write.clear c.toBuffer).map _ = _
      simp [array_write.clear, hpos, Except.map]
    refine ⟨?_, ?_⟩
    · show (composite_write.clear _).map _ = _
      rw [hcl]; rfl
    · intro c1 hc1
      have hc1' : composite_write.clear ({ c with toStorage := st } :
          composite_write (array_write Max) S) = .ok c1 := hc1
      rw [hcl] at hc1'
      cases hc1'
      exact ⟨rfl, by simp [hl]⟩

theorem composite_write.write_idle {Max : Nat} {S : Type} [write_impl S] (hN : 1 ≤ Max)
    (hN2 : Max < 4294967296) (c : composite_write (array_write Max) S) (hi : c.idle)
    (d : List byte) :
    (c.write d).map (fun c1 => c1.toStorage)
        = write_all c.toStorage (if Max < d.length then [[], d] else [d]) ∧
      ∀ c1, c.write d = .ok c1 → c1.idle := by
  have hav : c.available = Max := by
    show wrap_uint ((Max : Int) - c.toBuffer.Pos) = Max
    rw [hi.1]
    unfold wrap_uint
    omega
  unfold composite_write.write
  rw [hav]
  by_cases hlt : Max < d.length
  · obtain ⟨hf, hfi⟩ := composite_write.flush_idle hN c hi
    simp only [hlt, if_true]
    cases hfl : c.flush with
    | error e =>
      rw [hfl] at hf
      refine ⟨?_, ?_⟩
      · show Except.error e = (write_impl.write c.toStorage []).bind _
        rw [← hf]; rfl
      · intro c1 hc1
        simp [Except.bind] at hc1
    | ok c2 =>
      rw [hfl] at hf
      have hi2 := hfi c2 hfl
      refine ⟨?_, ?_⟩
      · have hf' : write_impl.write c.toStorage [] = .ok c2.toStorage := hf.symm
        cases hw : write_impl.write c2.toStorage d <;>
          simp [write_all, hf', hw, Except.bind, Except.map]
      · intro c1 hc1
        have hc1' : (write_impl.write c2.toStorage d).map
            (fun st => ({ c2 with toStorage := st } : composite_write (array_write Max) S))
            = .ok c1 := hc1
        cases hw : write_impl.write c2.toStorage d with
        | error e => rw [hw] at hc1'; cases hc1'
        | ok st =>
          rw [hw] at hc1'
          cases hc1'
          exact hi2
  · simp only [hlt, if_false]
    refine ⟨?_, ?_⟩
    · cases hw : write_impl.write c.toStorage d <;>
        simp [write_all, hw, Except.bind, Except.map]
    · intro c1 hc1
      have hc1' : (write_impl.write c.toStorage d).map
          (fun st => ({ c with toStorage := st } : composite_write (array_write Max) S))
          = .ok c1 := hc1
      cases hw : write_impl.write c.toStorage d with
      | error e => rw [hw] at hc1'; cases hc1'
      | ok st =>
        rw [hw] at hc1'
        cases hc1'
        exact hi

theorem composite_write.write_all_idle {Max : Nat} {S : Type} [write_impl S] (hN : 1 ≤ Max)
    (hN2 : Max < 4294967296) (ws : List (List byte)) :
    ∀ c : composite_write (array_write Max) S, c.idle →
      (write_all c ws).map (fun c1 => c1.toStorage)
          = write_all c.toStorage (storage_calls Max ws) ∧
        ∀ c1, write_all c ws = .ok c1 → c1.idle := by
  induction ws with
  | nil =>
    intro c hi
    refine ⟨rfl, ?_⟩
    intro c1 hc1
    cases hc1
    exact hi
  | cons d ds ih =>
    intro c hi
    obtain ⟨hw, hwi⟩ := composite_write.write_idle hN hN2 c hi d
    have hcalls : storage_calls Max (d :: ds)
        = (if Max < d.length then [[], d] else [d]) ++ storage_calls Max ds := by
      simp [storage_calls]
    rw [hcalls, write_all_append]
    have hstep : write_all c (d :: ds)
        = (composite_write.write c d).bind fun c1 => write_all c1 ds := rfl
    rw [hstep]
    cases hcw : composite_write.write c d with
    | error e =>
      rw [hcw] at hw
      refine ⟨?_, ?_⟩
      · rw [← hw]; rfl
      · intro c1 hc1
        cases hc1
    | ok c2 =>
      rw [hcw] at hw
      obtain ⟨ih1, ih2⟩ := ih c2 (hwi c2 hcw)
      refine ⟨?_, ?_⟩
      · rw [← hw]
        exact ih1
      · intro c1 hc1
        exact ih2 c1 hc1

theorem storage_calls_flatten (Max : Nat) (ws : List (List byte)) :
    (storage_calls Max ws ++ [[]]).flatten = ws.flatten := by
  induction ws with
  | nil => rfl
  | cons d ds ih =>
    have hcalls : storage_calls Max (d :: ds)
        = (if Max < d.length then [[], d] else [d]) ++ storage_calls Max ds := by
      simp [storage_calls]
    rw [hcalls, List.append_assoc, List.flatten_append, ih]
    split <;> simp

theorem storage_calls_total (Max : Nat) (ws : List (List byte)) :
    total_bytes (storage_calls Max ws ++ [[]]) = total_bytes ws := by
  induction ws with
  | nil => rfl
  | cons d ds ih =>
    have hcalls : storage_calls Max (d :: ds)
        = (if Max < d.length then [[], d] else [d]) ++ storage_calls Max ds := by
      simp [storage_calls]
    unfold total_bytes at ih ⊢
    rw [hcalls, List.append_assoc, List.map_append, List.sum_append, ih]
    split <;> simp

theorem composite_write.drop_after_writes {Max : Nat} {S : Type} [write_impl S] (hN : 1 ≤ Max)
    (hN2 : Max < 4294967296) (st : S) (ws : List (List byte)) :
    (write_all (⟨st, array_write.new Max⟩ : composite_write (array_write Max) S) ws).bind
        composite_write.drop = write_all st (storage_calls Max ws ++ [[]]) := by
  have hi0 : (⟨st, array_write.new Max⟩ : composite_write (array_write Max) S).idle :=
    ⟨rfl, List.length_replicate Max 0⟩
  obtain ⟨hw, hwi⟩ := composite_write.write_all_idle hN hN2 ws _ hi0
  rw [write_all_append]
  cases hc : write_all (⟨st, array_write.new Max⟩ : composite_write (array_write Max) S) ws with
  | error e =>
    rw [hc] at hw
    have hw' : write_all st (storage_calls Max ws) = .error e := hw.symm
    rw [hw']
    rfl
  | ok c1 =>
    rw [hc] at hw
    have hw' : write_all st (storage_calls Max ws) = .ok c1.toStorage := hw.symm
    rw [hw']
    obtain ⟨hf, _⟩ := composite_write.flush_idle hN c1 (hwi c1 hc)
    show c1.flush.map (fun c2 => c2.toStorage)
      = (write_impl.write c1.toStorage []).bind fun s2 => Except.ok s2
    rw [hf]
    cases write_impl.write c1.toStorage [] <;> rfl

/-- The composites for which the final flush is defined: for every sequence of writes
to a composite sink with a `FixedArray<Max>` buffer in front of any storage `S`, the
final flush performed when the composite is dropped leaves the storage as after the
`storage::write` calls `storage_calls`, whose payloads concatenate to exactly the
written inputs in order; with a Growing storage that was default-constructed (and at
most `2^31 - 1024` bytes in total) the storage then holds exactly the concatenation
and nothing more. -/
theorem composite_write.storage_receives_all (Max : Nat) (hN : 1 ≤ Max)
    (hN2 : Max < 4294967296) (ws : List (List byte)) :
    (∀ (S : Type) [write_impl S] (st : S),
      (write_all (⟨st, array_write.new Max⟩ : composite_write (array_write Max) S) ws).bind
        composite_write.drop = write_all st (storage_calls Max ws ++ [[]])) ∧
    (storage_calls Max ws ++ [[]]).flatten = ws.flatten ∧
    (total_bytes ws ≤ 2147482624 →
      ∃ s : buffer_write,
        (write_all (⟨buffer_write.new, array_write.new Max⟩ :
          composite_write (array_write Max) buffer_write) ws).bind composite_write.drop = .ok s ∧
        contents s = ws.flatten ∧ write_impl.size s = total_bytes ws) := by
  refine ⟨fun S _ st => composite_write.drop_after_writes hN hN2 st ws,
    storage_calls_flatten Max ws, ?_⟩
  intro hT
  obtain ⟨s, hw, _, hpos, hreg⟩ :=
    buffer_write.growing_write_all (storage_calls Max ws ++ [[]]) buffer_write.new
      buffer_write.growing_wf_new (by show 0 ≤ 2 * 0 + 1024; omega)
      (by rw [storage_calls_total]; show 0 + total_bytes ws ≤ 2147482624; omega)
  refine ⟨s, ?_, ?_, ?_⟩
  · rw [composite_write.drop_after_writes hN hN2]
    exact hw
  · show region s.Buf s.Pos = ws.flatten
    rw [hreg, storage_calls_flatten]
    simp [region, buffer_write.new]
  · show s.Pos = total_bytes ws
    rw [hpos, storage_calls_total]
    simp [buffer_write.new]

/-- Twenty bytes written through `FixedArray<32>` into Growing storage. -/
theorem composite_write.storage_receives_all_witness :
    ∃ s : buffer_write,
      (write_all (⟨buffer_write.new, array_write.new 32⟩ :
        composite_write (array_write 32) buffer_write)
          [[1, 2, 3, 4, 5, 6, 7, 8, 9, 10], [11, 12, 13, 14, 15, 16, 17, 18, 19, 20]]).bind
        composite_write.drop = .ok s ∧
      contents s = [1, 2, 3, 4, 5, 6, 7, 8, 9, 10, 11, 12, 13, 14, 15, 16, 17, 18, 19, 20] ∧
      write_impl.size s = 20 :=
  (composite_write.storage_receives_all 32 (by decide) (by decide)
    [[1, 2, 3, 4, 5, 6, 7, 8, 9, 10], [11, 12, 13, 14, 15, 16, 17, 18, 19, 20]]).2.2
    (by decide)

set_option maxRecDepth 1000000 in
/-- C5 (evaluation at the failing input): the buffer of a composite is
default-constructed, and a default-constructed Growing or View sink has a null
`Buf`. With a Growing buffer in front of Growing storage, 20 bytes are written and
the composite is dropped: the bytes have reached the storage, but the destructor's
`flush()` ends in `clear()`, which stores through the null pointer; the same happens
when nothing was written. With a View buffer `available()` is `0`, so already the
first write runs into the forced `flush()` and its null store. -/
theorem composite_write.drop_stores_through_null :
    ((⟨buffer_write.new, buffer_write.new⟩ : composite_write buffer_write buffer_write).write
        (List.replicate 20 7)).map (fun c => contents c.toStorage)
      = .ok (List.replicate 20 7) ∧
    ((⟨buffer_write.new, buffer_write.new⟩ : composite_write buffer_write buffer_write).write
        (List.replicate 20 7)).bind composite_write.drop = .error .memory ∧
    (⟨buffer_write.new, buffer_write.new⟩ :
      composite_write buffer_write buffer_write).drop = .error .memory ∧
    (⟨buffer_write.new, view_write.new⟩ :
      composite_write view_write buffer_write).drop = .error .memory ∧
    (⟨buffer_write.new, view_write.new⟩ : composite_write view_write buffer_write).write
        (List.replicate 20 7) = .error .memory := by
  refine ⟨by decide, by decide, by decide, by decide, ?_⟩
  rfl

/-! ## Properties of close_sync -/

/-- C7 (counterexample): a reader holds a guard, `lock_for_close` is entered and
blocks, and a second `try_lock` made while it is still blocked is granted shared
ownership (as reader-preferring implementations of `std::shared_mutex` do) and
returns an owning guard. -/
theorem close_sync.try_lock_while_closing :
    close_sync.new.run [.try_lock true, .lock_for_close_enter, .try_lock true]
      = some (⟨2, false, true, true, false⟩, [true, true]) := by
  decide

theorem close_sync.step_closed (s s1 : close_sync) (e : close_sync.event) (r : Option Bool)
    (hI : s.exclusive = true ∨ s.destroyed = true) (hs : s.step e = some (s1, r)) :
    (s1.exclusive = true ∨ s1.destroyed = true) ∧ ∀ b, r = some b → b = false := by
  cases s with
  | mk readers exclusive explicitLock closing destroyed =>
    rcases e with g | _ | _ | _ | _
    · cases g <;> cases exclusive <;> cases destroyed <;>
        simp_all [close_sync.step, close_sync.try_lock] <;>
        (obtain ⟨h1, h2⟩ := hs; subst h1; subst h2; simp)
    all_goals
      cases exclusive <;> cases destroyed <;> cases explicitLock <;>
        cases closing <;> simp_all [close_sync.step] <;>
        (try (obtain ⟨h1, h2⟩ := hs; subst h1; subst h2; simp)) <;>
        (try (obtain ⟨_, h1, h2⟩ := hs; subst h1; subst h2; simp))

theorem close_sync.run_cons (s s2 : close_sync) (e : close_sync.event)
    (es : List close_sync.event) (rs : List Bool) (h : s.run (e :: es) = some (s2, rs)) :
    ∃ s1 r rs1, s.step e = some (s1, r) ∧ s1.run es = some (s2, rs1) ∧
      rs = r.toList ++ rs1 := by
  unfold close_sync.run at h
  cases hs : s.step e with
  | none => rw [hs] at h; cases h
  | some p =>
    obtain ⟨s1, r⟩ := p
    rw [hs] at h
    cases hr : s1.run es with
    | none => simp [hr] at h
    | some q =>
      obtain ⟨s3, rs1⟩ := q
      simp [hr] at h
      exact ⟨s1, r, rs1, rfl, by rw [hr, h.1], h.2.symm⟩

theorem close_sync.run_closed (post : List close_sync.event) :
    ∀ (s s2 : close_sync) (rs : List Bool), (s.exclusive = true ∨ s.destroyed = true) →
      s.run post = some (s2, rs) →
      (s2.exclusive = true ∨ s2.destroyed = true) ∧ ∀ b ∈ rs, b = false := by
  induction post with
  | nil =>
    intro s s2 rs hI h
    simp [close_sync.run] at h
    rw [← h.1, h.2]
    exact ⟨hI, fun b hb => by cases hb⟩
  | cons e es ih =>
    intro s s2 rs hI h
    obtain ⟨s1, r, rs1, hs, hr, hrs⟩ := close_sync.run_cons s s2 e es rs h
    obtain ⟨hI1, hres⟩ := close_sync.step_closed s s1 e r hI hs
    obtain ⟨hI2, hrest⟩ := ih s1 s2 rs1 hI1 hr
    refine ⟨hI2, ?_⟩
    intro b hb
    rw [hrs, List.mem_append] at hb
    rcases hb with hb | hb
    · cases r with
      | none => cases hb
      | some b0 =>
        simp only [Option.toList_some, List.mem_singleton] at hb
        rw [hb]
        exact hres b0 rfl
    · exact hrest b hb

/-- C6: once `lock_for_close` has returned, every `try_lock` in every continuation
of the execution returns a guard that does not own the lock, up to the destruction
of the object (after which no step on the object exists). -/
theorem close_sync.try_lock_fails_after_close (s s1 s2 : close_sync) (r : Option Bool)
    (post : List close_sync.event) (rs : List Bool)
    (hret : s.step .lock_for_close_return = some (s1, r))
    (hrun : s1.run post = some (s2, rs)) :
    ∀ b ∈ rs, b = false := by
  have hex : s1.exclusive = true ∨ s1.destroyed = true := by
    left
    simp only [close_sync.step] at hret
    split at hret
    · cases hret; rfl
    · cases hret
  exact (close_sync.run_closed post s1 s2 rs hex hrun).2

/-- C6 at the continuation `try_lock`, `try_lock`, destructor after the return of
`lock_for_close`, whatever the implementation would grant. -/
theorem close_sync.try_lock_fails_after_close_witness :
    (⟨0, false, true, true, false⟩ : close_sync).step .lock_for_close_return
      = some (⟨0, true, true, false, false⟩, none) ∧
    (⟨0, true, true, false, false⟩ : close_sync).run
        [.try_lock true, .try_lock false, .destroy]
      = some (⟨0, false, true, false, true⟩, [false, false]) ∧
    ∀ b ∈ [false, false], b = false :=
  ⟨by decide, by decide,
   close_sync.try_lock_fails_after_close ⟨0, false, true, true, false⟩
    ⟨0, true, true, false, false⟩ ⟨0, false, true, false, true⟩ none
    [.try_lock true, .try_lock false, .destroy] [false, false] (by decide) (by decide)⟩

/-- After a step `lock_for_close_return` somewhere in an execution, `mut` is owned
exclusively or the object is destroyed. -/
theorem close_sync.run_returned (pre : List close_sync.event) :
    ∀ (s s2 : close_sync) (rs : List Bool), s.run pre = some (s2, rs) →
      close_sync.event.lock_for_close_return ∈ pre →
      s2.exclusive = true ∨ s2.destroyed = true := by
  induction pre with
  | nil =>
    intro s s2 rs _ hmem
    cases hmem
  | cons e es ih =>
    intro s s2 rs h hmem
    obtain ⟨s1, r, rs1, hs, hr, _⟩ := close_sync.run_cons s s2 e es rs h
    by_cases he : e = close_sync.event.lock_for_close_return
    · subst he
      have hex : s1.exclusive = true ∨ s1.destroyed = true := by
        left
        simp only [close_sync.step] at hs
        split at hs
        · cases hs; rfl
        · cases hs
      exact (close_sync.run_closed es s1 s2 rs1 hex hr).1
    · have hmem2 : close_sync.event.lock_for_close_return ∈ es := by
        rcases List.mem_cons.mp hmem with h1 | h1
        · exact absurd h1.symm he
        · exact h1
      exact ih s1 s2 rs1 hr hmem2

/-- C7 (amended): no call of `try_lock` returns an owning guard after
`lock_for_close` has returned: in every execution from construction in which
`lock_for_close` has returned and the object is still alive, a following `try_lock`
returns a guard that does not own the lock and changes nothing, whatever the
implementation of the mutex would grant. -/
theorem close_sync.try_lock_fails_once_returned (pre : List close_sync.event)
    (s : close_sync) (rs : List Bool) (granted : Bool)
    (hrun : close_sync.new.run pre = some (s, rs))
    (hret : close_sync.event.lock_for_close_return ∈ pre)
    (hlive : s.destroyed = false) :
    s.step (.try_lock granted) = some (s, some false) := by
  have hc := close_sync.run_returned pre close_sync.new s rs hrun hret
  have hex : s.exclusive = true := by
    rcases hc with h | h
    · exact h
    · rw [hlive] at h
      cases h
  simp [close_sync.step, close_sync.try_lock, hlive, hex]

/-- C7 at the execution in which a reader takes and releases a guard and
`lock_for_close` is entered and returns. -/
theorem close_sync.try_lock_fails_once_returned_witness :
    close_sync.new.run
        [.try_lock true, .unlock_shared, .lock_for_close_enter, .lock_for_close_return]
      = some (⟨0, true, true, false, false⟩, [true]) ∧
    (⟨0, true, true, false, false⟩ : close_sync).step (.try_lock true)
      = some (⟨0, true, true, false, false⟩, some false) :=
  ⟨by decide,
   close_sync.try_lock_fails_once_returned
    [.try_lock true, .unlock_shared, .lock_for_close_enter, .lock_for_close_return]
    ⟨0, true, true, false, false⟩ [true] true (by decide) (by decide) rfl⟩
/-! ## Capacity growth, overruns and empty writes of the in-memory sinks -/

set_option maxRecDepth 1000000 in
/-- C17 (counterexample): a default-constructed Growing sink receives one byte and
then 600 bytes. The second write has to grow (`600 > 512 - 1`) and leaves the
capacity at 1536, the smallest multiple of 512 that holds `Cap + n = 1112`, although
the required size `size + n = 601` fits in 1024. -/
theorem buffer_write.grow_counts_from_capacity :
    (write_all buffer_write.new [[1], List.replicate 600 0]).map
        (fun s => (s.size, s.Cap)) = .ok (601, 1536) ∧
    (601 + 511) / 512 * 512 = 1024 := by
  decide

/-- C17 (amended): for every Growing sink with `size() <= Cap` whose buffer holds
`Cap` bytes and every write of `n` bytes with `n > Cap - size()` and
`Cap + n <= 2^31 - 512`, the write returns, `size()` grows by `n`, and the capacity
afterwards is the smallest multiple of 512 that is `>= Cap + n` (the old capacity
plus `n`), which holds the required size `size() + n`. -/
theorem buffer_write.grow_rounds_capacity (s : buffer_write) (data : List byte)
    (hwf : s.wf) (hgrow : data.length > s.Cap - s.size)
    (h : s.Cap + data.length ≤ 2147483136) :
    ∃ s', s.write data = .ok s' ∧ s'.size = s.size + data.length ∧
      s'.Cap % 512 = 0 ∧ s.Cap + data.length ≤ s'.Cap ∧ s'.Cap < s.Cap + data.length + 512 ∧
      s.size + data.length ≤ s'.Cap := by
  obtain ⟨s', hw, hwf', hpos, _, hcap⟩ := buffer_write.growing_write_ok s data hwf (by omega)
  have hsmall := grown_cap_small s.Cap data.length h
  simp only [buffer_write.size] at hgrow ⊢
  have hp := hwf.1
  refine ⟨s', hw, hpos, ?_⟩
  rcases hcap with ⟨_, hfit⟩ | ⟨hc, _⟩
  · omega
  · rw [hc, hsmall]
    omega

/-- C17 at a write of three bytes into a default-constructed Growing sink. -/
theorem buffer_write.grow_rounds_capacity_witness :
    ∃ s', buffer_write.new.write [1, 2, 3] = .ok s' ∧
      s'.size = buffer_write.new.size + [(1 : byte), 2, 3].length ∧
      s'.Cap % 512 = 0 ∧ buffer_write.new.Cap + [(1 : byte), 2, 3].length ≤ s'.Cap ∧
      s'.Cap < buffer_write.new.Cap + [(1 : byte), 2, 3].length + 512 ∧
      buffer_write.new.size + [(1 : byte), 2, 3].length ≤ s'.Cap :=
  buffer_write.grow_rounds_capacity buffer_write.new [1, 2, 3] buffer_write.growing_wf_new
    (by decide) (by decide)

/-- A FixedArray write whose `uint` sum `Pos + numBytes` wraps below `Max` passes the
assertion although the copy does not fit the array. -/
theorem array_write.write_wraps {Max : Nat} (s : array_write Max) (data : List byte)
    (hw : wrap_uint ((s.Pos : Int) + data.length) ≤ Max)
    (hb : s.Buf.length < s.Pos + data.length) :
    s.write data = .error .memory := by
  have hn : ¬ (s.Pos + data.length ≤ s.Buf.length) := by omega
  simp [array_write.write, hw, memcpy, hn, Except.map]

theorem view_write.view_write_wraps (s : view_write) (mem data : List byte)
    (hm : s.Buf = some mem) (hw : wrap_uint ((s.Pos : Int) + data.length) ≤ s.Max)
    (hb : mem.length < s.Pos + data.length) :
    s.write data = .error .memory := by
  have hn : ¬ (s.Pos + data.length ≤ mem.length) := by omega
  simp [view_write.write, hw, hm, memcpy_ptr, memcpy, hn, Except.map]

/-- While `Pos + numBytes` does not wrap, a FixedArray write that exceeds
`available()` fails the assertion. -/
theorem array_write.write_overrun_asserts {Max : Nat} (s : array_write Max)
    (data : List byte) (hpos : s.Pos ≤ Max) (hM : Max < 4294967296)
    (hn : s.Pos + data.length < 4294967296) (hav : data.length > s.available) :
    s.write data = .error .assertion := by
  have hadd : wrap_uint ((s.Pos : Int) + data.length) = s.Pos + data.length :=
    wrap_uint_add _ _ hn
  have hsub : s.available = Max - s.Pos := wrap_uint_sub _ _ hpos hM
  have hgt : ¬ (s.Pos + data.length ≤ Max) := by omega
  simp [array_write.write, hadd, hgt]

theorem view_write.view_overrun_asserts (s : view_write) (data : List byte)
    (hpos : s.Pos ≤ s.Max) (hM : s.Max < 4294967296)
    (hn : s.Pos + data.length < 4294967296) (hav : data.length > s.available) :
    s.write data = .error .assertion := by
  have hadd : wrap_uint ((s.Pos : Int) + data.length) = s.Pos + data.length :=
    wrap_uint_add _ _ hn
  have hsub : s.available = s.Max - s.Pos := wrap_uint_sub _ _ hpos hM
  have hgt : ¬ (s.Pos + data.length ≤ s.Max) := by omega
  simp [view_write.write, hadd, hgt]

/-- C18 (evaluation at the failing input): a `FixedArray<16>` and a View over 16
bytes each hold one byte, so `available()` is 15. A write of `2^32 - 1` bytes makes
the `uint` sum `Pos + numBytes` wrap to `0`, the assertion `Pos + numBytes <= Max`
passes, and the copy runs past the end of the buffer. -/
theorem write_overrun_passes_assert :
    (⟨1, List.replicate 16 0⟩ : array_write 16).available = 15 ∧
    (⟨1, List.replicate 16 0⟩ : array_write 16).write (List.replicate 4294967295 0)
      = .error .memory ∧
    (⟨some (List.replicate 16 0), 1, 16⟩ : view_write).available = 15 ∧
    (⟨some (List.replicate 16 0), 1, 16⟩ : view_write).write (List.replicate 4294967295 0)
      = .error .memory := by
  have hl : (List.replicate 4294967295 (0 : byte)).length = 4294967295 :=
    List.length_replicate _ _
  have hw : wrap_uint (((1 : Nat) : Int) + (4294967295 : Nat)) ≤ 16 := by decide
  refine ⟨by decide, ?_, by decide, ?_⟩
  · apply array_write.write_wraps
    · rw [hl]; exact hw
    · rw [hl]
      show (List.replicate 16 (0 : byte)).length < 1 + 4294967295
      rw [List.length_replicate]; omega
  · apply view_write.view_write_wraps _ (List.replicate 16 0) _ rfl
    · rw [hl]; exact hw
    · rw [hl]
      show (List.replicate 16 (0 : byte)).length < 1 + 4294967295
      rw [List.length_replicate]; omega

/-- C19: for every state of a FixedArray, View or Growing sink that satisfies the
representation invariant (`size()` within the capacity, which is a `uint`),
`write(p, 0)` returns and leaves the whole state as it was: `size()`, the capacity
and the buffered bytes are unchanged. -/
theorem write_empty_is_noop :
    (∀ (Max : Nat) (s : array_write Max), s.wf → Max < 4294967296 → s.write [] = .ok s) ∧
    (∀ s : view_write, s.wf → s.Max < 4294967296 → s.write [] = .ok s) ∧
    (∀ s : buffer_write, s.wf → s.Cap < 4294967296 → s.write [] = .ok s) := by
  refine ⟨?_, ?_, ?_⟩
  · intro Max s hwf hM
    cases s with
    | mk Pos Buf =>
      obtain ⟨hp, hl⟩ := hwf
      dsimp only at hp hl
      have hw : wrap_uint (Pos : Int) = Pos := wrap_uint_of_lt _ (by omega)
      have hfit : Pos ≤ Buf.length := by omega
      simp [array_write.write, memcpy, hw, hp, hfit, Except.map]
  · intro s hwf hM
    cases s with
    | mk Buf Pos Max =>
      obtain ⟨hp, hl⟩ := hwf
      dsimp only at hp hl hM
      have hw : wrap_uint (Pos : Int) = Pos := wrap_uint_of_lt _ (by omega)
      cases Buf with
      | none => simp [view_write.write, memcpy_ptr, hw, hp, Except.map]
      | some mem =>
        have hfit : Pos ≤ mem.length := by
          simp only [Option.getD_some] at hl; omega
        simp [view_write.write, memcpy_ptr, memcpy, hw, hp, hfit, Except.map]
  · intro s hwf hM
    cases s with
    | mk Buf Pos Cap =>
      obtain ⟨hp, hl⟩ := hwf
      dsimp only at hp hl hM
      have hw : wrap_uint (Pos : Int) = Pos := wrap_uint_of_lt _ (by omega)
      cases Buf with
      | none => simp [buffer_write.write, buffer_write.reserve, memcpy_ptr, hw, Except.map]
      | some mem =>
        have hfit : Pos ≤ mem.length := by
          simp only [Option.getD_some] at hl; omega
        simp [buffer_write.write, buffer_write.reserve, memcpy_ptr, memcpy, hw, hfit,
          Except.map]

/-- C19 at a FixedArray, a View and a Growing sink that each hold `[1, 2]`. -/
theorem write_empty_is_noop_witness :
    (⟨2, [1, 2, 0, 0]⟩ : array_write 4).write [] = .ok ⟨2, [1, 2, 0, 0]⟩ ∧
    (⟨some [1, 2, 0, 0], 2, 4⟩ : view_write).write [] = .ok ⟨some [1, 2, 0, 0], 2, 4⟩ ∧
    (⟨some [1, 2, 0, 0], 2, 4⟩ : buffer_write).write [] = .ok ⟨some [1, 2, 0, 0], 2, 4⟩ ∧
    buffer_write.new.write [] = .ok buffer_write.new :=
  ⟨write_empty_is_noop.1 4 ⟨2, [1, 2, 0, 0]⟩ ⟨by decide, by decide⟩ (by decide),
   write_empty_is_noop.2.1 ⟨some [1, 2, 0, 0], 2, 4⟩ ⟨by decide, by decide⟩ (by decide),
   write_empty_is_noop.2.2 ⟨some [1, 2, 0, 0], 2, 4⟩ ⟨by decide, by decide⟩ (by decide),
   write_empty_is_noop.2.2 buffer_write.new buffer_write.growing_wf_new (by decide)⟩

set_option maxRecDepth 1000000 in
/-- C20 (evaluation at the failing input): four bytes are written to a composite of
`FixedArray<32>` in front of Growing storage. Although `4 <= available() = 32`, the
bytes go straight to the storage: the composite's `size()` stays 0, `available()`
stays 32, and the storage already holds the four bytes before any `flush()`. -/
theorem composite_write.write_bypasses_buffer :
    ((⟨buffer_write.new, array_write.new 32⟩ :
        composite_write (array_write 32) buffer_write).write [1, 2, 3, 4]).map
      (fun c => (c.size, c.available, contents c.toStorage))
      = .ok (0, 32, [1, 2, 3, 4]) := by
  decide

/-! ## parallel_foreach -/

/-- With `rangeStart = 0` the dispatched ranges form a chain with non-decreasing
boundaries from `0` to `rangeEnd`. -/
theorem parallel_for_monotone_chain (pool : thread_pool) (e : Int)
    (hrun : pool.rangeRunning = false) (hc : 1 ≤ pool.coreCount)
    (he : 1 ≤ e) (he2 : e < 2147483648) :
    ∃ (k : Nat) (a : Nat → Int), a 0 = 0 ∧ a k = e ∧ (∀ i, i < k → a i ≤ a (i + 1)) ∧
      thread_pool.parallel_for pool 0 e
        = .ok (pool, (List.range k).map fun i => (a i, a (i + 1))) := by
  have hw : wrap_int (e - 0) = e := by
    rw [wrap_int_of_mem _ (by omega) (by omega)]; omega
  have hpool : ({ pool with rangeRunning := false } : thread_pool) = pool := by
    cases pool; simp_all
  unfold thread_pool.parallel_for
  simp only [hrun, hw, hpool]
  generalize hcores : (if e < pool.coreCount then e else pool.coreCount) = c
  have hc1 : 1 ≤ c := by rw [← hcores]; split <;> omega
  have hc2 : c ≤ e := by rw [← hcores]; split <;> omega
  have hq0 : 0 ≤ Int.tdiv e c := by
    rw [Int.tdiv_eq_ediv (by omega) (by omega)]; exact Int.ediv_nonneg (by omega) (by omega)
  have hq1 : Int.tdiv e c ≤ e := by
    have := mul_tdiv_le e c 1 (by omega) (by omega) hc1
    omega
  have hlen : wrap_int (Int.tdiv e c) = Int.tdiv e c :=
    wrap_int_of_mem _ (by omega) (by omega)
  simp only [hlen]
  have hgt : pool.coreCount > 0 := by omega
  have hne : ¬ (e ≤ 0) := by omega
  by_cases h1 : c ≤ 1
  · have hc' : c = 1 := by omega
    subst hc'
    refine ⟨1, fun j => if j = 0 then 0 else e, by simp, by simp, ?_, ?_⟩
    · intro i hi
      have : i = 0 := by omega
      subst this
      simp
      omega
    · simp [hgt, hne, List.range_succ]
  · have hcn : ((c.toNat : Nat) : Int) = c := Int.toNat_of_nonneg (by omega)
    refine ⟨c.toNat, chunk_bound c (Int.tdiv e c) e, ?_, ?_, ?_, ?_⟩
    · have : ¬ ((0 : Int) = c) := by omega
      simp [chunk_bound, this]
    · simp [chunk_bound, hcn]
    · intro i hi
      have hi' : (i : Int) < c := by omega
      have hne1 : ¬ ((i : Int) = c) := by omega
      have hm1 : (i : Int) * Int.tdiv e c ≤ e :=
        mul_tdiv_le e c i (by omega) (by omega) (by omega)
      have hm2 : (i : Int) * Int.tdiv e c ≤ ((i : Int) + 1) * Int.tdiv e c := by
        have : ((i : Int) + 1) * Int.tdiv e c = (i : Int) * Int.tdiv e c + Int.tdiv e c := by
          ring
        omega
      unfold chunk_bound
      simp only [hne1, if_false, Nat.cast_add, Nat.cast_one]
      split <;> omega
    · simp only [hgt, hne, h1, not_true_eq_false, not_false_eq_true, if_false, if_true,
        Bool.false_eq_true]
      congr 2
      apply List.map_congr_left
      intro i hi
      have hi' : (i : Int) < c := by
        have := List.mem_range.mp hi
        omega
      exact partition_eq_chunk e c i (by omega) he2 (by omega) hi'

theorem range_loop_append (x y z : Int) (h1 : x ≤ y) (h2 : y ≤ z) :
    range_loop x y ++ range_loop y z = range_loop x z := by
  unfold range_loop
  have hsplit : (z - x).toNat = (y - x).toNat + (z - y).toNat := by omega
  rw [hsplit, List.range_add, List.map_append, List.map_map]
  congr 1
  apply List.map_congr_left
  intro k _
  simp only [Function.comp_apply, Nat.cast_add]
  omega

theorem range_loop_chain (a : Nat → Int) (k : Nat) (hmono : ∀ i, i < k → a i ≤ a (i + 1)) :
    a 0 ≤ a k ∧
      ((List.range k).map fun i => (a i, a (i + 1))).flatMap (fun p => range_loop p.1 p.2)
        = range_loop (a 0) (a k) := by
  induction k with
  | zero => simp [range_loop]
  | succ n ih =>
    obtain ⟨hle, hflat⟩ := ih (fun i hi => hmono i (by omega))
    have hstep := hmono n (by omega)
    refine ⟨by omega, ?_⟩
    rw [List.range_succ, List.map_append, List.flatMap_append, hflat]
    simp only [List.map_cons, List.map_nil, List.flatMap_cons, List.flatMap_nil,
      List.append_nil]
    exact range_loop_append _ _ _ hle hstep

theorem range_loop_zero (n : Nat) : range_loop 0 (n : Int) = (List.range n).map Int.ofNat := by
  unfold range_loop
  have h : ((n : Int) - 0).toNat = n := by omega
  rw [h]
  apply List.map_congr_left
  intro k _
  simp

/-- C11: for every container of `n >= 0` items whose size fits the `int` index of
`operator[](int)`, and every physical core count `>= 1`, `parallel_foreach` returns
and has invoked the foreach callback on the indices `0, 1, ..., n - 1`, each exactly
once, and on no other index. -/
theorem parallel_foreach_visits_each_index (pool : thread_pool) (n : Nat)
    (hrun : pool.rangeRunning = false) (hc : 1 ≤ pool.coreCount) (hn : n < 2147483648) :
    parallel_foreach pool n = .ok (pool, (List.range n).map Int.ofNat) := by
  have hw : wrap_int (n : Int) = n := wrap_int_of_mem _ (by omega) (by omega)
  unfold parallel_foreach
  rw [hw]
  by_cases h0 : n = 0
  · subst h0
    have hgt : pool.coreCount > 0 := by omega
    simp [thread_pool.parallel_for, hrun, hgt, wrap_int, Except.map]
  · obtain ⟨k, a, ha0, hak, hmono, hpf⟩ :=
      parallel_for_monotone_chain pool n hrun hc (by omega) (by omega)
    rw [hpf]
    show Except.ok (pool, _) = _
    rw [(range_loop_chain a k hmono).2, ha0, hak, range_loop_zero]

/-- C11 at a container of ten items on a pool with four cores. -/
theorem parallel_foreach_visits_each_index_witness :
    parallel_foreach ⟨4, false⟩ 10 = .ok (⟨4, false⟩, (List.range 10).map Int.ofNat) :=
  parallel_foreach_visits_each_index ⟨4, false⟩ 10 rfl (by decide) (by decide)

/-! ## The worker: exception capture and wait -/

theorem pool_task.run_generic_idle (t : pool_task) (f : task_delegate) (tracer : Option String)
    (hidle : t.taskRunning = false) :
    ∃ t1, t.run_generic f tracer = .ok t1 ∧ t1.taskRunning = true ∧ t1.killed = false ∧
      t1.error = none ∧ t1.genericTask = some f ∧ t1.rangeTask = none ∧
      t1.maxIdleTime = t.maxIdleTime := by
  unfold pool_task.run_generic pool_task.resurrect pool_task.join_or_detach
  cases hk : t.killed <;> cases hj : t.joinable <;> simp [hidle, hk, hj]

theorem pool_task.run_generic_task (t : pool_task) (f : task_delegate)
    (hk : t.killed = false) (hg : t.genericTask = some f) (hr : t.rangeTask = none) :
    ∃ t2, t.run = some (.ok ⟨t2, some (.generic f.id), false⟩) ∧
      t2.error = (match f.throws with | some e => some e | none => t.error) ∧
      t2.taskRunning = false ∧ t2.killed = false ∧ t2.maxIdleTime = t.maxIdleTime := by
  unfold pool_task.run pool_task.wait_for_task pool_task.got_task pool_task.run_task
  cases hf : f.throws <;> simp [hk, hg, hr, hf, pool_task.unhandled_exception]

/-- C12: a generic task that throws `e` is submitted to an idle worker. The worker
loop invokes it, captures `e` into the error slot and finishes the pass without
leaving `run()`: afterwards `running` is false and `killed` is false. A second
submission to the same worker then passes its precondition, clears the error slot,
and the next pass of the loop invokes the second task. -/
theorem pool_task.throwing_task_returns_to_idle (t : pool_task) (f g : task_delegate)
    (e : exception) (tracer : Option String)
    (hidle : t.taskRunning = false) (hf : f.throws = some e) :
    ∃ t1 t2 t3 t4 : pool_task,
      t.run_generic f tracer = .ok t1 ∧
      t1.run = some (.ok ⟨t2, some (.generic f.id), false⟩) ∧
      t2.error = some e ∧ t2.taskRunning = false ∧ t2.killed = false ∧
      t2.run_generic g tracer = .ok t3 ∧ t3.error = none ∧ t3.taskRunning = true ∧
      t3.run = some (.ok ⟨t4, some (.generic g.id), false⟩) ∧
      t4.taskRunning = false ∧ t4.killed = false ∧ t4.error = g.throws := by
  obtain ⟨t1, h1, _, hk1, _, hg1, hr1, _⟩ := pool_task.run_generic_idle t f tracer hidle
  obtain ⟨t2, h2, he2, hrun2, hk2, _⟩ := pool_task.run_generic_task t1 f hk1 hg1 hr1
  obtain ⟨t3, h3, hrun3, hk3, he3, hg3, hr3, _⟩ :=
    pool_task.run_generic_idle t2 g tracer hrun2
  obtain ⟨t4, h4, he4, hrun4, hk4, _⟩ := pool_task.run_generic_task t3 g hk3 hg3 hr3
  refine ⟨t1, t2, t3, t4, h1, h2, ?_, hrun2, hk2, h3, he3, hrun3, h4, hrun4, hk4, ?_⟩
  · rw [he2, hf]
  · rw [he4, he3]
    cases g.throws <;> rfl

/-- C12 at a fresh worker, a task that throws and a task that returns. -/
theorem pool_task.throwing_task_returns_to_idle_witness :
    ∃ t1 t2 t3 t4 : pool_task,
      pool_task.new.run_generic ⟨1, some (.other 7)⟩ none = .ok t1 ∧
      t1.run = some (.ok ⟨t2, some (.generic 1), false⟩) ∧
      t2.error = some (.other 7) ∧ t2.taskRunning = false ∧ t2.killed = false ∧
      t2.run_generic ⟨2, none⟩ none = .ok t3 ∧ t3.error = none ∧ t3.taskRunning = true ∧
      t3.run = some (.ok ⟨t4, some (.generic 2), false⟩) ∧
      t4.taskRunning = false ∧ t4.killed = false ∧ t4.error = none :=
  pool_task.throwing_task_returns_to_idle pool_task.new ⟨1, some (.other 7)⟩ ⟨2, none⟩
    (.other 7) none rfl rfl

/-- C13: on every worker state, whenever the nothrow `wait` returns, it returns the
worker unchanged (so the error slot is as it was); the throwing `wait` then raises
the captured exception if the slot is non-empty and returns the same result as the
nothrow variant if the slot is empty. In particular a wait that ends with `finished`
re-raises a captured exception and returns `finished` without one; and on a worker
that is not running both variants do return. -/
theorem pool_task.wait_rethrows_captured (t : pool_task) (timeoutMillis : Int)
    (timed_out : Bool) :
    (∀ t1 r, t.wait_nothrow timeoutMillis timed_out = some (t1, r) →
      t1 = t ∧
      (∀ e, t.error = some e → t.wait timeoutMillis timed_out = some (t, .error e)) ∧
      (t.error = none → t.wait timeoutMillis timed_out = some (t, .ok r))) ∧
    (t.taskRunning = false ∨ t.killed = true →
      t.wait_nothrow timeoutMillis timed_out = some (t, .finished)) := by
  refine ⟨?_, ?_⟩
  · intro t1 r h
    have ht : t1 = t := by
      unfold pool_task.wait_nothrow at h
      split at h
      · split at h
        · cases h; rfl
        · cases h
      · cases h; rfl
    subst ht
    refine ⟨rfl, ?_, ?_⟩
    · intro e he
      simp [pool_task.wait, h, he]
    · intro he
      simp [pool_task.wait, h, he]
  · intro h
    unfold pool_task.wait_nothrow
    rcases h with h | h <;> simp [h]

/-- C13 at a finished worker that captured an exception. -/
theorem pool_task.wait_rethrows_captured_witness :
    ({ pool_task.new with error := some (.other 7) } : pool_task).wait_nothrow 0 false
      = some ({ pool_task.new with error := some (.other 7) }, .finished) ∧
    ({ pool_task.new with error := some (.other 7) } : pool_task).wait 0 false
      = some ({ pool_task.new with error := some (.other 7) }, .error (.other 7)) :=
  ⟨(pool_task.wait_rethrows_captured { pool_task.new with error := some (.other 7) } 0
      false).2 (Or.inl rfl),
   ((pool_task.wait_rethrows_captured { pool_task.new with error := some (.other 7) } 0
      false).1 _ .finished rfl).2.1 (.other 7) rfl⟩

/-! ## The pool: clear_idle_tasks and parallel_task -/

theorem erase_swap_last_split (a : List pool_task) (x : pool_task) (b : List pool_task) :
    (erase_swap_last (a ++ x :: b) a.length).Perm (a ++ b) ∧
      (erase_swap_last (a ++ x :: b) a.length).take a.length = a := by
  rcases List.eq_nil_or_concat b with hb | ⟨b1, l, hb⟩
  · subst hb
    have h1 : (a ++ [x]).getLast? = some x := by simp
    have h2 : (a ++ [x]).set a.length x = a ++ [x] := by simp
    unfold erase_swap_last
    rw [h1]
    simp only [h2, List.dropLast_concat, List.append_nil]
    exact ⟨List.Perm.refl a, by simp⟩
  · rw [List.concat_eq_append] at hb
    subst hb
    have h1 : (a ++ x :: (b1 ++ [l])).getLast? = some l := by
      have : a ++ x :: (b1 ++ [l]) = (a ++ x :: b1) ++ [l] := by simp
      rw [this, List.getLast?_append]
      simp
    have h2 : (a ++ x :: (b1 ++ [l])).set a.length l = (a ++ l :: b1) ++ [l] := by
      simp
    unfold erase_swap_last
    rw [h1]
    simp only [h2, List.dropLast_concat]
    refine ⟨?_, ?_⟩
    · apply List.Perm.append_left
      exact (List.perm_append_singleton l b1).symm
    · simp

theorem clear_idle_loop_succ (fuel : Nat) (tasks : List pool_task) (i : Nat) (cleared : Int) :
    clear_idle_loop (fuel + 1) tasks i cleared =
      if (i : Int) < wrap_int tasks.length then
        match tasks[i]? with
        | some t =>
          if !t.running then
            clear_idle_loop fuel (erase_swap_last tasks i) i (wrap_int (cleared + 1))
          else clear_idle_loop fuel tasks (i + 1) cleared
        | none => (cleared, tasks)
      else (cleared, tasks) := rfl

theorem clear_idle_loop_spec (fuel : Nat) :
    ∀ (tasks : List pool_task) (i : Nat) (cleared : Int),
      i ≤ tasks.length → tasks.length - i < fuel → 0 ≤ cleared →
      cleared + tasks.length < 2147483648 →
      (∀ t ∈ tasks.take i, t.running = true) →
      ((clear_idle_loop fuel tasks i cleared).2).Perm (tasks.filter fun t => t.running) ∧
      (clear_idle_loop fuel tasks i cleared).1
        = cleared + ((tasks.filter fun t => !t.running).length : Int) := by
  induction fuel with
  | zero => intro tasks i cleared _ hf; omega
  | succ fuel ih =>
    intro tasks i cleared hi hf hc0 hc1 hrun
    have hwl : wrap_int (tasks.length : Int) = tasks.length :=
      wrap_int_of_mem _ (by omega) (by omega)
    rw [clear_idle_loop_succ, hwl]
    by_cases hlt : i < tasks.length
    · have hlt' : (i : Int) < (tasks.length : Int) := by omega
      have hsplit : tasks = tasks.take i ++ tasks[i] :: tasks.drop (i + 1) := by
        rw [← List.drop_eq_getElem_cons hlt, List.take_append_drop]
      have hal : (tasks.take i).length = i := by
        rw [List.length_take]; omega
      simp only [hlt', if_true, List.getElem?_eq_getElem hlt]
      generalize ha : tasks.take i = a at hsplit hal hrun
      generalize hx : tasks[i] = x at hsplit
      generalize hb : tasks.drop (i + 1) = b at hsplit
      cases hr : x.running with
      | false =>
        simp only [Bool.not_false, if_true]
        obtain ⟨hperm, htake⟩ := erase_swap_last_split a x b
        have hesl : erase_swap_last tasks i = erase_swap_last (a ++ x :: b) a.length := by
          rw [hsplit, hal]
        have hlen : (erase_swap_last tasks i).length = a.length + b.length := by
          rw [hesl, hperm.length_eq, List.length_append]
        have htl : tasks.length = a.length + b.length + 1 := by
          rw [hsplit]; simp; omega
        have hw1 : wrap_int (cleared + 1) = cleared + 1 :=
          wrap_int_of_mem _ (by omega) (by omega)
        rw [hw1]
        obtain ⟨ih1, ih2⟩ := ih (erase_swap_last tasks i) i (cleared + 1)
          (by omega) (by omega) (by omega) (by rw [hlen]; omega)
          (by rw [hesl, ← hal, htake]; exact hrun)
        have hfr : (tasks.filter fun t => t.running)
            = (a ++ b).filter fun t => t.running := by
          rw [hsplit]; simp [List.filter_append, List.filter_cons, hr]
        have hfi : ((tasks.filter fun t => !t.running).length : Int)
            = (((a ++ b).filter fun t => !t.running).length : Int) + 1 := by
          rw [hsplit]; simp [List.filter_append, List.filter_cons, hr]
          omega
        refine ⟨?_, ?_⟩
        · rw [hfr]
          exact ih1.trans (by rw [hesl]; exact hperm.filter _)
        · rw [ih2, hfi, hesl, (hperm.filter _).length_eq]
          omega
      | true =>
        simp only [Bool.not_true, Bool.false_eq_true, if_false]
        apply ih tasks (i + 1) cleared (by omega) (by omega) hc0 hc1
        intro t ht
        rw [List.take_succ, List.getElem?_eq_getElem hlt, ha, hx] at ht
        simp only [Option.toList_some, List.mem_append, List.mem_singleton] at ht
        rcases ht with ht | ht
        · exact hrun t ht
        · rw [ht]; exact hr
    · have hlt' : ¬ ((i : Int) < (tasks.length : Int)) := by omega
      simp only [hlt', if_false]
      have hall : tasks.take i = tasks := List.take_of_length_le (by omega)
      rw [hall] at hrun
      have h1 : (tasks.filter fun t => t.running) = tasks := List.filter_eq_self.mpr hrun
      have h2 : (tasks.filter fun t => !t.running) = [] := by
        apply List.filter_eq_nil_iff.mpr
        intro t ht
        simp [hrun t ht]
      rw [h1, h2]
      exact ⟨List.Perm.refl _, by simp⟩

theorem task_pool.clear_idle_tasks_eq (p : task_pool) :
    p.clear_idle_tasks
      = ({ p with tasks := (clear_idle_loop (p.tasks.length + 1) p.tasks 0 0).2 },
          (clear_idle_loop (p.tasks.length + 1) p.tasks 0 0).1) := rfl

/-- C15: for every worker list (of fewer than `2^31` workers, the range of the `int`
loop index), `clear_idle_tasks` returns the number of workers that were not running,
and the list afterwards is a rearrangement of exactly the workers that were running:
each of them once, none of the others. -/
theorem task_pool.clear_idle_tasks_keeps_running (p : task_pool)
    (h : p.tasks.length < 2147483648) :
    (p.clear_idle_tasks).2 = ((p.tasks.filter fun t => !t.running).length : Int) ∧
    ((p.clear_idle_tasks).1.tasks).Perm (p.tasks.filter fun t => t.running) ∧
    (∀ t ∈ (p.clear_idle_tasks).1.tasks, t.running = true) := by
  have hb : (0 : Int) + (p.tasks.length : Int) < 2147483648 := by omega
  obtain ⟨h1, h2⟩ := clear_idle_loop_spec (p.tasks.length + 1) p.tasks 0 0
    (Nat.zero_le _) (by omega) (Int.le_refl 0) hb (by simp)
  rw [task_pool.clear_idle_tasks_eq]
  generalize clear_idle_loop (p.tasks.length + 1) p.tasks 0 0 = r at h1 h2 ⊢
  obtain ⟨c, ts⟩ := r
  refine ⟨?_, h1, ?_⟩
  · exact h2.trans (Int.zero_add _)
  · intro t ht
    have hm : t ∈ p.tasks.filter fun t => t.running := h1.subset ht
    exact (List.mem_filter.mp hm).2

/-- C15 at a pool of an idle, a running and another idle worker. -/
theorem task_pool.clear_idle_tasks_keeps_running_witness :
    ((⟨⟨4, false⟩, [pool_task.new, { pool_task.new with taskRunning := true },
        pool_task.new], 15⟩ : task_pool).clear_idle_tasks).2
      = (([pool_task.new, { pool_task.new with taskRunning := true },
          pool_task.new].filter fun t => !t.running).length : Int) ∧
    (((⟨⟨4, false⟩, [pool_task.new, { pool_task.new with taskRunning := true },
        pool_task.new], 15⟩ : task_pool).clear_idle_tasks).1.tasks).Perm
      ([pool_task.new, { pool_task.new with taskRunning := true },
        pool_task.new].filter fun t => t.running) ∧
    (∀ t ∈ ((⟨⟨4, false⟩, [pool_task.new, { pool_task.new with taskRunning := true },
        pool_task.new], 15⟩ : task_pool).clear_idle_tasks).1.tasks, t.running = true) :=
  task_pool.clear_idle_tasks_keeps_running
    ⟨⟨4, false⟩, [pool_task.new, { pool_task.new with taskRunning := true }, pool_task.new],
      15⟩ (by simp)


theorem submit_first_idle_split (submit : pool_task → Except Fault pool_task)
    (pre : List pool_task) (t : pool_task) (post : List pool_task)
    (hpre : ∀ x ∈ pre, x.running = true) (ht : t.running = false) :
    submit_first_idle submit (pre ++ t :: post)
      = some ((submit t).map fun t1 => (pre ++ t1 :: post, pre.length)) := by
  induction pre with
  | nil => simp [submit_first_idle, ht]
  | cons x xs ih =>
    have hx : x.running = true := hpre x (List.mem_cons_self _ _)
    have ih1 := ih (fun y hy => hpre y (List.mem_cons_of_mem _ hy))
    rw [List.cons_append, submit_first_idle]
    simp only [hx, Bool.not_true, Bool.false_eq_true, if_false]
    rw [ih1]
    cases submit t <;> rfl

theorem submit_first_idle_none (submit : pool_task → Except Fault pool_task)
    (tasks : List pool_task) (hall : ∀ x ∈ tasks, x.running = true) :
    submit_first_idle submit tasks = none := by
  induction tasks with
  | nil => rfl
  | cons x xs ih =>
    have hx : x.running = true := hall x (List.mem_cons_self _ _)
    simp [submit_first_idle, hx, ih (fun y hy => hall y (List.mem_cons_of_mem _ hy))]

/-- C16: when `tasks` is `pre ++ t :: post` with every worker of `pre` running and `t`
not running, `parallel_task` submits the generic task to `t` and returns its
position; the list keeps its length and every other worker its position. When every
worker is running (or the list is empty) it appends exactly one new worker, whose
idle time is the pool's `taskMaxIdleTime`, submits to it and returns its position.
In both cases the returned worker holds the task and has `running == true`. -/
theorem task_pool.parallel_task_picks_first_idle (p : task_pool) (g : task_delegate)
    (tracer : Option String) :
    (∀ pre t post, p.tasks = pre ++ t :: post → (∀ x ∈ pre, x.running = true) →
      t.running = false →
      ∃ t1, t.run_generic g tracer = .ok t1 ∧ t1.running = true ∧
        t1.genericTask = some g ∧
        p.parallel_task g tracer = .ok ({ p with tasks := pre ++ t1 :: post }, pre.length) ∧
        (pre ++ t1 :: post).length = p.tasks.length) ∧
    ((∀ x ∈ p.tasks, x.running = true) →
      ∃ t1, (pool_task.new.max_idle_time p.taskMaxIdleTime).run_generic g tracer = .ok t1 ∧
        t1.running = true ∧ t1.genericTask = some g ∧
        t1.maxIdleTime = p.taskMaxIdleTime ∧
        p.parallel_task g tracer = .ok ({ p with tasks := p.tasks ++ [t1] }, p.tasks.length)) := by
  refine ⟨?_, ?_⟩
  · intro pre t post hsplit hpre ht
    obtain ⟨t1, h1, hrun1, _, _, hg1, _, _⟩ := pool_task.run_generic_idle t g tracer ht
    refine ⟨t1, h1, hrun1, hg1, ?_, by rw [hsplit]; simp⟩
    unfold task_pool.parallel_task
    rw [hsplit, submit_first_idle_split _ pre t post hpre ht, h1]
    rfl
  · intro hall
    obtain ⟨t1, h1, hrun1, _, _, hg1, _, hm1⟩ :=
      pool_task.run_generic_idle (pool_task.new.max_idle_time p.taskMaxIdleTime) g tracer rfl
    refine ⟨t1, h1, hrun1, hg1, hm1, ?_⟩
    simp [task_pool.parallel_task, task_pool.grow, submit_first_idle_none _ _ hall, h1,
      Except.map]

/-- C16 at a pool whose first worker is running and whose second is idle, and at a
pool whose only worker is running. -/
theorem task_pool.parallel_task_picks_first_idle_witness :
    (∃ t1, pool_task.new.run_generic ⟨3, none⟩ none = .ok t1 ∧ t1.running = true ∧
      t1.genericTask = some ⟨3, none⟩ ∧
      (⟨⟨4, false⟩, [{ pool_task.new with taskRunning := true }, pool_task.new], 15⟩ :
          task_pool).parallel_task ⟨3, none⟩ none
        = .ok (⟨⟨4, false⟩, [{ pool_task.new with taskRunning := true }, t1], 15⟩, 1) ∧
      [{ pool_task.new with taskRunning := true }, t1].length = 2) ∧
    (∃ t1, (pool_task.new.max_idle_time 30).run_generic ⟨3, none⟩ none = .ok t1 ∧
      t1.running = true ∧ t1.genericTask = some ⟨3, none⟩ ∧ t1.maxIdleTime = 30 ∧
      (⟨⟨4, false⟩, [{ pool_task.new with taskRunning := true }], 30⟩ :
          task_pool).parallel_task ⟨3, none⟩ none
        = .ok (⟨⟨4, false⟩, [{ pool_task.new with taskRunning := true }, t1], 30⟩, 1)) :=
  ⟨(task_pool.parallel_task_picks_first_idle
      ⟨⟨4, false⟩, [{ pool_task.new with taskRunning := true }, pool_task.new], 15⟩
      ⟨3, none⟩ none).1 [{ pool_task.new with taskRunning := true }] pool_task.new [] rfl
      (by simp [pool_task.running]) rfl,
   (task_pool.parallel_task_picks_first_idle
      ⟨⟨4, false⟩, [{ pool_task.new with taskRunning := true }], 30⟩
      ⟨3, none⟩ none).2 (by simp [pool_task.running])⟩


/-! ## parallel_for on the pool with its workers -/

theorem task_pool.start_range_task_rangeRunning (p : task_pool) (poolIndex : Nat)
    (s e : Int) (rangeTask : action) (tracer : Option String) (r : task_pool × Nat × Nat)
    (h : p.start_range_task poolIndex s e rangeTask tracer = .ok r) :
    r.1.rangeRunning = p.rangeRunning := by
  unfold task_pool.start_range_task at h
  split at h
  · rename_i r0 _
    cases r0 with
    | error x => simp [Except.map] at h
    | ok q =>
      simp only [Except.map, Except.ok.injEq] at h
      rw [← h]
  · unfold task_pool.grow at h
    cases hs : (pool_task.new.max_idle_time p.taskMaxIdleTime).run_range s e rangeTask tracer with
    | error x => simp [hs, Except.map] at h
    | ok q =>
      simp only [hs, Except.map, Except.ok.injEq] at h
      rw [← h]

theorem task_pool.run_worker_rangeRunning (p p1 : task_pool) (w : Nat)
    (h : p.run_worker w = .ok p1) : p1.rangeRunning = p.rangeRunning := by
  unfold task_pool.run_worker at h
  split at h
  · split at h
    · split at h
      · rename_i r _
        cases r with
        | error x => simp [Except.map] at h
        | ok q =>
          simp only [Except.map, Except.ok.injEq] at h
          rw [← h]
      · simp only [Except.ok.injEq] at h
        rw [← h]
    · simp only [Except.ok.injEq] at h
      rw [← h]
  · simp only [Except.ok.injEq] at h
    rw [← h]

theorem task_pool.dispatch_rangeRunning (cores len rangeEnd : Int) (rangeTask : action)
    (tracer : Option String) (early : Nat → Bool) (is : List Nat) :
    ∀ (st st1 : task_pool × Nat × List Nat),
      task_pool.dispatch cores len rangeEnd rangeTask tracer early is st = .ok st1 →
      st1.1.rangeRunning = st.1.rangeRunning := by
  induction is with
  | nil =>
    intro st st1 h
    simp only [task_pool.dispatch, Except.ok.injEq] at h
    rw [← h]
  | cons i is ih =>
    intro st st1 h
    obtain ⟨p, poolIndex, active⟩ := st
    simp only [task_pool.dispatch] at h
    cases h1 : p.start_range_task poolIndex
        (thread_pool.partition cores len rangeEnd i).1
        (thread_pool.partition cores len rangeEnd i).2 rangeTask tracer with
    | error x => simp [h1, Except.bind] at h
    | ok r =>
      have e1 := task_pool.start_range_task_rangeRunning _ _ _ _ _ _ _ h1
      simp only [h1, Except.bind] at h
      cases h2 : (if early i then r.1.run_worker r.2.2 else .ok r.1) with
      | error x => simp [h2] at h
      | ok p1 =>
        simp only [h2] at h
        have e2 : p1.rangeRunning = r.1.rangeRunning := by
          split at h2
          · exact task_pool.run_worker_rangeRunning _ _ _ h2
          · simp only [Except.ok.injEq] at h2
            rw [← h2]
        have e3 := ih _ _ h
        simp only at e3
        rw [e3, e2, e1]

theorem task_pool.run_workers_rangeRunning (ws : List Nat) :
    ∀ (p p1 : task_pool), task_pool.run_workers ws p = .ok p1 →
      p1.rangeRunning = p.rangeRunning := by
  induction ws with
  | nil =>
    intro p p1 h
    simp only [task_pool.run_workers, Except.ok.injEq] at h
    rw [← h]
  | cons w ws ih =>
    intro p p1 h
    simp only [task_pool.run_workers] at h
    cases h1 : p.run_worker w with
    | error x => simp [h1, Except.bind] at h
    | ok p2 =>
      simp only [h1, Except.bind] at h
      rw [ih _ _ h, task_pool.run_worker_rangeRunning _ _ _ h1]

/-- C14 (evaluation at the failing input): on a pool of two cores without workers,
`parallel_for(0, 2, cb)` with a callback that throws on the partition starting at `0`
ends in `std::terminate` when `wait()` rethrows inside the `noexcept` function, and
`rangeRunning` is still `true` at that moment. -/
theorem task_pool.parallel_for_throw_keeps_rangeRunning :
    ((task_pool.parallel_for ⟨⟨2, false⟩, [], 15⟩ 0 2
        ⟨1, fun s _ => if s = 0 then some (.other 7) else none⟩ none (fun _ => false)).map
      fun r => (r.1.rangeRunning, r.2)) = .ok (true, .terminated (.other 7)) := by
  decide

/-- What the code does about `rangeRunning`: `parallel_for` entered with
`rangeRunning == true` fails its assertion; whenever it returns, `rangeRunning` is
`false`; and when an exception of a partition surfaces from `wait()` after the
dispatch (more than one core and a range longer than one), the call does not return
and `rangeRunning` is still `true`. -/
theorem task_pool.parallel_for_rangeRunning (p : task_pool) (rangeStart rangeEnd : Int)
    (rangeTask : action) (tracer : Option String) (early : Nat → Bool) :
    (p.rangeRunning = true →
      p.parallel_for rangeStart rangeEnd rangeTask tracer early = .error .assertion) ∧
    (∀ p1, p.parallel_for rangeStart rangeEnd rangeTask tracer early = .ok (p1, .returned) →
      p1.rangeRunning = false) ∧
    (∀ p1 e,
      p.parallel_for rangeStart rangeEnd rangeTask tracer early = .ok (p1, .terminated e) →
      1 < p.coreCount → 1 < wrap_int (rangeEnd - rangeStart) → p1.rangeRunning = true) := by
  refine ⟨?_, ?_, ?_⟩
  · intro h
    unfold task_pool.parallel_for
    rw [if_pos h]
  · intro p1 h
    unfold task_pool.parallel_for at h
    simp only at h
    generalize wrap_int (rangeEnd - rangeStart) = range at h
    generalize (if range < p.coreCount then range else p.coreCount) = cores at h
    generalize wrap_int (Int.tdiv range cores) = len at h
    by_cases hr : p.rangeRunning = true
    · rw [if_pos hr] at h
      cases h
    · rw [if_neg hr] at h
      have hr0 : p.rangeRunning = false := by simpa using hr
      by_cases hcc : ¬ (p.coreCount > 0)
      · rw [if_pos hcc] at h
        cases h
      · rw [if_neg hcc] at h
        by_cases h0 : range ≤ 0
        · rw [if_pos h0] at h
          simp only [Except.ok.injEq, Prod.mk.injEq] at h
          rw [← h.1]
          exact hr0
        · rw [if_neg h0] at h
          by_cases h1 : cores ≤ 1
          · rw [if_pos h1] at h
            split at h
            · simp at h
            · simp only [Except.ok.injEq, Prod.mk.injEq] at h
              rw [← h.1]
              exact hr0
          · rw [if_neg h1] at h
            cases hd : task_pool.dispatch cores len rangeEnd rangeTask tracer early
                (List.range cores.toNat) ({ p with rangeRunning := true }, 0, []) with
            | error x =>
              rw [hd] at h
              cases h
            | ok st =>
              rw [hd] at h
              simp only [Except.bind] at h
              cases hw : task_pool.run_workers st.2.2 st.1 with
              | error x =>
                rw [hw] at h
                cases h
              | ok p2 =>
                rw [hw] at h
                simp only [Except.map, Except.ok.injEq] at h
                split at h
                · simp only [Prod.mk.injEq] at h
                  rw [← h.1]
                · rename_i other hne
                  simp only [Prod.mk.injEq] at h
                  exact absurd h.2 hne
  · intro p1 e h hcore hrange
    unfold task_pool.parallel_for at h
    simp only at h
    generalize wrap_int (rangeEnd - rangeStart) = range at h hrange
    have hc : ¬ ((if range < p.coreCount then range else p.coreCount) ≤ 1) := by
      split <;> omega
    generalize (if range < p.coreCount then range else p.coreCount) = cores at h hc
    generalize wrap_int (Int.tdiv range cores) = len at h
    by_cases hr : p.rangeRunning = true
    · rw [if_pos hr] at h
      cases h
    · rw [if_neg hr] at h
      by_cases hcc : ¬ (p.coreCount > 0)
      · rw [if_pos hcc] at h
        cases h
      · rw [if_neg hcc, if_neg (by omega), if_neg hc] at h
        cases hd : task_pool.dispatch cores len rangeEnd rangeTask tracer early
            (List.range cores.toNat) ({ p with rangeRunning := true }, 0, []) with
        | error x =>
          rw [hd] at h
          cases h
        | ok st =>
          have e1 := task_pool.dispatch_rangeRunning _ _ _ _ _ _ _ _ _ hd
          rw [hd] at h
          simp only [Except.bind] at h
          cases hw : task_pool.run_workers st.2.2 st.1 with
          | error x =>
            rw [hw] at h
            cases h
          | ok p2 =>
            have e2 := task_pool.run_workers_rangeRunning _ _ _ hw
            rw [hw] at h
            simp only [Except.map, Except.ok.injEq] at h
            split at h
            · simp at h
            · simp only [Prod.mk.injEq] at h
              rw [← h.1, e2, e1]

/-- A pool of two cores: entered with `rangeRunning` set; returning after two
partitions that do not throw; and terminated by the exception of the first of two
partitions. -/
theorem task_pool.parallel_for_rangeRunning_witness :
    (task_pool.parallel_for ⟨⟨2, true⟩, [], 15⟩ 0 2 ⟨1, fun _ _ => none⟩ none
        (fun _ => false) = .error .assertion) ∧
    (⟨⟨2, false⟩,
        [{ pool_task.new with rangeEnd := 1 },
         { pool_task.new with rangeStart := 1, rangeEnd := 2 }], 15⟩ :
      task_pool).rangeRunning = false ∧
    (⟨⟨2, true⟩,
        [{ pool_task.new with rangeEnd := 1, error := some (.other 7) },
         { pool_task.new with rangeStart := 1, rangeEnd := 2 }], 15⟩ :
      task_pool).rangeRunning = true :=
  ⟨(task_pool.parallel_for_rangeRunning ⟨⟨2, true⟩, [], 15⟩ 0 2 ⟨1, fun _ _ => none⟩ none
      (fun _ => false)).1 rfl,
   (task_pool.parallel_for_rangeRunning ⟨⟨2, false⟩, [], 15⟩ 0 2 ⟨1, fun _ _ => none⟩ none
      (fun _ => false)).2.1
      ⟨⟨2, false⟩,
        [{ pool_task.new with rangeEnd := 1 },
         { pool_task.new with rangeStart := 1, rangeEnd := 2 }], 15⟩ rfl,
   (task_pool.parallel_for_rangeRunning ⟨⟨2, false⟩, [], 15⟩ 0 2
      ⟨1, fun s _ => if s = 0 then some (.other 7) else none⟩ none (fun _ => false)).2.2
      ⟨⟨2, true⟩,
        [{ pool_task.new with rangeEnd := 1, error := some (.other 7) },
         { pool_task.new with rangeStart := 1, rangeEnd := 2 }], 15⟩
      (.other 7) rfl (by decide) (by decide)⟩

/-! ## kill and join_or_detach -/

/-- C21: `kill` on a worker whose `killed` flag is set returns `finished` for every
timeout. Otherwise it stores `killed = true` and returns exactly what the nothrow
wait returns; as that wait finds `killed` set, it returns `finished` at once.
`join_or_detach` returns its argument unchanged and leaves the handle non-joinable;
a joinable handle is detached when the result is `timeout` or the caller is the
worker's own thread and joined otherwise. -/
theorem pool_task.kill_returns_wait_result (t : pool_task) (timeoutMillis : Int)
    (timed_out on_worker_thread : Bool) :
    (t.killed = true →
      ∃ t1 op, t.kill timeoutMillis timed_out on_worker_thread = some (t1, .finished, op) ∧
        t1.killed = true) ∧
    (t.killed = false →
      (∀ t1 r, pool_task.wait_nothrow { t with killed := true } timeoutMillis timed_out
          = some (t1, r) →
        ∃ t2 op, t.kill timeoutMillis timed_out on_worker_thread = some (t2, r, op) ∧
          t2.killed = true) ∧
      (∃ t2 op, t.kill timeoutMillis timed_out on_worker_thread = some (t2, .finished, op) ∧
        t2.killed = true)) ∧
    (∀ result : wait_result,
      (t.join_or_detach result on_worker_thread).2.1 = result ∧
      (t.join_or_detach result on_worker_thread).1.joinable = false ∧
      (t.joinable = true → (result = .timeout ∨ on_worker_thread = true) →
        (t.join_or_detach result on_worker_thread).2.2 = .detached) ∧
      (t.joinable = true → result = .finished → on_worker_thread = false →
        (t.join_or_detach result on_worker_thread).2.2 = .joined) ∧
      (t.joinable = false →
        (t.join_or_detach result on_worker_thread).2.2 = .nothing)) := by
  have hj : ∀ (u : pool_task) (result : wait_result),
      (u.join_or_detach result on_worker_thread).2.1 = result ∧
      (u.join_or_detach result on_worker_thread).1.killed = u.killed := by
    intro u result
    unfold pool_task.join_or_detach
    split
    · split
      · exact ⟨rfl, rfl⟩
      · split <;> exact ⟨rfl, rfl⟩
    · exact ⟨rfl, rfl⟩
  have hj3 : ∀ (u : pool_task) (result : wait_result),
      u.join_or_detach result on_worker_thread
        = ((u.join_or_detach result on_worker_thread).1, result,
            (u.join_or_detach result on_worker_thread).2.2) := by
    intro u result
    unfold pool_task.join_or_detach
    split
    · split
      · rfl
      · split <;> rfl
    · rfl
  refine ⟨?_, ?_, ?_⟩
  · intro hk
    refine ⟨(t.join_or_detach .finished on_worker_thread).1,
      (t.join_or_detach .finished on_worker_thread).2.2, ?_, ?_⟩
    · unfold pool_task.kill
      rw [if_pos hk]
      exact congrArg some (hj3 t .finished)
    · rw [(hj t .finished).2]
      exact hk
  · intro hk
    have hne : ¬ (t.killed = true) := by simp [hk]
    refine ⟨?_, ?_⟩
    · intro t1 r hw
      refine ⟨(t1.join_or_detach r on_worker_thread).1,
        (t1.join_or_detach r on_worker_thread).2.2, ?_, ?_⟩
      · unfold pool_task.kill
        rw [if_neg hne, hw]
        exact congrArg some (hj3 t1 r)
      · rw [(hj t1 r).2]
        unfold pool_task.wait_nothrow at hw
        simp at hw
        rw [← hw.1]
    · refine ⟨(pool_task.join_or_detach { t with killed := true } .finished
          on_worker_thread).1,
        (pool_task.join_or_detach { t with killed := true } .finished
          on_worker_thread).2.2, ?_, ?_⟩
      · unfold pool_task.kill
        rw [if_neg hne]
        have hw : pool_task.wait_nothrow { t with killed := true } timeoutMillis timed_out
            = some ({ t with killed := true }, .finished) := by
          simp [pool_task.wait_nothrow]
        rw [hw]
        exact congrArg some (hj3 _ .finished)
      · rw [(hj _ .finished).2]
  · intro result
    refine ⟨(hj t result).1, ?_, ?_, ?_, ?_⟩
    · unfold pool_task.join_or_detach
      split
      · split
        · rfl
        · split <;> rfl
      · rename_i h
        simpa using h
    · intro hjoin hor
      unfold pool_task.join_or_detach
      rw [if_pos hjoin]
      rcases hor with h | h
      · rw [if_pos h]
      · split
        · rfl
        · simp only [h, if_true]
    · intro hjoin hres hown
      unfold pool_task.join_or_detach
      rw [if_pos hjoin, if_neg (by rw [hres]; decide), if_neg (by simp [hown])]
    · intro hjoin
      unfold pool_task.join_or_detach
      rw [if_neg (by simp [hjoin])]

/-- C21 at a running worker killed from another thread, at an already killed worker,
and at a worker that kills itself. -/
theorem pool_task.kill_returns_wait_result_witness :
    (∃ t2 op, pool_task.kill { pool_task.new with taskRunning := true } 100 true false
        = some (t2, .finished, op) ∧ t2.killed = true) ∧
    (∃ t1 op, pool_task.kill { pool_task.new with killed := true } 100 true false
        = some (t1, .finished, op) ∧ t1.killed = true) ∧
    (pool_task.new.join_or_detach .timeout false).2.2 = .detached ∧
    (pool_task.new.join_or_detach .finished false).2.2 = .joined :=
  ⟨((pool_task.kill_returns_wait_result { pool_task.new with taskRunning := true } 100 true
      false).2.1 rfl).2,
   (pool_task.kill_returns_wait_result { pool_task.new with killed := true } 100 true
      false).1 rfl,
   ((pool_task.kill_returns_wait_result pool_task.new 0 false false).2.2 .timeout).2.2.1 rfl
      (Or.inl rfl),
   ((pool_task.kill_returns_wait_result pool_task.new 0 false false).2.2 .finished).2.2.2.1
      rfl rfl rfl⟩

/-! ## The idle wait of a worker -/

/-- The test `maxIdleTime > 0.000001f` compares with the `float` constant, which is
`8796093 / 2^43`. -/
theorem pool_task.idle_time_set_iff (t : pool_task) :
    t.idle_time_set = true ↔ (8796093 : Rat) / 8796093022208 < t.maxIdleTime := by
  unfold pool_task.idle_time_set
  rw [decide_eq_true_iff]
  have hd : (0 : Rat) < (t.maxIdleTime.den : Rat) := by
    exact_mod_cast t.maxIdleTime.den_pos
  conv_rhs => rw [← Rat.num_div_den t.maxIdleTime]
  rw [div_lt_div_iff₀ (by norm_num) hd]
  constructor
  · intro h
    have h2 : ((8796093 * (t.maxIdleTime.den : Int) : Int) : Rat)
        < ((t.maxIdleTime.num * 8796093022208 : Int) : Rat) := by
      exact_mod_cast h
    push_cast at h2
    exact h2
  · intro h
    have h2 : ((8796093 * (t.maxIdleTime.den : Int) : Int) : Rat)
        < ((t.maxIdleTime.num * 8796093022208 : Int) : Rat) := by
      push_cast
      exact h
    exact_mod_cast h2

theorem pool_task.wait_for_task_loop_sleep (t : pool_task) (hk : t.killed = false)
    (hg : t.got_task = false) (hi : t.idle_time_set = false) (w : pool_task.wakeup)
    (rest : List pool_task.wakeup) :
    pool_task.wait_for_task_loop (w :: rest) t = pool_task.wait_for_task_loop rest w.seen := by
  have hd : t.wait_for_task = .sleep := by
    simp [pool_task.wait_for_task, hk, hg, hi]
  rw [pool_task.wait_for_task_loop, hd]

theorem pool_task.wait_for_task_loop_blocked (t : pool_task) (hk : t.killed = false)
    (hg : t.got_task = false) (hi : t.idle_time_set = false) :
    pool_task.wait_for_task_loop [] t = none := by
  have hd : t.wait_for_task = .sleep := by
    simp [pool_task.wait_for_task, hk, hg, hi]
  rw [pool_task.wait_for_task_loop, hd]

/-- A worker whose idle time is not above the threshold gives up only when it finds
`killed` set. -/
theorem pool_task.wait_for_task_loop_untimed (wakes : List pool_task.wakeup) :
    ∀ (t t1 : pool_task), t.idle_time_set = false →
      (∀ w ∈ wakes, w.seen.idle_time_set = false) →
      pool_task.wait_for_task_loop wakes t = some (t1, false) → t1.killed = true := by
  induction wakes with
  | nil =>
    intro t t1 hi _ h
    rw [pool_task.wait_for_task_loop] at h
    unfold pool_task.wait_for_task at h
    by_cases hk : t.killed = true
    · simp only [hk, if_true, Option.some.injEq, Prod.mk.injEq] at h
      rw [← h.1]
      exact hk
    · by_cases hg : t.got_task = true
      · simp [hk, hg] at h
      · simp [hk, hg, hi] at h
  | cons w rest ih =>
    intro t t1 hi hall h
    rw [pool_task.wait_for_task_loop] at h
    unfold pool_task.wait_for_task at h
    by_cases hk : t.killed = true
    · simp only [hk, if_true, Option.some.injEq, Prod.mk.injEq] at h
      rw [← h.1]
      exact hk
    · by_cases hg : t.got_task = true
      · simp [hk, hg] at h
      · simp only [hk, hg, hi, if_false, Bool.false_eq_true] at h
        exact ih w.seen t1 (hall w (List.mem_cons_self _ _))
          (fun v hv => hall v (List.mem_cons_of_mem _ hv)) h

/-- C22 (counterexample): a worker whose idle time is `2^-21` seconds (a positive
`float`, below the threshold `0.000001f`) and that is not killed and has no task
blocks in the untimed `cv.wait`; however often it is woken without a task, it never
returns from `wait_for_task`, so idleness never ends it. -/
theorem pool_task.tiny_idle_time_waits_forever :
    (0 : Rat) < (pool_task.new.max_idle_time (Rat.divInt 1 2097152)).maxIdleTime ∧
    (pool_task.new.max_idle_time (Rat.divInt 1 2097152)).wait_for_task = .sleep ∧
    ∀ n : Nat, pool_task.wait_for_task_loop
      (List.replicate n ⟨pool_task.new.max_idle_time (Rat.divInt 1 2097152), true⟩)
      (pool_task.new.max_idle_time (Rat.divInt 1 2097152)) = none := by
  have hi : (pool_task.new.max_idle_time (Rat.divInt 1 2097152)).idle_time_set = false := by
    have h := pool_task.idle_time_set_iff (pool_task.new.max_idle_time (Rat.divInt 1 2097152))
    have hlt : ¬ ((8796093 : Rat) / 8796093022208
        < (pool_task.new.max_idle_time (Rat.divInt 1 2097152)).maxIdleTime) := by
      show ¬ ((8796093 : Rat) / 8796093022208 < Rat.divInt 1 2097152)
      rw [Rat.divInt_eq_div]
      norm_num
    cases hb : (pool_task.new.max_idle_time (Rat.divInt 1 2097152)).idle_time_set with
    | false => rfl
    | true => exact absurd (h.mp hb) hlt
  refine ⟨?_, ?_, ?_⟩
  · show (0 : Rat) < Rat.divInt 1 2097152
    rw [Rat.divInt_eq_div]
    norm_num
  · unfold pool_task.wait_for_task
    rw [hi]
    rfl
  · intro n
    induction n with
    | zero =>
      exact pool_task.wait_for_task_loop_blocked
        (pool_task.new.max_idle_time (Rat.divInt 1 2097152)) rfl rfl hi
    | succ n ih =>
      rw [List.replicate_succ, pool_task.wait_for_task_loop_sleep
        (pool_task.new.max_idle_time (Rat.divInt 1 2097152)) rfl rfl hi]
      exact ih

/-- C22 (as the code behaves): a worker in its waiting state (not killed, no task)
whose idle time is above `0.000001f` waits with a timeout; when that wait times out
and there is still no task, `wait_for_task` returns `false` and the worker stores
`killed = true` and leaves its loop, while a task found at the re-check is consumed
and invoked instead. A worker whose idle time is at most `0.000001f`, `0` included,
waits without a timeout and gives up only when it finds `killed` set. -/
theorem pool_task.idle_worker_times_out (t : pool_task) (hk : t.killed = false)
    (hg : t.got_task = false) :
    ((8796093 : Rat) / 8796093022208 < t.maxIdleTime →
      ∀ (w : pool_task.wakeup) (rest : List pool_task.wakeup), w.timed_out = true →
        (w.seen.got_task = false →
          pool_task.wait_for_task_loop (w :: rest) t = some (w.seen, false) ∧
          ∃ r, t.run_waking (w :: rest) = some (.ok r) ∧ r.exited = true ∧
            r.invoked = none ∧ r.task.killed = true ∧ r.task.running = false) ∧
        (w.seen.got_task = true →
          pool_task.wait_for_task_loop (w :: rest) t = some (w.seen, true) ∧
          ∃ r, t.run_waking (w :: rest) = some (.ok r) ∧ r.exited = false ∧
            r.invoked.isSome = true ∧ r.task.got_task = false)) ∧
    (t.maxIdleTime ≤ (8796093 : Rat) / 8796093022208 →
      ∀ (wakes : List pool_task.wakeup) (t1 : pool_task),
        (∀ w ∈ wakes, w.seen.maxIdleTime = t.maxIdleTime) →
        pool_task.wait_for_task_loop wakes t = some (t1, false) → t1.killed = true) := by
  refine ⟨?_, ?_⟩
  · intro hidle w rest hto
    have hi : t.idle_time_set = true := (pool_task.idle_time_set_iff t).mpr hidle
    have hd : t.wait_for_task = .sleep_timed := by
      simp [pool_task.wait_for_task, hk, hg, hi]
    have hloop : pool_task.wait_for_task_loop (w :: rest) t
        = some (w.seen, w.seen.got_task) := by
      rw [pool_task.wait_for_task_loop, hd]
      simp only [hto, if_true]
    refine ⟨?_, ?_⟩
    · intro hno
      refine ⟨by rw [hloop, hno], ?_⟩
      refine ⟨⟨{ w.seen with killed := true, taskRunning := false }, none, true⟩, ?_, rfl, rfl,
        rfl, rfl⟩
      unfold pool_task.run_waking
      rw [hloop, hno]
    · intro hyes
      refine ⟨by rw [hloop, hyes], ?_⟩
      have hrun : t.run_waking (w :: rest) = some w.seen.run_task := by
        unfold pool_task.run_waking
        rw [hloop, hyes]
      rw [hrun]
      unfold pool_task.got_task at hyes
      unfold pool_task.run_task
      cases hr : w.seen.rangeTask with
      | some range =>
        exact ⟨_, rfl, rfl, rfl, by
          simp only [pool_task.unhandled_exception]
          split <;> rfl⟩
      | none =>
        cases hgn : w.seen.genericTask with
        | some generic =>
          exact ⟨_, rfl, rfl, rfl, by
            simp only [pool_task.unhandled_exception]
            split <;> rfl⟩
        | none => simp [hr, hgn] at hyes
  · intro hle wakes t1 hall h
    have hoff : ∀ u : pool_task, u.maxIdleTime = t.maxIdleTime → u.idle_time_set = false := by
      intro u hu
      cases hb : u.idle_time_set with
      | false => rfl
      | true =>
        have := (pool_task.idle_time_set_iff u).mp hb
        rw [hu] at this
        exact absurd this (not_lt.mpr hle)
    exact pool_task.wait_for_task_loop_untimed wakes t t1 (hoff t rfl)
      (fun w hw => hoff w.seen (hall w hw)) h

/-- C22 at a fresh worker (idle time 15 seconds) whose timed wait runs into its
timeout without a task, and at a worker with idle time `0`. -/
theorem pool_task.idle_worker_times_out_witness :
    (pool_task.wait_for_task_loop [⟨pool_task.new, true⟩] pool_task.new
        = some (pool_task.new, false) ∧
      ∃ r, pool_task.new.run_waking [⟨pool_task.new, true⟩] = some (.ok r) ∧
        r.exited = true ∧ r.invoked = none ∧ r.task.killed = true ∧
        r.task.running = false) ∧
    (∀ t1 : pool_task,
      pool_task.wait_for_task_loop [] (pool_task.new.max_idle_time 0) = some (t1, false) →
      t1.killed = true) :=
  ⟨((pool_task.idle_worker_times_out pool_task.new rfl rfl).1
      (by show (8796093 : Rat) / 8796093022208 < 15; norm_num)
      ⟨pool_task.new, true⟩ [] rfl).1 rfl,
   fun t1 => (pool_task.idle_worker_times_out (pool_task.new.max_idle_time 0) rfl rfl).2
      (by show (0 : Rat) ≤ 8796093 / 8796093022208; norm_num) [] t1 (by simp)⟩

/-! ## The typed integer writers -/

theorem le_bytes_length (k v : Nat) : (le_bytes k v).length = k := by
  simp [le_bytes]

theorem le_bytes_succ (k v : Nat) :
    le_bytes (k + 1) v = le_bytes k v ++ [Fin.ofNat (v / 256 ^ k % 256)] := by
  simp [le_bytes, List.range_succ]

theorem le_value_append (xs : List byte) (b : byte) :
    le_value (xs ++ [b]) = le_value xs + 256 ^ xs.length * b.val := by
  induction xs with
  | nil => simp [le_value]
  | cons x xs ih =>
    show le_value (x :: (xs ++ [b])) = le_value (x :: xs) + 256 ^ (xs.length + 1) * b.val
    simp only [le_value]
    rw [ih, pow_succ]
    ring

/-- The bytes `le_bytes k v` denote `v` modulo `256 ^ k` in little-endian order. -/
theorem le_value_le_bytes (k v : Nat) : le_value (le_bytes k v) = v % 256 ^ k := by
  induction k with
  | zero => simp [le_bytes, le_value, Nat.mod_one]
  | succ k ih =>
    have hb : ((Fin.ofNat (v / 256 ^ k % 256) : byte)).val = v / 256 ^ k % 256 := by
      show v / 256 ^ k % 256 % 256 = v / 256 ^ k % 256
      exact Nat.mod_mod _ _
    rw [le_bytes_succ, le_value_append, ih, le_bytes_length, hb, Nat.mod_pow_succ]

/-- Each typed writer is the typed write of the little-endian bytes of the value's
two's-complement bit pattern, which is below `256 ^ sizeof`. -/
theorem int_type.write_eq {σ : Type} [write_impl σ] (ty : int_type) (w : σ) (value : Int)
    (hv : ty.holds value) :
    ty.write w value
      = write_impl.write_pod w (le_bytes ty.sizeof (twos_complement (8 * ty.sizeof) value)) ∧
    twos_complement (8 * ty.sizeof) value < 256 ^ ty.sizeof := by
  cases ty <;>
    simp only [int_type.holds, int_type.signed, int_type.sizeof, if_true, if_false,
      Bool.false_eq_true, Nat.reduceMul, Nat.reduceSub, Nat.reducePow, Int.reducePow,
      Int.reduceNeg] at hv <;>
    simp only [int_type.write, int_type.sizeof, binary_writer.write_byte,
      binary_writer.write_short, binary_writer.write_ushort, binary_writer.write_int,
      binary_writer.write_uint, binary_writer.write_int64, binary_writer.write_uint64,
      twos_complement, Nat.reduceMul, Nat.reducePow, Int.reducePow] <;>
    refine ⟨?_, ?_⟩ <;>
    (congr 2; split <;> omega)

theorem buffer_write.growing_pod_appends (s : buffer_write) (data : List byte)
    (hwf : s.wf) (h : s.Cap + data.length ≤ 4294966272) :
    ∃ s' : buffer_write, write_impl.write_pod s data = .ok s' ∧
      contents s' = contents s ++ data := by
  obtain ⟨s1, hw, _, _, hreg, _⟩ := buffer_write.growing_write_ok s data hwf h
  exact ⟨s1, hw, hreg⟩

theorem array_write.fixed_pod_appends {Max : Nat} (s : array_write Max) (data : List byte)
    (hwf : s.wf) (hM : Max < 4294967296) (h : s.Pos + data.length ≤ Max) :
    ∃ s' : array_write Max, write_impl.write_pod s data = .ok s' ∧
      contents s' = contents s ++ data := by
  obtain ⟨s1, hw, _, _, hreg⟩ := array_write.fixed_write_ok s data hwf hM h
  refine ⟨s1, ?_, hreg⟩
  show s.write_pod data = .ok s1
  rw [array_write.write_pod_eq s data (by omega)]
  exact hw

theorem view_write.view_pod_appends (s : view_write) (data : List byte)
    (hwf : s.wf) (hM : s.Max < 4294967296) (h : s.Pos + data.length ≤ s.Max) :
    ∃ s' : view_write, write_impl.write_pod s data = .ok s' ∧
      contents s' = contents s ++ data := by
  obtain ⟨s1, hw, _, _, _, hreg⟩ := view_write.view_write_ok s data hwf hM h
  refine ⟨s1, ?_, hreg⟩
  show s.write_pod data = .ok s1
  rw [view_write.view_write_pod_eq s data (by omega)]
  exact hw

/-- C24: for every value of an 8/16/32/64-bit signed or unsigned integer type, the
typed writer of that type (`write_byte`, `write_short`, `write_ushort`, `write_int`,
`write_uint`, `write_int64`, `write_uint64`) on an in-memory sink with room for the
value returns; the bytes written so far stay as they are and are followed by exactly
`sizeof` new bytes, which denote in little-endian order the value itself when it is
not negative and its two's-complement bit pattern when it is. -/
theorem typed_write_little_endian (ty : int_type) (value : Int) (hv : ty.holds value) :
    (∀ s : buffer_write, s.wf → s.Cap + ty.sizeof ≤ 4294966272 →
      ∃ (s' : buffer_write) (bytes : List byte), ty.write s value = .ok s' ∧
        contents s' = contents s ++ bytes ∧ bytes.length = ty.sizeof ∧
        le_value bytes = twos_complement (8 * ty.sizeof) value) ∧
    (∀ (Max : Nat) (s : array_write Max), s.wf → Max < 4294967296 →
      s.Pos + ty.sizeof ≤ Max →
      ∃ (s' : array_write Max) (bytes : List byte), ty.write s value = .ok s' ∧
        contents s' = contents s ++ bytes ∧ bytes.length = ty.sizeof ∧
        le_value bytes = twos_complement (8 * ty.sizeof) value) ∧
    (∀ s : view_write, s.wf → s.Max < 4294967296 → s.Pos + ty.sizeof ≤ s.Max →
      ∃ (s' : view_write) (bytes : List byte), ty.write s value = .ok s' ∧
        contents s' = contents s ++ bytes ∧ bytes.length = ty.sizeof ∧
        le_value bytes = twos_complement (8 * ty.sizeof) value) := by
  have hlen := le_bytes_length ty.sizeof (twos_complement (8 * ty.sizeof) value)
  have hval : le_value (le_bytes ty.sizeof (twos_complement (8 * ty.sizeof) value))
      = twos_complement (8 * ty.sizeof) value := by
    rw [le_value_le_bytes]
    exact Nat.mod_eq_of_lt (int_type.write_eq ty buffer_write.new value hv).2
  refine ⟨?_, ?_, ?_⟩
  · intro s hwf hroom
    obtain ⟨s1, hw, hc⟩ := buffer_write.growing_pod_appends s
      (le_bytes ty.sizeof (twos_complement (8 * ty.sizeof) value)) hwf (by rw [hlen]; exact hroom)
    exact ⟨s1, _, by rw [(int_type.write_eq ty s value hv).1]; exact hw, hc, hlen, hval⟩
  · intro Max s hwf hM hroom
    obtain ⟨s1, hw, hc⟩ := array_write.fixed_pod_appends s
      (le_bytes ty.sizeof (twos_complement (8 * ty.sizeof) value)) hwf hM
      (by rw [hlen]; exact hroom)
    exact ⟨s1, _, by rw [(int_type.write_eq ty s value hv).1]; exact hw, hc, hlen, hval⟩
  · intro s hwf hM hroom
    obtain ⟨s1, hw, hc⟩ := view_write.view_pod_appends s
      (le_bytes ty.sizeof (twos_complement (8 * ty.sizeof) value)) hwf hM
      (by rw [hlen]; exact hroom)
    exact ⟨s1, _, by rw [(int_type.write_eq ty s value hv).1]; exact hw, hc, hlen, hval⟩

/-- C24 at `write_int(-2)` on a fresh Growing sink and `write_ushort(513)` on a
`FixedArray<16>`. -/
theorem typed_write_little_endian_witness :
    (∃ (s' : buffer_write) (bytes : List byte),
      int_type.int.write buffer_write.new (-2) = .ok s' ∧
      contents s' = contents buffer_write.new ++ bytes ∧ bytes.length = 4 ∧
      le_value bytes = twos_complement 32 (-2)) ∧
    (∃ (s' : array_write 16) (bytes : List byte),
      int_type.ushort.write (array_write.new 16) 513 = .ok s' ∧
      contents s' = contents (array_write.new 16) ++ bytes ∧ bytes.length = 2 ∧
      le_value bytes = twos_complement 16 513) :=
  ⟨(typed_write_little_endian .int (-2)
      (by norm_num [int_type.holds, int_type.signed, int_type.sizeof])).1 buffer_write.new
      buffer_write.growing_wf_new (by decide),
   (typed_write_little_endian .ushort 513
      (by norm_num [int_type.holds, int_type.signed, int_type.sizeof])).2.1 16 (array_write.new 16)
      (array_write.fixed_wf_new 16) (by decide) (by decide)⟩

/-! ## Strings and vectors -/

theorem buffer_write.growing_count_then_data (s : buffer_write) (d1 d2 : List byte)
    (hd1 : d1.length = 2) (hwf : s.wf) (hroom : s.Cap + (2 + d2.length) ≤ 4294965248) :
    ∃ s1 s2 : buffer_write, write_impl.write_pod s d1 = .ok s1 ∧
      write_impl.write s1 d2 = .ok s2 ∧ contents s2 = contents s ++ d1 ++ d2 ∧
      write_impl.size s2 = write_impl.size s + (2 + d2.length) := by
  obtain ⟨s1, hw1, hwf1, hpos1, hreg1, hcap1⟩ := buffer_write.growing_write_ok s d1 hwf
    (by omega)
  rw [hd1] at hpos1 hcap1
  have hc1 : s1.Cap ≤ s.Cap + 2 + 1023 := by
    rcases hcap1 with ⟨hc, _⟩ | ⟨hc, _⟩
    · omega
    · obtain ⟨_, _, hub⟩ := grown_cap_spec s.Cap 2 (by omega)
      omega
  obtain ⟨s2, hw2, _, hpos2, hreg2, _⟩ := buffer_write.growing_write_ok s1 d2 hwf1 (by omega)
  refine ⟨s1, s2, hw1, hw2, ?_, ?_⟩
  · show region s2.Buf s2.Pos = region s.Buf s.Pos ++ d1 ++ d2
    rw [hreg2, hreg1]
  · show s2.Pos = s.Pos + (2 + d2.length)
    omega

theorem array_write.fixed_count_then_data {Max : Nat} (s : array_write Max)
    (d1 d2 : List byte) (hd1 : d1.length = 2) (hwf : s.wf) (hM : Max < 4294967296)
    (hroom : s.Pos + (2 + d2.length) ≤ Max) :
    ∃ s1 s2 : array_write Max, write_impl.write_pod s d1 = .ok s1 ∧
      write_impl.write s1 d2 = .ok s2 ∧ contents s2 = contents s ++ d1 ++ d2 ∧
      write_impl.size s2 = write_impl.size s + (2 + d2.length) := by
  obtain ⟨s1, hw1, hwf1, hpos1, hreg1⟩ := array_write.fixed_write_ok s d1 hwf hM (by omega)
  rw [hd1] at hpos1
  obtain ⟨s2, hw2, _, hpos2, hreg2⟩ := array_write.fixed_write_ok s1 d2 hwf1 hM (by omega)
  refine ⟨s1, s2, ?_, hw2, ?_, ?_⟩
  · show s.write_pod d1 = .ok s1
    rw [array_write.write_pod_eq s d1 (by omega)]
    exact hw1
  · show s2.Buf.take s2.Pos = s.Buf.take s.Pos ++ d1 ++ d2
    rw [hreg2, hreg1]
  · show s2.Pos = s.Pos + (2 + d2.length)
    omega

theorem view_write.view_count_then_data (s : view_write) (d1 d2 : List byte)
    (hd1 : d1.length = 2) (hwf : s.wf) (hM : s.Max < 4294967296)
    (hroom : s.Pos + (2 + d2.length) ≤ s.Max) :
    ∃ s1 s2 : view_write, write_impl.write_pod s d1 = .ok s1 ∧
      write_impl.write s1 d2 = .ok s2 ∧ contents s2 = contents s ++ d1 ++ d2 ∧
      write_impl.size s2 = write_impl.size s + (2 + d2.length) := by
  obtain ⟨s1, hw1, hwf1, hmax1, hpos1, hreg1⟩ := view_write.view_write_ok s d1 hwf hM
    (by omega)
  rw [hd1] at hpos1
  obtain ⟨s2, hw2, _, _, hpos2, hreg2⟩ :=
    view_write.view_write_ok s1 d2 hwf1 (by omega) (by omega)
  refine ⟨s1, s2, ?_, hw2, ?_, ?_⟩
  · show s.write_pod d1 = .ok s1
    rw [view_write.view_write_pod_eq s d1 (by omega)]
    exact hw1
  · show region s2.Buf s2.Pos = region s.Buf s.Pos ++ d1 ++ d2
    rw [hreg2, hreg1]
  · show s2.Pos = s.Pos + (2 + d2.length)
    omega

theorem wrap_int_mod_ushort (n : Nat) : (wrap_int n % 65536).toNat = n % 65536 := by
  unfold wrap_int
  omega

theorem wrap_uint_wrap_int_mul (n c : Nat) (h : n * c < 4294967296) :
    wrap_uint (wrap_int n * c) = n * c := by
  have hk : wrap_int n = (n : Int) - 4294967296 * (((n : Int) + 2147483648) / 4294967296) := by
    unfold wrap_int
    omega
  have he : wrap_int n * (c : Int)
      = ((n * c : Nat) : Int) + 4294967296 * (-((((n : Int) + 2147483648) / 4294967296) * c)) := by
    rw [hk]
    push_cast
    ring
  unfold wrap_uint
  rw [he, Int.add_mul_emod_self_left]
  omega

theorem flatten_repr_length {T : Type} (repr : T → List byte) (c : Nat) (vec : List T)
    (hrepr : ∀ x ∈ vec, (repr x).length = c) :
    ((vec.map repr).flatten).length = vec.length * c := by
  induction vec with
  | nil => simp
  | cons x xs ih =>
    have h1 := hrepr x (List.mem_cons_self _ _)
    have h2 := ih (fun y hy => hrepr y (List.mem_cons_of_mem _ hy))
    simp only [List.map_cons, List.flatten_cons, List.length_append, List.length_cons, h1, h2]
    ring

/-- While `len * sizeof(Char)` fits in a `uint`, `write` of a string is the typed
write of the count modulo `65536` followed by the write of all character bytes. -/
theorem binary_writer.write_string_steps {σ : Type} [write_impl σ] (w w1 w2 : σ) (c : Nat)
    (str : List byte) (len : Nat) (hc : len * c < 4294967296) (hstr : str.length = len * c)
    (h1 : write_impl.write_pod w (le_bytes 2 (len % 65536)) = .ok w1)
    (h2 : write_impl.write w1 str = .ok w2) :
    binary_writer.write_string w c str len = .ok w2 := by
  have e3 : str.take (len * c) = str := List.take_of_length_le (by omega)
  unfold binary_writer.write_string binary_writer.write_nstr binary_writer.write_ushort
  rw [wrap_int_mod_ushort, wrap_uint_wrap_int_mul len c hc, e3, h1]
  exact h2

/-- While `sizeof(T) * count` fits in a `uint`, `write` of a vector of POD elements
is the typed write of the count modulo `65536` followed by the write of all element
bytes. -/
theorem binary_writer.write_vector_steps {σ T : Type} [write_impl σ] (w w1 w2 : σ) (c : Nat)
    (repr : T → List byte) (vec : List T) (hc : vec.length * c < 4294967296)
    (hrepr : ∀ x ∈ vec, (repr x).length = c)
    (h1 : write_impl.write_pod w (le_bytes 2 (vec.length % 65536)) = .ok w1)
    (h2 : write_impl.write w1 (vec.map repr).flatten = .ok w2) :
    binary_writer.write_vector w (.pod c repr) vec = .ok w2 := by
  have hl := flatten_repr_length repr c vec hrepr
  have e3 : (vec.map repr).flatten.take (vec.length * c) = (vec.map repr).flatten :=
    List.take_of_length_le (by omega)
  have e4 : wrap_uint ((c : Int) * wrap_int vec.length) = vec.length * c := by
    rw [Int.mul_comm]
    exact wrap_uint_wrap_int_mul _ _ hc
  unfold binary_writer.write_vector binary_writer.write_ushort
  simp only
  rw [wrap_int_mod_ushort, e4, e3, h1]
  exact h2

/-- C29: for a string or a vector of POD elements whose length `len` exceeds 65535,
`write` on an in-memory sink with room for the request appends the two bytes that
denote `len mod 65536`, which differs from `len`, followed by all `len * size` bytes
of the characters or elements. -/
theorem binary_writer.long_count_wraps (len c : Nat) (hlen : 65535 < len) :
    le_value (le_bytes 2 (len % 65536)) = len % 65536 ∧ len % 65536 ≠ len ∧
    (∀ str : List byte, str.length = len * c →
      (∀ s : buffer_write, s.wf → s.Cap + (2 + len * c) ≤ 4294965248 →
        ∃ s' : buffer_write, binary_writer.write_string s c str len = .ok s' ∧
          contents s' = contents s ++ le_bytes 2 (len % 65536) ++ str) ∧
      (∀ (Max : Nat) (s : array_write Max), s.wf → Max < 4294967296 →
        s.Pos + (2 + len * c) ≤ Max →
        ∃ s' : array_write Max, binary_writer.write_string s c str len = .ok s' ∧
          contents s' = contents s ++ le_bytes 2 (len % 65536) ++ str) ∧
      (∀ s : view_write, s.wf → s.Max < 4294967296 → s.Pos + (2 + len * c) ≤ s.Max →
        ∃ s' : view_write, binary_writer.write_string s c str len = .ok s' ∧
          contents s' = contents s ++ le_bytes 2 (len % 65536) ++ str)) ∧
    (∀ (T : Type) (vec : List T) (repr : T → List byte), vec.length = len →
      (∀ x ∈ vec, (repr x).length = c) →
      ((vec.map repr).flatten).length = len * c ∧
      (∀ s : buffer_write, s.wf → s.Cap + (2 + len * c) ≤ 4294965248 →
        ∃ s' : buffer_write, binary_writer.write_vector s (.pod c repr) vec = .ok s' ∧
          contents s' = contents s ++ le_bytes 2 (len % 65536) ++ (vec.map repr).flatten) ∧
      (∀ (Max : Nat) (s : array_write Max), s.wf → Max < 4294967296 →
        s.Pos + (2 + len * c) ≤ Max →
        ∃ s' : array_write Max, binary_writer.write_vector s (.pod c repr) vec = .ok s' ∧
          contents s' = contents s ++ le_bytes 2 (len % 65536) ++ (vec.map repr).flatten) ∧
      (∀ s : view_write, s.wf → s.Max < 4294967296 → s.Pos + (2 + len * c) ≤ s.Max →
        ∃ s' : view_write, binary_writer.write_vector s (.pod c repr) vec = .ok s' ∧
          contents s' = contents s ++ le_bytes 2 (len % 65536)
            ++ (vec.map repr).flatten)) := by
  have h2 : (le_bytes 2 (len % 65536)).length = 2 := le_bytes_length 2 _
  refine ⟨?_, by omega, ?_, ?_⟩
  · rw [le_value_le_bytes]
    exact Nat.mod_eq_of_lt (by norm_num; omega)
  · intro str hstr
    refine ⟨?_, ?_, ?_⟩
    · intro s hwf hroom
      obtain ⟨s1, s2, hw1, hw2, hc, _⟩ := buffer_write.growing_count_then_data s
        (le_bytes 2 (len % 65536)) str h2 hwf (by rw [hstr]; exact hroom)
      exact ⟨s2, binary_writer.write_string_steps s s1 s2 c str len (by omega) hstr hw1 hw2,
        hc⟩
    · intro Max s hwf hM hroom
      obtain ⟨s1, s2, hw1, hw2, hc, _⟩ := array_write.fixed_count_then_data s
        (le_bytes 2 (len % 65536)) str h2 hwf hM (by rw [hstr]; exact hroom)
      exact ⟨s2, binary_writer.write_string_steps s s1 s2 c str len (by omega) hstr hw1 hw2,
        hc⟩
    · intro s hwf hM hroom
      obtain ⟨s1, s2, hw1, hw2, hc, _⟩ := view_write.view_count_then_data s
        (le_bytes 2 (len % 65536)) str h2 hwf hM (by rw [hstr]; exact hroom)
      exact ⟨s2, binary_writer.write_string_steps s s1 s2 c str len (by omega) hstr hw1 hw2,
        hc⟩
  · intro T vec repr hvec hrepr
    subst hvec
    have hl := flatten_repr_length repr c vec hrepr
    refine ⟨hl, ?_, ?_, ?_⟩
    · intro s hwf hroom
      obtain ⟨s1, s2, hw1, hw2, hc, _⟩ := buffer_write.growing_count_then_data s
        (le_bytes 2 (vec.length % 65536)) (vec.map repr).flatten h2 hwf
        (by rw [hl]; exact hroom)
      exact ⟨s2, binary_writer.write_vector_steps s s1 s2 c repr vec (by omega) hrepr hw1 hw2,
        hc⟩
    · intro Max s hwf hM hroom
      obtain ⟨s1, s2, hw1, hw2, hc, _⟩ := array_write.fixed_count_then_data s
        (le_bytes 2 (vec.length % 65536)) (vec.map repr).flatten h2 hwf hM
        (by rw [hl]; exact hroom)
      exact ⟨s2, binary_writer.write_vector_steps s s1 s2 c repr vec (by omega) hrepr hw1 hw2,
        hc⟩
    · intro s hwf hM hroom
      obtain ⟨s1, s2, hw1, hw2, hc, _⟩ := view_write.view_count_then_data s
        (le_bytes 2 (vec.length % 65536)) (vec.map repr).flatten h2 hwf hM
        (by rw [hl]; exact hroom)
      exact ⟨s2, binary_writer.write_vector_steps s s1 s2 c repr vec (by omega) hrepr hw1 hw2,
        hc⟩

/-- C29 at a string of 65537 one-byte characters on a fresh Growing sink: the count
bytes denote `1`, and all 65537 character bytes follow. -/
theorem binary_writer.long_count_wraps_witness :
    le_value (le_bytes 2 (65537 % 65536)) = 65537 % 65536 ∧ 65537 % 65536 ≠ 65537 ∧
    ∃ s' : buffer_write,
      binary_writer.write_string buffer_write.new 1 (List.replicate 65537 0) 65537 = .ok s' ∧
      contents s' = contents buffer_write.new ++ le_bytes 2 (65537 % 65536)
        ++ List.replicate 65537 0 :=
  ⟨(binary_writer.long_count_wraps 65537 1 (by decide)).1,
   (binary_writer.long_count_wraps 65537 1 (by decide)).2.1,
   ((binary_writer.long_count_wraps 65537 1 (by decide)).2.2.1 (List.replicate 65537 0)
      (List.length_replicate 65537 0)).1 buffer_write.new buffer_write.growing_wf_new (by decide)⟩

/-! ## parallel_for: the inline path and the partitions -/

/-- C25: for every `rangeStart < rangeEnd` whose difference is an `int` and with
`min(rangeEnd - rangeStart, coreCount) <= 1` on a pool of at least one core that is
not inside a parallel loop, `parallel_for` invokes the callback exactly once, with
the arguments `(0, rangeEnd - rangeStart)`, and the pool is as before: `rangeRunning`
is not set and the worker list is untouched (the call is made inline; if it throws,
the `noexcept` function terminates). For `rangeEnd <= rangeStart` nothing is invoked. -/
theorem parallel_for_single_core_inline (p : task_pool) (rangeStart rangeEnd : Int)
    (rangeTask : action) (tracer : Option String) (early : Nat → Bool)
    (hrun : p.rangeRunning = false) (hcc : 1 ≤ p.coreCount)
    (hd1 : -2147483648 ≤ rangeEnd - rangeStart) (hd2 : rangeEnd - rangeStart < 2147483648) :
    (rangeStart < rangeEnd → min (rangeEnd - rangeStart) p.coreCount ≤ 1 →
      thread_pool.parallel_for p.tothread_pool rangeStart rangeEnd
        = .ok (p.tothread_pool, [(0, rangeEnd - rangeStart)]) ∧
      p.parallel_for rangeStart rangeEnd rangeTask tracer early
        = .ok (p, match rangeTask.throws 0 (rangeEnd - rangeStart) with
                  | some e => .terminated e
                  | none => .returned)) ∧
    (rangeEnd ≤ rangeStart →
      thread_pool.parallel_for p.tothread_pool rangeStart rangeEnd
        = .ok (p.tothread_pool, []) ∧
      p.parallel_for rangeStart rangeEnd rangeTask tracer early = .ok (p, .returned)) := by
  have hw : wrap_int (rangeEnd - rangeStart) = rangeEnd - rangeStart :=
    wrap_int_of_mem _ hd1 hd2
  have hrun2 : p.tothread_pool.rangeRunning = false := hrun
  have hgt : p.coreCount > 0 := by omega
  have hgt2 : p.tothread_pool.coreCount > 0 := hgt
  refine ⟨?_, ?_⟩
  · intro hlt hmin
    have hne : ¬ (rangeEnd - rangeStart ≤ 0) := by omega
    have hcores : (if rangeEnd - rangeStart < p.coreCount then rangeEnd - rangeStart
        else p.coreCount) = 1 := by
      split <;> omega
    have hlen : wrap_int (Int.tdiv (rangeEnd - rangeStart) 1) = rangeEnd - rangeStart := by
      rw [Int.tdiv_one]
      exact hw
    refine ⟨?_, ?_⟩
    · unfold thread_pool.parallel_for
      simp only [hrun2, hw, hgt2, hne, Bool.false_eq_true, if_false, not_true_eq_false]
      have hcores2 : (if rangeEnd - rangeStart < p.tothread_pool.coreCount
          then rangeEnd - rangeStart else p.tothread_pool.coreCount) = 1 := hcores
      rw [hcores2, hlen]
      simp
    · unfold task_pool.parallel_for
      simp only [hrun, hw, hgt, hne, Bool.false_eq_true, if_false, not_true_eq_false]
      rw [hcores, hlen]
      simp only [le_refl, if_true]
      cases rangeTask.throws 0 (rangeEnd - rangeStart) <;> rfl
  · intro hle
    have hle0 : rangeEnd - rangeStart ≤ 0 := by omega
    refine ⟨?_, ?_⟩
    · unfold thread_pool.parallel_for
      simp only [hrun2, hw, hgt2, hle0, Bool.false_eq_true, if_false, not_true_eq_false,
        if_true]
    · unfold task_pool.parallel_for
      simp only [hrun, hw, hgt, hle0, Bool.false_eq_true, if_false, not_true_eq_false,
        if_true]

/-- C25 at `parallel_for(10, 20, cb)` on a pool with one core and no workers, and at
the empty range `[5, 5)`. -/
theorem parallel_for_single_core_inline_witness :
    (thread_pool.parallel_for ⟨1, false⟩ 10 20 = .ok (⟨1, false⟩, [(0, 20 - 10)]) ∧
      task_pool.parallel_for ⟨⟨1, false⟩, [], 15⟩ 10 20 ⟨1, fun _ _ => none⟩ none
          (fun _ => false)
        = .ok (⟨⟨1, false⟩, [], 15⟩,
            match (⟨1, fun _ _ => none⟩ : action).throws 0 (20 - 10) with
            | some e => .terminated e
            | none => .returned)) ∧
    (thread_pool.parallel_for ⟨1, false⟩ 5 5 = .ok (⟨1, false⟩, []) ∧
      task_pool.parallel_for ⟨⟨1, false⟩, [], 15⟩ 5 5 ⟨1, fun _ _ => none⟩ none
          (fun _ => false)
        = .ok (⟨⟨1, false⟩, [], 15⟩, .returned)) :=
  ⟨(parallel_for_single_core_inline ⟨⟨1, false⟩, [], 15⟩ 10 20 ⟨1, fun _ _ => none⟩ none
      (fun _ => false) rfl (by decide) (by decide) (by decide)).1 (by decide) (by decide),
   (parallel_for_single_core_inline ⟨⟨1, false⟩, [], 15⟩ 5 5 ⟨1, fun _ _ => none⟩ none
      (fun _ => false) rfl (by decide) (by decide) (by decide)).2 (by decide)⟩

theorem partition_bounds (r c rangeEnd : Int) (i : Nat) (hr : 0 ≤ r) (hr2 : r < 2147483648)
    (hc : 0 < c) (hi : (i : Int) < c) :
    thread_pool.partition c (Int.tdiv r c) rangeEnd i
      = ((i : Int) * Int.tdiv r c,
          if (i : Int) = c - 1 then rangeEnd else ((i : Int) + 1) * Int.tdiv r c) := by
  have hq0 : 0 ≤ Int.tdiv r c := by
    rw [Int.tdiv_eq_ediv hr (le_of_lt hc)]; exact Int.ediv_nonneg hr (le_of_lt hc)
  have hi0 : (0 : Int) ≤ i := Int.ofNat_nonneg i
  have h1 : (i : Int) * Int.tdiv r c ≤ r := mul_tdiv_le r c i hr hc (le_of_lt hi)
  have h2 : ((i : Int) + 1) * Int.tdiv r c ≤ r :=
    mul_tdiv_le r c (i + 1) hr hc (by omega)
  have h3 : 0 ≤ (i : Int) * Int.tdiv r c := mul_nonneg hi0 hq0
  have w1 : wrap_int ((i : Int) * Int.tdiv r c) = (i : Int) * Int.tdiv r c :=
    wrap_int_of_mem _ (by omega) (by omega)
  have w2 : wrap_int ((i : Int) * Int.tdiv r c + Int.tdiv r c)
      = ((i : Int) + 1) * Int.tdiv r c := by
    rw [wrap_int_of_mem _ (by omega) (by linarith)]; ring
  unfold thread_pool.partition
  simp only [w1, w2]

/-- C26: for every `rangeStart < rangeEnd` whose difference `range` is an `int` and
with `cores = min(range, coreCount) > 1`, `parallel_for` dispatches exactly `cores`
partitions; the end of each partition is the start of the next, each partition that
has a successor has length exactly `range / cores` (rounded down), and the end of
the last partition is `rangeEnd`. -/
theorem parallel_for_partitions (pool : thread_pool) (rangeStart rangeEnd : Int)
    (hrun : pool.rangeRunning = false) (hlt : rangeStart < rangeEnd)
    (hd : rangeEnd - rangeStart < 2147483648)
    (hcores : 1 < min (rangeEnd - rangeStart) pool.coreCount) :
    ∃ calls : List (Int × Int),
      thread_pool.parallel_for pool rangeStart rangeEnd = .ok (pool, calls) ∧
      (calls.length : Int) = min (rangeEnd - rangeStart) pool.coreCount ∧
      (∀ (i : Nat) (x y : Int × Int), calls[i]? = some x → calls[i + 1]? = some y →
        x.2 = y.1 ∧
        x.2 - x.1 = (rangeEnd - rangeStart) / min (rangeEnd - rangeStart) pool.coreCount) ∧
      (∃ last, calls.getLast? = some last ∧ last.2 = rangeEnd) := by
  have hw : wrap_int (rangeEnd - rangeStart) = rangeEnd - rangeStart :=
    wrap_int_of_mem _ (by omega) hd
  have hpool : ({ pool with rangeRunning := false } : thread_pool) = pool := by
    cases pool; simp_all
  generalize hr : rangeEnd - rangeStart = r at hw hd hcores
  have hr1 : 1 ≤ r := by omega
  have hmin : min r pool.coreCount = if r < pool.coreCount then r else pool.coreCount := by
    split <;> omega
  rw [hmin] at hcores ⊢
  unfold thread_pool.parallel_for
  simp only [hrun, hr, hw, hpool]
  generalize hcs : (if r < pool.coreCount then r else pool.coreCount) = c at hcores ⊢
  have hc2 : c ≤ r := by rw [← hcs]; split <;> omega
  have hcc : pool.coreCount > 0 := by
    have : c ≤ pool.coreCount := by rw [← hcs]; split <;> omega
    omega
  have hq : Int.tdiv r c = r / c := Int.tdiv_eq_ediv (by omega) (by omega)
  have hq0 : 0 ≤ Int.tdiv r c := by
    rw [hq]; exact Int.ediv_nonneg (by omega) (by omega)
  have hq1 : Int.tdiv r c ≤ r := by
    have := mul_tdiv_le r c 1 (by omega) (by omega) (by omega)
    omega
  have hlen : wrap_int (Int.tdiv r c) = Int.tdiv r c :=
    wrap_int_of_mem _ (by omega) (by omega)
  have hne : ¬ (r ≤ 0) := by omega
  have hc1 : ¬ (c ≤ 1) := by omega
  simp only [hlen, hcc, hne, hc1, not_true_eq_false, if_false, Bool.false_eq_true]
  have hk : ((c.toNat : Nat) : Int) = c := Int.toNat_of_nonneg (by omega)
  refine ⟨_, rfl, ?_, ?_, ?_⟩
  · rw [List.length_map, List.length_range, hk]
  · intro i x y hx hy
    rw [List.getElem?_map] at hx hy
    have hi1 : i + 1 < c.toNat := by
      by_contra hcon
      have hnone : (List.range c.toNat)[i + 1]? = none :=
        List.getElem?_eq_none (by rw [List.length_range]; omega)
      rw [hnone] at hy
      simp at hy
    rw [List.getElem?_range (by omega)] at hx
    rw [List.getElem?_range hi1] at hy
    simp only [Option.map_some', Option.some.injEq] at hx hy
    rw [partition_bounds r c rangeEnd i (by omega) hd (by omega) (by omega)] at hx
    rw [partition_bounds r c rangeEnd (i + 1) (by omega) hd (by omega) (by omega)] at hy
    have hnl : ¬ ((i : Int) = c - 1) := by omega
    rw [if_neg hnl] at hx
    rw [← hx, ← hy]
    refine ⟨by push_cast; rfl, ?_⟩
    show ((i : Int) + 1) * Int.tdiv r c - (i : Int) * Int.tdiv r c = r / c
    rw [hq]
    ring
  · obtain ⟨k, hk2⟩ : ∃ k : Nat, c.toNat = k + 1 := ⟨c.toNat - 1, by omega⟩
    rw [hk2, List.range_succ, List.map_append, List.map_singleton,
      List.getLast?_append, List.getLast?_singleton]
    refine ⟨_, rfl, ?_⟩
    rw [partition_bounds r c rangeEnd k (by omega) hd (by omega) (by omega)]
    have hl : (k : Int) = c - 1 := by omega
    rw [if_pos hl]

/-- C26 at `parallel_for(10, 20, cb)` on a pool with four cores. -/
theorem parallel_for_partitions_witness :
    ∃ calls : List (Int × Int),
      thread_pool.parallel_for ⟨4, false⟩ 10 20 = .ok (⟨4, false⟩, calls) ∧
      (calls.length : Int) = min (20 - 10) 4 ∧
      (∀ (i : Nat) (x y : Int × Int), calls[i]? = some x → calls[i + 1]? = some y →
        x.2 = y.1 ∧ x.2 - x.1 = (20 - 10) / min (20 - 10) 4) ∧
      (∃ last, calls.getLast? = some last ∧ last.2 = 20) :=
  parallel_for_partitions ⟨4, false⟩ 10 20 rfl (by decide) (by decide) (by decide)

/-! ## The task slots of a worker -/

theorem pool_task.run_range_idle (t : pool_task) (start stop : Int) (f : action)
    (tracer : Option String) (hidle : t.taskRunning = false) :
    ∃ t1, t.run_range start stop f tracer = .ok t1 ∧ t1.taskRunning = true ∧
      t1.killed = false ∧ t1.error = none ∧ t1.rangeTask = some f ∧
      t1.rangeStart = start ∧ t1.rangeEnd = stop ∧ t1.genericTask = none := by
  unfold pool_task.run_range pool_task.resurrect pool_task.join_or_detach
  cases hk : t.killed <;> cases hj : t.joinable <;> simp [hidle, hk, hj]

theorem pool_task.run_generic_zeroes (t : pool_task) (f : task_delegate)
    (tracer : Option String) (hidle : t.taskRunning = false) :
    ∃ t1, t.run_generic f tracer = .ok t1 ∧ t1.taskRunning = true ∧ t1.killed = false ∧
      t1.error = none ∧ t1.genericTask = some f ∧ t1.rangeTask = none ∧
      t1.rangeStart = 0 ∧ t1.rangeEnd = 0 := by
  unfold pool_task.run_generic pool_task.resurrect pool_task.join_or_detach
  cases hk : t.killed <;> cases hj : t.joinable <;> simp [hidle, hk, hj]

/-- The range slot and the generic slot are not both set. -/
theorem pool_task.step_one_slot (t t1 : pool_task) (e : pool_task.event)
    (hinv : ¬ (t.rangeTask.isSome = true ∧ t.genericTask.isSome = true))
    (h : t.step e = some t1) :
    ¬ (t1.rangeTask.isSome = true ∧ t1.genericTask.isSome = true) := by
  cases e with
  | run_range start stop newTask tracer =>
    simp only [pool_task.step] at h
    by_cases hr : t.taskRunning = true
    · simp [pool_task.run_range, hr] at h
    · obtain ⟨t2, h2, _, _, _, _, _, _, hg⟩ :=
        pool_task.run_range_idle t start stop newTask tracer (by simpa using hr)
      rw [h2] at h
      simp only [Option.some.injEq] at h
      rw [← h, hg]
      simp
  | run_generic newTask tracer =>
    simp only [pool_task.step] at h
    by_cases hr : t.taskRunning = true
    · simp [pool_task.run_generic, hr] at h
    · obtain ⟨t2, h2, _, _, _, _, hg, _⟩ :=
        pool_task.run_generic_zeroes t newTask tracer (by simpa using hr)
      rw [h2] at h
      simp only [Option.some.injEq] at h
      rw [← h, hg]
      simp
  | worker_pass idle_timeout =>
    simp only [pool_task.step] at h
    have hloop : ∀ (u : pool_task) (b : Bool),
        pool_task.wait_for_task_loop (if idle_timeout then [⟨t, true⟩] else []) t
          = some (u, b) → u = t := by
      intro u b hu
      cases idle_timeout with
      | false =>
        simp only [Bool.false_eq_true, if_false] at hu
        rw [pool_task.wait_for_task_loop] at hu
        cases hd : t.wait_for_task <;> rw [hd] at hu <;>
          simp only [Option.some.injEq, Prod.mk.injEq] at hu
        · exact hu.1.symm
        · exact hu.1.symm
        · cases hu
        · cases hu
      | true =>
        simp only [if_true] at hu
        rw [pool_task.wait_for_task_loop] at hu
        cases hd : t.wait_for_task <;> rw [hd] at hu <;>
          simp only [if_true, Option.some.injEq, Prod.mk.injEq] at hu
        · exact hu.1.symm
        · exact hu.1.symm
        · exact hu.1.symm
        · rw [pool_task.wait_for_task_loop, hd] at hu
          cases hu
    unfold pool_task.run_waking at h
    cases hl : pool_task.wait_for_task_loop (if idle_timeout then [⟨t, true⟩] else []) t with
    | none =>
      rw [hl] at h
      simp at h
    | some r =>
      obtain ⟨u, b⟩ := r
      have hu := hloop u b hl
      subst hu
      rw [hl] at h
      cases b with
      | false =>
        simp only [Option.some.injEq] at h
        rw [← h]
        exact hinv
      | true =>
        simp only at h
        unfold pool_task.run_task at h
        cases hr : u.rangeTask with
        | some range =>
          rw [hr] at h
          simp only [Option.some.injEq] at h
          rw [← h]
          simp only [pool_task.unhandled_exception]
          split <;> simp
        | none =>
          cases hg : u.genericTask with
          | some generic =>
            rw [hr, hg] at h
            simp only [Option.some.injEq] at h
            rw [← h]
            simp only [pool_task.unhandled_exception]
            split <;> simp
          | none =>
            rw [hr, hg] at h
            simp at h
  | kill timeoutMillis timed_out on_worker_thread =>
    simp only [pool_task.step] at h
    have hj : ∀ (u : pool_task) (r : wait_result),
        (u.join_or_detach r on_worker_thread).1.rangeTask = u.rangeTask ∧
        (u.join_or_detach r on_worker_thread).1.genericTask = u.genericTask := by
      intro u r
      unfold pool_task.join_or_detach
      split
      · split
        · exact ⟨rfl, rfl⟩
        · split <;> exact ⟨rfl, rfl⟩
      · exact ⟨rfl, rfl⟩
    unfold pool_task.kill at h
    by_cases hk : t.killed = true
    · rw [if_pos hk] at h
      simp only [Option.map_some', Option.some.injEq] at h
      rw [← h, (hj t .finished).1, (hj t .finished).2]
      exact hinv
    · rw [if_neg hk] at h
      have hw : pool_task.wait_nothrow { t with killed := true } timeoutMillis timed_out
          = some ({ t with killed := true }, .finished) := by
        simp [pool_task.wait_nothrow]
      rw [hw] at h
      simp only [Option.map_some', Option.some.injEq] at h
      rw [← h, (hj _ .finished).1, (hj _ .finished).2]
      exact hinv
  | max_idle_time maxIdleSeconds =>
    simp only [pool_task.step, Option.some.injEq] at h
    rw [← h]
    exact hinv

theorem pool_task.exec_one_slot (events : List pool_task.event) :
    ∀ (t t1 : pool_task), ¬ (t.rangeTask.isSome = true ∧ t.genericTask.isSome = true) →
      t.exec events = some t1 →
      ¬ (t1.rangeTask.isSome = true ∧ t1.genericTask.isSome = true) := by
  induction events with
  | nil =>
    intro t t1 hinv h
    simp only [pool_task.exec, Option.some.injEq] at h
    rw [← h]
    exact hinv
  | cons e es ih =>
    intro t t1 hinv h
    simp only [pool_task.exec] at h
    cases hs : t.step e with
    | none =>
      rw [hs] at h
      simp at h
    | some t2 =>
      rw [hs] at h
      exact ih t2 t1 (pool_task.step_one_slot t t2 e hinv hs) h

/-- C27: `run_range` and `run_generic` on a worker that is not running return, and
the worker afterwards has an empty error slot, `killed == false`, `running == true`
and exactly one task: `run_range` stores the range callback with its start and end
and empties the generic slot, `run_generic` stores the generic callable, empties the
range slot and zeroes start and end. In every worker state reached from a fresh
worker by submissions, passes of the worker thread, `kill` and `max_idle_time`, the
range slot and the generic slot are not both set. -/
theorem pool_task.submission_fills_one_slot (t : pool_task) (hidle : t.running = false) :
    (∀ (start stop : Int) (newTask : action) (tracer : Option String),
      ∃ t1, t.run_range start stop newTask tracer = .ok t1 ∧ t1.error = none ∧
        t1.killed = false ∧ t1.running = true ∧ t1.rangeTask = some newTask ∧
        t1.rangeStart = start ∧ t1.rangeEnd = stop ∧ t1.genericTask = none) ∧
    (∀ (newTask : task_delegate) (tracer : Option String),
      ∃ t1, t.run_generic newTask tracer = .ok t1 ∧ t1.error = none ∧
        t1.killed = false ∧ t1.running = true ∧ t1.genericTask = some newTask ∧
        t1.rangeTask = none ∧ t1.rangeStart = 0 ∧ t1.rangeEnd = 0) ∧
    (∀ (events : List pool_task.event) (t1 : pool_task),
      pool_task.new.exec events = some t1 →
      ¬ (t1.rangeTask.isSome = true ∧ t1.genericTask.isSome = true)) := by
  refine ⟨?_, ?_, ?_⟩
  · intro start stop newTask tracer
    obtain ⟨t1, h, hr, hk, he, hrt, hs, hst, hg⟩ :=
      pool_task.run_range_idle t start stop newTask tracer hidle
    exact ⟨t1, h, he, hk, hr, hrt, hs, hst, hg⟩
  · intro newTask tracer
    obtain ⟨t1, h, hr, hk, he, hg, hrt, hs, hst⟩ :=
      pool_task.run_generic_zeroes t newTask tracer hidle
    exact ⟨t1, h, he, hk, hr, hg, hrt, hs, hst⟩
  · intro events t1 h
    exact pool_task.exec_one_slot events pool_task.new t1 (by simp [pool_task.new]) h

/-- C27 at a fresh worker: a range submission, and the state after a generic
submission, a pass of the worker thread and a range submission. -/
theorem pool_task.submission_fills_one_slot_witness :
    (∃ t1, pool_task.new.run_range 0 8 ⟨1, fun _ _ => none⟩ none = .ok t1 ∧
      t1.error = none ∧ t1.killed = false ∧ t1.running = true ∧
      t1.rangeTask = some ⟨1, fun _ _ => none⟩ ∧ t1.rangeStart = 0 ∧ t1.rangeEnd = 8 ∧
      t1.genericTask = none) ∧
    ¬ ((pool_task.mk none (some ⟨1, fun _ _ => none⟩) 0 8 15 "" none true false
          true).rangeTask.isSome = true ∧
        (pool_task.mk none (some ⟨1, fun _ _ => none⟩) 0 8 15 "" none true false
          true).genericTask.isSome = true) :=
  ⟨(pool_task.submission_fills_one_slot pool_task.new rfl).1 0 8 ⟨1, fun _ _ => none⟩ none,
   (pool_task.submission_fills_one_slot pool_task.new rfl).2.2
      [.run_generic ⟨2, none⟩ none, .worker_pass false,
        .run_range 0 8 ⟨1, fun _ _ => none⟩ none]
      (pool_task.mk none (some ⟨1, fun _ _ => none⟩) 0 8 15 "" none true false true) rfl⟩

/-! ## clear() on a Growing sink -/

/-- C28 (evaluation at the failing input): a default-constructed Growing sink has
`size() == 0`, capacity `0` and a null buffer, and `clear()` on it performs the
store `*Buf = 0` through that null pointer. -/
theorem buffer_write.clear_default_stores_null :
    write_impl.size buffer_write.new = 0 ∧ buffer_write.new.Cap = 0 ∧
    buffer_write.new.Buf = none ∧
    write_impl.clear buffer_write.new = .error .memory := by
  decide

/-! ## The counters of the pool -/

theorem count_loop_spec (f : pool_task → Bool) (tasks : List pool_task) :
    ∀ acc : Int, 0 ≤ acc → acc + tasks.length < 2147483648 →
      tasks.foldl (fun n task => if f task then wrap_int (n + 1) else n) acc
        = acc + ((tasks.filter f).length : Int) := by
  induction tasks with
  | nil =>
    intro acc _ _
    simp
  | cons t ts ih =>
    intro acc h0 h1
    simp only [List.length_cons, Nat.cast_add, Nat.cast_one] at h1
    simp only [List.foldl_cons]
    cases hf : f t with
    | true =>
      have hw : wrap_int (acc + 1) = acc + 1 := wrap_int_of_mem _ (by omega) (by omega)
      simp only [if_true, hw, List.filter_cons, hf]
      rw [ih (acc + 1) (by omega) (by omega)]
      simp only [List.length_cons, Nat.cast_add, Nat.cast_one]
      omega
    | false =>
      simp only [Bool.false_eq_true, if_false, List.filter_cons, hf]
      exact ih acc h0 (by omega)

theorem filter_lengths_add (f : pool_task → Bool) (tasks : List pool_task) :
    (tasks.filter f).length + (tasks.filter fun t => !f t).length = tasks.length := by
  induction tasks with
  | nil => rfl
  | cons t ts ih =>
    cases hf : f t <;> simp [List.filter_cons, hf] <;> omega

theorem task_pool.counters_spec (q : task_pool) (h : q.tasks.length < 2147483648) :
    q.active_tasks = ((q.tasks.filter fun t => t.running).length : Int) ∧
    q.idle_tasks = ((q.tasks.filter fun t => !t.running).length : Int) ∧
    q.total_tasks = (q.tasks.length : Int) := by
  refine ⟨?_, ?_, ?_⟩
  · unfold task_pool.active_tasks
    rw [count_loop_spec (fun t => t.running) q.tasks 0 (by omega) (by omega)]
    omega
  · unfold task_pool.idle_tasks
    rw [count_loop_spec (fun t => !t.running) q.tasks 0 (by omega) (by omega)]
    omega
  · unfold task_pool.total_tasks
    exact wrap_int_of_mem _ (by omega) (by omega)

theorem task_pool.clear_idle_tasks_perm (p : task_pool) (h : p.tasks.length < 2147483648) :
    ((p.clear_idle_tasks).1.tasks).Perm (p.tasks.filter fun t => t.running) := by
  have hb : (0 : Int) + (p.tasks.length : Int) < 2147483648 := by omega
  obtain ⟨h1, _⟩ := clear_idle_loop_spec (p.tasks.length + 1) p.tasks 0 0
    (Nat.zero_le _) (by omega) (Int.le_refl 0) hb (by simp)
  rw [task_pool.clear_idle_tasks_eq]
  generalize clear_idle_loop (p.tasks.length + 1) p.tasks 0 0 = r at h1 ⊢
  obtain ⟨c, ts⟩ := r
  exact h1

/-- C30: on every worker list (of fewer than `2^31` workers, the range of the `int`
counters), `active_tasks() + idle_tasks() == total_tasks()`; and after
`clear_idle_tasks()` `total_tasks()` equals the previous `active_tasks()` and
`idle_tasks()` is `0`. -/
theorem task_pool.counters_add_up (p : task_pool) (h : p.tasks.length < 2147483648) :
    p.active_tasks + p.idle_tasks = p.total_tasks ∧
    (p.clear_idle_tasks).1.total_tasks = p.active_tasks ∧
    (p.clear_idle_tasks).1.idle_tasks = 0 := by
  obtain ⟨ha, hi, ht⟩ := task_pool.counters_spec p h
  have hperm := task_pool.clear_idle_tasks_perm p h
  have hadd := filter_lengths_add (fun t => t.running) p.tasks
  have hle : (p.tasks.filter fun t => t.running).length ≤ p.tasks.length :=
    List.length_filter_le _ _
  have hlen : (p.clear_idle_tasks).1.tasks.length
      = (p.tasks.filter fun t => t.running).length := hperm.length_eq
  obtain ⟨_, hi2, ht2⟩ := task_pool.counters_spec (p.clear_idle_tasks).1 (by omega)
  have hnone : ((p.clear_idle_tasks).1.tasks.filter fun t => !t.running) = [] := by
    apply List.filter_eq_nil_iff.mpr
    intro t ht
    have hm : t ∈ p.tasks.filter fun t => t.running := hperm.subset ht
    simp [(List.mem_filter.mp hm).2]
  refine ⟨?_, ?_, ?_⟩
  · rw [ha, hi, ht]
    omega
  · rw [ht2, ha, hlen]
  · rw [hi2, hnone]
    rfl

/-- C30 at a pool of an idle, a running and another idle worker. -/
theorem task_pool.counters_add_up_witness :
    (⟨⟨4, false⟩, [pool_task.new, { pool_task.new with taskRunning := true },
        pool_task.new], 15⟩ : task_pool).active_tasks
      + (⟨⟨4, false⟩, [pool_task.new, { pool_task.new with taskRunning := true },
        pool_task.new], 15⟩ : task_pool).idle_tasks
      = (⟨⟨4, false⟩, [pool_task.new, { pool_task.new with taskRunning := true },
        pool_task.new], 15⟩ : task_pool).total_tasks ∧
    ((⟨⟨4, false⟩, [pool_task.new, { pool_task.new with taskRunning := true },
        pool_task.new], 15⟩ : task_pool).clear_idle_tasks).1.total_tasks
      = (⟨⟨4, false⟩, [pool_task.new, { pool_task.new with taskRunning := true },
        pool_task.new], 15⟩ : task_pool).active_tasks ∧
    ((⟨⟨4, false⟩, [pool_task.new, { pool_task.new with taskRunning := true },
        pool_task.new], 15⟩ : task_pool).clear_idle_tasks).1.idle_tasks = 0 :=
  task_pool.counters_add_up
    ⟨⟨4, false⟩, [pool_task.new, { pool_task.new with taskRunning := true }, pool_task.new],
      15⟩ (by simp)

end rpp
